import Mathlib

/-!
A reactive dependency-tracking runtime (`src/index.js`).

Shallow embedding of the runtime of `src/index.js`: the identity maps `toProxy` / `toRow`,
`createReactiveObject` with its three proxy traps, the dependency graph `targetMap` with
`track` / `trigger`, and the effect runner `effect` / `createReactiveEffect` / `run`.

Modelling conventions.

* The module-level registries of the source (`toProxy`, `toRow`, `targetMap`,
  `activeEffectStacks`) are the fields of an explicit `State`, passed through every function.
* Objects live in a heap and are identified by their index (`Ref`); the `WeakMap`s are
  association lists keyed by `Ref`, `Map` and `Set` are association lists and lists kept in
  insertion order (the order `Set.prototype.forEach` visits).  Garbage collection is not
  observable by the program and is not modelled.
* A raw object is a record of own data properties together with the flags that decide the
  outcome of `Reflect.set` (`extensible`, `writable`) and of `delete` (`configurable`);
  `Object.freeze` clears the three.
  Accessor properties of the program's own objects are not modelled.
* `Reflect.get`, `Reflect.set`, `isOwnProperty` and the traps built on them are those of
  ordinary data keys on objects that inherit `hasOwnProperty` from `Object.prototype`
  unshadowed.  What the write trap does at the names of the members of `Object.prototype`
  (the inherited methods, the accessor `__proto__`) and on a target that shadows
  `hasOwnProperty` is given by the definitions of the namespace `AnyKey`;
  `anyKey_handlesSet_eq` shows that the two agree everywhere else.
* Numbers are IEEE doubles.  The model holds the doubles with an integral value
  (`Val.num n`, where `n` is a double: the host rounds its literals), the two infinities and
  `NaN` (the one value with `NaN !== NaN`); `+` rounds the exact sum to the nearest double,
  so `2^53 + 1` is `2^53`.  Fractions and the sign of zero are not modelled: no operation of
  the host language produces or observes them.
* The function handed to `effect` is user code.  It is represented by a statement of a small
  host language (`Stmt`) whose property reads, writes and deletes go through the proxy traps
  exactly when the receiver is a proxy.  The script is not in strict mode, so a falsy trap
  result of `set` / `deleteProperty` is ignored by the host.
* Effects can re-trigger themselves without bound, so the functions that may run user code
  take a fuel argument and answer `Res.timeout` when it is exhausted.
* `State.calls` is a ghost trace: `run` appends the handle of the effect whose body it is
  about to invoke.  Nothing reads it.
-/

set_option autoImplicit false

namespace Reactive

/-! ## Finite maps in insertion order -/

namespace Assoc

variable {κ ν : Type} [DecidableEq κ]

/-- The value stored under `k` (`Map.prototype.get`). -/
def get : List (κ × ν) → κ → Option ν
  | [], _ => none
  | (k', v) :: m, k => if k' = k then some v else get m k

/-- Whether `k` is a key (`Map.prototype.has`). -/
def has (m : List (κ × ν)) (k : κ) : Bool := (get m k).isSome

/-- Store `v` under `k`: overwrite in place, or append a new entry (`Map.prototype.set`). -/
def set : List (κ × ν) → κ → ν → List (κ × ν)
  | [], k, v => [(k, v)]
  | (k', v') :: m, k, v => if k' = k then (k, v) :: m else (k', v') :: set m k v

end Assoc

/-! ## Values, objects, state -/

abbrev Ref := Nat
abbrev Key := String
abbrev EffectId := Nat

/-- JavaScript values. -/
inductive Val where
  | undefined
  | null
  | bool (b : Bool)
  | num (n : Int)
  | inf (negative : Bool)
  | nan
  | str (s : String)
  | func (f : Nat)
  | ref (r : Ref)
  deriving DecidableEq, Inhabited

/-- An ordinary object: its own data properties, and three flags: whether properties can be
added, whether the existing ones can be assigned, whether they can be deleted. -/
structure RawObj where
  props : List (Key × Val)
  extensible : Bool
  writable : Bool
  configurable : Bool
  deriving DecidableEq

/-- A heap cell: an ordinary object, or a `Proxy` built by `createReactiveObject`
(all of them carry the same `handles`, so the target is all there is to store). -/
inductive Obj where
  | raw (o : RawObj)
  | proxy (target : Ref)
  deriving DecidableEq

/-- Expressions of the host program. -/
inductive Expr where
  | lit (v : Val)
  | var (x : String)
  | newObj (props : List (Key × Val))
  | get (o : Expr) (k : Key)
  | plus (a b : Expr)
  | reactive (e : Expr)
  deriving DecidableEq

/-- Statements of the host program; `effect body` is `effect(() => { body })`. -/
inductive Stmt where
  | skip
  | seq (a b : Stmt)
  | assign (x : String) (e : Expr)
  | setProp (o : Expr) (k : Key) (e : Expr)
  | deleteProp (o : Expr) (k : Key)
  | effect (body : Stmt)
  | throw (e : Expr)
  | expr (e : Expr)
  | log (e : Expr)
  | ite (c : Expr) (a b : Stmt)
  | freeze (o : Expr)
  deriving DecidableEq

/-- The runtime state: heap, the four registries of the source, the closures made by
`createReactiveEffect`, the host variables, the console, and the ghost trace. -/
structure State where
  heap : List Obj
  toProxy : List (Ref × Ref)
  toRow : List (Ref × Ref)
  targetMap : List (Ref × List (Key × List EffectId))
  activeEffectStacks : List EffectId
  effects : List Stmt
  vars : List (String × Val)
  console : List Val
  calls : List EffectId
  deriving DecidableEq

/-- The state of a freshly loaded module. -/
def State.empty : State :=
  ⟨[], [], [], [], [], [], [], [], []⟩

/-- Outcome of running code: normal completion, a raised failure, or fuel exhausted. -/
inductive Res (α : Type) where
  | ok (a : α) (s : State)
  | throw (v : Val) (s : State)
  | timeout
  deriving DecidableEq

/-! ## The source functions -/

/-- The `typeof` operator. -/
def typeof : Val → String
  | .undefined => "undefined"
  | .null => "object"
  | .bool _ => "boolean"
  | .num _ => "number"
  | .inf _ => "number"
  | .nan => "number"
  | .str _ => "string"
  | .func _ => "function"
  | .ref _ => "object"

/-- The loose comparison `value != null`. -/
def looseNeNull : Val → Bool
  | .undefined => false
  | .null => false
  | _ => true

/-- The strict inequality `a !== b`. -/
def strictNe : Val → Val → Bool
  | .nan, _ => true
  | _, .nan => true
  | a, b => decide (a ≠ b)

/-- `isObject(value)`: `typeof value === 'object' && value != null`. -/
def isObject (value : Val) : Bool :=
  typeof value == "object" && looseNeNull value

/-- Own data properties of the object at `target` (none for anything else). -/
def ownProps (s : State) (target : Ref) : List (Key × Val) :=
  match s.heap[target]? with
  | some (.raw o) => o.props
  | _ => []

/-- `isOwnProperty(target, key)`: `target.hasOwnProperty(key)`. -/
def isOwnProperty (s : State) (target : Ref) (key : Key) : Bool :=
  Assoc.has (ownProps s target) key

namespace Reflect

/-- `Reflect.get(target, key, receiver)` (also `target[key]`) on an ordinary target. -/
def get (s : State) (target : Ref) (key : Key) : Val :=
  (Assoc.get (ownProps s target) key).getD .undefined

/-- Whether an ordinary object accepts an assignment to `key`: an existing data property
must be writable, a missing one can be created when the object is extensible. -/
def accepts (o : RawObj) (key : Key) : Bool :=
  if Assoc.has o.props key then o.writable else o.extensible

/-- `Reflect.set(target, key, value, receiver)` on an ordinary target whose receiver is its
proxy: the property is overwritten or created when the target accepts the assignment; the
flag tells whether the assignment took place. -/
def set (s : State) (target : Ref) (key : Key) (value : Val) : Bool × State :=
  match s.heap[target]? with
  | some (.raw o) =>
    if accepts o key then
      (true, { s with heap := s.heap.set target (.raw { o with props := Assoc.set o.props key value }) })
    else (false, s)
  | _ => (false, s)

end Reflect

/-- `createReactiveObject(target)`, lines 31-90. -/
def createReactiveObject (target : Val) (s : State) : Val × State :=
  if !isObject target then (target, s)
  else
    match target with
    | .ref r =>
      match Assoc.get s.toProxy r with
      | some proxyed => (.ref proxyed, s)
      | none =>
        if Assoc.has s.toRow r then (target, s)
        else
          let observe := s.heap.length
          (.ref observe,
            { s with
              heap := s.heap ++ [.proxy r]
              toProxy := Assoc.set s.toProxy r observe
              toRow := Assoc.set s.toRow observe r })
    | _ => (target, s)

/-- `reactive(target)`. -/
def reactive (target : Val) (s : State) : Val × State :=
  createReactiveObject target s

/-- `track(target, key)`, lines 109-128. -/
def track (target : Ref) (key : Key) (s : State) : State :=
  match s.activeEffectStacks.getLast? with
  | none => s
  | some effect =>
    let depsMap := (Assoc.get s.targetMap target).getD []
    let deps := (Assoc.get depsMap key).getD []
    let deps := if deps.contains effect then deps else deps ++ [effect]
    { s with targetMap := Assoc.set s.targetMap target (Assoc.set depsMap key deps) }

/-- The set of effects recorded under `(target, key)`, if there is one. -/
def depsOf (s : State) (target : Ref) (key : Key) : Option (List EffectId) :=
  (Assoc.get s.targetMap target).bind (fun depsMap => Assoc.get depsMap key)

/-- `console.log(v)`. -/
def consoleLog (v : Val) (s : State) : State :=
  { s with console := s.console ++ [v] }

namespace handles

/-- The `get` trap, lines 47-57. -/
def get (target : Ref) (key : Key) (s : State) : Val × State :=
  let result := Reflect.get s target key
  let s := track target key s
  if isObject result then reactive result s else (result, s)

/-- The `set` trap, lines 58-78; `trigger` is the runner's `trigger` at the current fuel. -/
def set (trigger : Ref → String → Key → State → Res Unit)
    (target : Ref) (key : Key) (value : Val) (s : State) : Res Bool :=
  let oldValue := Reflect.get s target key
  let (flag, s) := Reflect.set s target key value
  if !isOwnProperty s target key then
    match trigger target "add" key s with
    | .ok _ s => .ok flag (consoleLog (.str "设置新的属性") s)
    | .throw v s => .throw v s
    | .timeout => .timeout
  else if strictNe oldValue value then
    match trigger target "set" key s with
    | .ok _ s => .ok flag (consoleLog (.str "修改原有的属性") s)
    | .throw v s => .throw v s
    | .timeout => .timeout
  else .ok flag s

/-- The `deleteProperty` trap, lines 79-81: an empty body, so the result is `undefined`. -/
def deleteProperty (_target : Ref) (_key : Key) (s : State) : Val × State :=
  (.undefined, s)

end handles

/-- `trigger(target, type, key)`, lines 133-144; `forEach` is `deps.forEach(effect => effect())`
for the set under `(target, key)`. -/
def trigger (forEach : Ref → Key → State → Res Unit)
    (target : Ref) (_type : String) (key : Key) (s : State) : Res Unit :=
  match Assoc.get s.targetMap target with
  | none => .ok () s
  | some depsMap =>
    match Assoc.get depsMap key with
    | none => .ok () s
    | some _ => forEach target key s

/-- `run(effect, fn)`, lines 165-174; `fn` is the call `fn()`. -/
def run (fn : State → Res Unit) (effect : EffectId) (s : State) : Res Unit :=
  let s := { s with
    activeEffectStacks := s.activeEffectStacks ++ [effect]
    calls := s.calls ++ [effect] }
  match fn s with
  | .ok _ s => .ok () { s with activeEffectStacks := s.activeEffectStacks.dropLast }
  | .throw v s => .throw v { s with activeEffectStacks := s.activeEffectStacks.dropLast }
  | .timeout => .timeout

/-- `createReactiveEffect(fn)`: allocate the closure `effect`, whose handle is returned. -/
def createReactiveEffect (fn : Stmt) (s : State) : EffectId × State :=
  (s.effects.length, { s with effects := s.effects ++ [fn] })

/-- `effect(fn)`, lines 154-157; `call` is the call `effectFun()` of a closure. -/
def effect (call : EffectId → State → Res Unit) (fn : Stmt) (s : State) : Res Unit :=
  let (effectFun, s) := createReactiveEffect fn s
  call effectFun s

/-! ## The host language -/

/-- Round a natural number to the nearest IEEE double, ties to the even significand.  Below
`2^53` every natural number is a double; from there on a double is `q * 2^e` with
`2^52 ≤ q < 2^53`, where `e` is the number of binary digits of `m` beyond 53.  A result of
`2^1024` or more stands for an overflow. -/
def roundNat (m : Nat) : Nat :=
  if m < 2 ^ 53 then m
  else
    let e := (Nat.toDigits 2 m).length - 53
    let q := m / 2 ^ e
    let r := m % 2 ^ e
    let half := 2 ^ (e - 1)
    if half < r || (r == half && q % 2 == 1) then (q + 1) * 2 ^ e else q * 2 ^ e

/-- The Number value of the integer `z`: the nearest double, or an infinity on overflow. -/
def toDouble (z : Int) : Val :=
  if 2 ^ 1024 ≤ roundNat z.natAbs then .inf (decide (z < 0))
  else .num (if z < 0 then -(roundNat z.natAbs : Int) else (roundNat z.natAbs : Int))

/-- `ToNumber` of a primitive that is not a string: the result is a number, an infinity or
`NaN`. -/
def toNumber : Val → Val
  | .null => .num 0
  | .bool b => .num (if b then 1 else 0)
  | .num n => .num n
  | .inf b => .inf b
  | _ => .nan

/-- The sum of two Number values: the exact sum rounded to a double. -/
def numAdd : Val → Val → Val
  | .num x, .num y => toDouble (x + y)
  | .inf a, .inf b => if a = b then .inf a else .nan
  | .inf a, .num _ => .inf a
  | .num _, .inf b => .inf b
  | _, _ => .nan

/-- Number of decimal digits of `m`. -/
def digitsLen (m : Nat) : Nat := (Nat.toDigits 10 m).length

/-- The decimal integer with the fewest significant digits that rounds to the double `m`;
among several, the one closest to `m`, and the one with the even last digit when two are
equally close (`Number::toString`, step 5). -/
def shortestDecimal (m : Nat) : Nat :=
  ((List.range (digitsLen m)).findSome? (fun i =>
    let p := digitsLen m - (i + 1)
    let lo := m / 10 ^ p * 10 ^ p
    let hi := lo + 10 ^ p
    match roundNat lo == m, roundNat hi == m with
    | true, true =>
      some (if m - lo < hi - m then lo
            else if hi - m < m - lo then hi
            else if lo / 10 ^ p % 2 == 0 then lo else hi)
    | true, false => some lo
    | false, true => some hi
    | false, false => none)).getD m

/-- Drop the trailing zeros of a list of digits. -/
def dropTrailingZeros (ds : List Char) : List Char :=
  (ds.reverse.dropWhile (fun c => c == '0')).reverse

/-- `Number::toString` of a double with a natural value: the digits of the shortest decimal
that rounds to it, written in full up to 21 digits and in exponent form beyond. -/
def natToStr (m : Nat) : String :=
  let v := shortestDecimal m
  let n := digitsLen v
  if n ≤ 21 then String.mk (Nat.toDigits 10 v)
  else
    match dropTrailingZeros (Nat.toDigits 10 v) with
    | [] => "0"
    | [d] => String.mk [d] ++ "e+" ++ String.mk (Nat.toDigits 10 (n - 1))
    | d :: ds => String.mk (d :: '.' :: ds) ++ "e+" ++ String.mk (Nat.toDigits 10 (n - 1))

/-- `ToString` of a primitive. -/
def toStr : Val → String
  | .undefined => "undefined"
  | .null => "null"
  | .bool b => if b then "true" else "false"
  | .num n => if n < 0 then "-" ++ natToStr n.natAbs else natToStr n.natAbs
  | .inf b => if b then "-Infinity" else "Infinity"
  | .nan => "NaN"
  | .str s => s
  | _ => ""

/-- The `+` operator on primitives: concatenation when an operand is a string, addition of
the operands as numbers otherwise.  An operand that is an object or a function would first be
converted by calling its methods, which is not modelled: `none`, and the host raises. -/
def jsPlus : Val → Val → Option Val
  | .ref _, _ => none
  | _, .ref _ => none
  | .func _, _ => none
  | _, .func _ => none
  | .str a, b => some (.str (a ++ toStr b))
  | a, .str b => some (.str (toStr a ++ b))
  | a, b => some (numAdd (toNumber a) (toNumber b))

/-- `ToBoolean`. -/
def truthy : Val → Bool
  | .undefined => false
  | .null => false
  | .bool b => b
  | .num n => n != 0
  | .inf _ => true
  | .nan => false
  | .str s => s != ""
  | .func _ => true
  | .ref _ => true

/-- The property read `v.k`: through the `get` trap when `v` is a proxy. -/
def getProp (v : Val) (k : Key) (s : State) : Res Val :=
  match v with
  | .ref r =>
    match s.heap[r]? with
    | some (.proxy target) => let (w, s) := handles.get target k s; .ok w s
    | _ => .ok (Reflect.get s r k) s
  | .undefined => .throw (.str "TypeError") s
  | .null => .throw (.str "TypeError") s
  | _ => .ok .undefined s

/-- Evaluation of an expression.  Reads never run an effect, so no fuel is needed. -/
def evalExpr : Expr → State → Res Val
  | .lit v, s => .ok v s
  | .var x, s =>
    match Assoc.get s.vars x with
    | some v => .ok v s
    | none => .throw (.str "ReferenceError") s
  | .newObj props, s =>
    .ok (.ref s.heap.length) { s with heap := s.heap ++ [.raw ⟨props, true, true, true⟩] }
  | .get o k, s =>
    match evalExpr o s with
    | .ok v s => getProp v k s
    | r => r
  | .plus a b, s =>
    match evalExpr a s with
    | .ok x s =>
      match evalExpr b s with
      | .ok y s =>
        match jsPlus x y with
        | some v => .ok v s
        | none => .throw (.str "TypeError") s
      | r => r
    | r => r
  | .reactive e, s =>
    match evalExpr e s with
    | .ok v s => let (w, s) := reactive v s; .ok w s
    | r => r

/-- The assignment `v.k = value`: through the `set` trap when `v` is a proxy. -/
def setProp (trigger : Ref → String → Key → State → Res Unit)
    (v : Val) (k : Key) (value : Val) (s : State) : Res Unit :=
  match v with
  | .ref r =>
    match s.heap[r]? with
    | some (.proxy target) =>
      match handles.set trigger target k value s with
      | .ok _ s => .ok () s
      | .throw e s => .throw e s
      | .timeout => .timeout
    | _ => .ok () (Reflect.set s r k value).2
  | .undefined => .throw (.str "TypeError") s
  | .null => .throw (.str "TypeError") s
  | _ => .ok () s

/-- The operator `delete v.k`: through the `deleteProperty` trap when `v` is a proxy. -/
def deleteProp (v : Val) (k : Key) (s : State) : Res Bool :=
  match v with
  | .ref r =>
    match s.heap[r]? with
    | some (.proxy target) =>
      let (w, s) := handles.deleteProperty target k s
      .ok (truthy w) s
    | some (.raw o) =>
      if o.configurable then
        .ok true
          { s with heap := s.heap.set r (.raw { o with props := o.props.filter (fun p => p.1 != k) }) }
      else .ok (!Assoc.has o.props k) s
    | none => .ok true s
  | .undefined => .throw (.str "TypeError") s
  | .null => .throw (.str "TypeError") s
  | _ => .ok true s

/-- The object `o` after `Object.freeze`. -/
def RawObj.frozen (o : RawObj) : RawObj :=
  { o with extensible := false, writable := false, configurable := false }

/-- The call `Object.freeze(v)`: on a proxy the operation is forwarded to the target. -/
def freeze (v : Val) (s : State) : State :=
  match v with
  | .ref r =>
    match s.heap[r]? with
    | some (.raw o) => { s with heap := s.heap.set r (.raw o.frozen) }
    | some (.proxy target) =>
      match s.heap[target]? with
      | some (.raw o) => { s with heap := s.heap.set target (.raw o.frozen) }
      | _ => s
    | none => s
  | _ => s

mutual

/-- Execution of a statement of the host program. -/
def execStmt : Nat → Stmt → State → Res Unit
  | 0, _, _ => .timeout
  | _ + 1, .skip, s => .ok () s
  | fuel + 1, .seq a b, s =>
    match execStmt fuel a s with
    | .ok _ s => execStmt fuel b s
    | r => r
  | _ + 1, .assign x e, s =>
    match evalExpr e s with
    | .ok v s => .ok () { s with vars := Assoc.set s.vars x v }
    | .throw v s => .throw v s
    | .timeout => .timeout
  | fuel + 1, .setProp o k e, s =>
    match evalExpr o s with
    | .ok v s =>
      match evalExpr e s with
      | .ok value s => setProp (trigger (forEach fuel 0)) v k value s
      | .throw v s => .throw v s
      | .timeout => .timeout
    | .throw v s => .throw v s
    | .timeout => .timeout
  | _ + 1, .deleteProp o k, s =>
    match evalExpr o s with
    | .ok v s =>
      match deleteProp v k s with
      | .ok _ s => .ok () s
      | .throw v s => .throw v s
      | .timeout => .timeout
    | .throw v s => .throw v s
    | .timeout => .timeout
  | fuel + 1, .effect body, s => effect (callEffect fuel) body s
  | _ + 1, .throw e, s =>
    match evalExpr e s with
    | .ok v s => .throw v s
    | .throw v s => .throw v s
    | .timeout => .timeout
  | _ + 1, .expr e, s =>
    match evalExpr e s with
    | .ok _ s => .ok () s
    | .throw v s => .throw v s
    | .timeout => .timeout
  | _ + 1, .log e, s =>
    match evalExpr e s with
    | .ok v s => .ok () (consoleLog v s)
    | .throw v s => .throw v s
    | .timeout => .timeout
  | fuel + 1, .ite c a b, s =>
    match evalExpr c s with
    | .ok v s => if truthy v then execStmt fuel a s else execStmt fuel b s
    | .throw v s => .throw v s
    | .timeout => .timeout
  | _ + 1, .freeze o, s =>
    match evalExpr o s with
    | .ok v s => .ok () (freeze v s)
    | .throw v s => .throw v s
    | .timeout => .timeout

/-- A call `effect()` of the closure made by `createReactiveEffect`: `run(effect, fn)`. -/
def callEffect : Nat → EffectId → State → Res Unit
  | 0, _, _ => .timeout
  | fuel + 1, effect, s =>
    match s.effects[effect]? with
    | some fn => run (execStmt fuel fn) effect s
    | none => .throw (.str "TypeError") s

/-- The loop `deps.forEach(effect => effect())` over the live set under `(target, key)`,
from position `i` on: members added during the iteration are visited too. -/
def forEach : Nat → Nat → Ref → Key → State → Res Unit
  | 0, _, _, _, _ => .timeout
  | fuel + 1, i, target, key, s =>
    match ((depsOf s target key).getD [])[i]? with
    | none => .ok () s
    | some effect =>
      match callEffect fuel effect s with
      | .ok _ s => forEach fuel (i + 1) target key s
      | r => r

end

/-- The program at the end of the source, lines 176-180. -/
def demo : Stmt :=
  .seq (.assign "proxy" (.reactive (.newObj [("name", .str "vue3.0")])))
    (.seq (.effect (.log (.get (.var "proxy") "name")))
      (.setProp (.var "proxy") "name" (.lit (.str "111"))))

/-! ## Invariants and predicates used by the statements -/

/-- The outcome `r`, if it is a completion (normal or abrupt), ends in a state satisfying `P`. -/
def Res.Holds {α : Type} (P : State → Prop) : Res α → Prop
  | .ok _ s => P s
  | .throw _ s => P s
  | .timeout => True

/-- Whether the heap cell at `r` is an ordinary object. -/
def isRaw (s : State) (r : Ref) : Bool :=
  match s.heap[r]? with
  | some (.raw _) => true
  | _ => false

/-- The identity-map invariant: `toProxy` sends ordinary objects to proxies built on them,
`toRow` sends those proxies back, and the two maps are inverse to each other. -/
def IdentityInv (s : State) : Prop :=
  (∀ e ∈ s.toProxy, isRaw s e.1 = true ∧ s.heap[e.2]? = some (.proxy e.1) ∧
      Assoc.get s.toRow e.2 = some e.1) ∧
  (∀ e ∈ s.toRow, s.heap[e.1]? = some (.proxy e.2) ∧ Assoc.get s.toProxy e.2 = some e.1)

instance (s : State) : Decidable (IdentityInv s) := by
  unfold IdentityInv; infer_instance

/-- The statement contains no property assignment, nested effect bodies included. -/
def Stmt.noSetProp : Stmt → Bool
  | .skip => true
  | .seq a b => a.noSetProp && b.noSetProp
  | .assign _ _ => true
  | .setProp _ _ _ => false
  | .deleteProp _ _ => true
  | .effect body => body.noSetProp
  | .throw _ => true
  | .expr _ => true
  | .log _ => true
  | .ite _ a b => a.noSetProp && b.noSetProp
  | .freeze _ => true

/-- Nesting depth of a statement, counting an effect registration twice (the call of the
closure and the call of its body): fuel that suffices when no trigger fires. -/
def Stmt.depth : Stmt → Nat
  | .skip => 1
  | .seq a b => max a.depth b.depth + 1
  | .assign _ _ => 1
  | .setProp _ _ _ => 1
  | .deleteProp _ _ => 1
  | .effect body => body.depth + 2
  | .throw _ => 1
  | .expr _ => 1
  | .log _ => 1
  | .ite _ a b => max a.depth b.depth + 1
  | .freeze _ => 1

/-- What a relation between the state before and the state after must satisfy to hold
across the evaluation of every expression: it is a preorder that contains the allocation of
an object, `track` and `createReactiveObject`. -/
structure ReadFrame (R : State → State → Prop) : Prop where
  refl : ∀ s, R s s
  trans : ∀ a b c, R a b → R b c → R a c
  alloc : ∀ s o, R s { s with heap := s.heap ++ [o] }
  track : ∀ s target key, R s (track target key s)
  create : ∀ s v, R s (createReactiveObject v s).2

/-- What a relation between the state before and the state after must satisfy to hold
across every run of host code: on top of `ReadFrame`, every other primitive state change of
the runtime is in it, and it survives the push / pop bracket of `run`. -/
structure Frame (R : State → State → Prop) extends ReadFrame R : Prop where
  store : ∀ s r o, isRaw s r = true → R s { s with heap := s.heap.set r (.raw o) }
  assign : ∀ s x v, R s { s with vars := Assoc.set s.vars x v }
  log : ∀ s v, R s (consoleLog v s)
  closure : ∀ s fn, R s (createReactiveEffect fn s).2
  bracket : ∀ s effect s2,
    R { s with activeEffectStacks := s.activeEffectStacks ++ [effect]
               calls := s.calls ++ [effect] } s2 →
    R s { s2 with activeEffectStacks := s2.activeEffectStacks.dropLast }

/-- Expression evaluation changes none of: the trace of invocations, the closures, the
host variables, the console, the stack. -/
@[reducible] def ReadOnly (s s' : State) : Prop :=
  s'.calls = s.calls ∧ s'.effects = s.effects ∧ s'.vars = s.vars ∧ s'.console = s.console ∧
    s'.activeEffectStacks = s.activeEffectStacks

/-- The trace of invocations only grows. -/
@[reducible] def CallsGrow (s s' : State) : Prop := ∃ l, s'.calls = s.calls ++ l

/-- The stack of the later state is the stack of the earlier one. -/
@[reducible] def SameStack (s s' : State) : Prop :=
  s'.activeEffectStacks = s.activeEffectStacks

/-- A state holding one ordinary object, with the single property `a: 1`, and its registered
proxy. -/
def wrappedState : State :=
  { heap := [.raw ⟨[("a", .num 1)], true, true, true⟩, .proxy 0]
    toProxy := [(0, 1)]
    toRow := [(1, 0)]
    targetMap := []
    activeEffectStacks := []
    effects := []
    vars := []
    console := []
    calls := [] }

/-- The program `p = reactive(obj); effect(() => p.a)`, where `obj` is the object literal
with the single property `a: NaN`. -/
def nanSetup : Stmt :=
  .seq (.assign "p" (.reactive (.newObj [("a", .nan)])))
    (.effect (.expr (.get (.var "p") "a")))

/-- The state `nanSetup` ends in: the effect `0` is recorded under `a`, whose value is `NaN`. -/
def nanTracked : State :=
  { heap := [.raw ⟨[("a", .nan)], true, true, true⟩, .proxy 0]
    toProxy := [(0, 1)]
    toRow := [(1, 0)]
    targetMap := [(0, [("a", [0])])]
    activeEffectStacks := []
    effects := [.expr (.get (.var "p") "a")]
    vars := [("p", .ref 1)]
    console := []
    calls := [0] }

/-- The program `p = reactive(obj); effect(() => seen = p.a); p.a = v`, where `obj` is the
empty object literal. -/
def addKey (v : Val) : Stmt :=
  .seq (.assign "p" (.reactive (.newObj [])))
    (.seq (.effect (.assign "seen" (.get (.var "p") "a")))
      (.setProp (.var "p") "a" (.lit v)))

/-- The later state extends the trace only by invocations of closures that did not exist in
the earlier one, and has all the closures of the earlier one. -/
def FreshCalls (s s' : State) : Prop :=
  ∃ l, s'.calls = s.calls ++ l ∧ (∀ x ∈ l, s.effects.length ≤ x) ∧
    s.effects.length ≤ s'.effects.length

/-- The body `() => (p.a, p.a = 5)` for the wrapper `p` at address `1`: it reads `a` and then
writes it. -/
def selfTrigger : Stmt :=
  .seq (.expr (.get (.lit (.ref 1)) "a")) (.setProp (.lit (.ref 1)) "a" (.lit (.num 5)))

/-- The body `() => console.log(p.a)` for the wrapper `p` at address `1`. -/
def logBody : Stmt := .log (.get (.lit (.ref 1)) "a")

/-- The program `p = reactive(obj); effect(() => seen = p.a); p.a = v1`, where `obj` is the
object literal with the single property `a: 1` and `v1` is a new empty object. -/
def writeObject : Stmt :=
  .seq (.assign "p" (.reactive (.newObj [("a", .num 1)])))
    (.seq (.effect (.assign "seen" (.get (.var "p") "a")))
      (.setProp (.var "p") "a" (.newObj [])))

/-- The state `writeObject` ends in. -/
def writeObjectEnd : State :=
  { heap := [.raw ⟨[("a", .ref 2)], true, true, true⟩, .proxy 0, .raw ⟨[], true, true, true⟩, .proxy 2]
    toProxy := [(0, 1), (2, 3)]
    toRow := [(1, 0), (3, 2)]
    targetMap := [(0, [("a", [0])])]
    activeEffectStacks := []
    effects := [.assign "seen" (.get (.var "p") "a")]
    vars := [("p", .ref 1), ("seen", .ref 3)]
    console := [.str "修改原有的属性"]
    calls := [0, 0] }

/-- A state holding the object `inner: (v: 1)` at address `0`, with its nested object at
address `1`, and no wrapper yet. -/
def nestedState : State :=
  { heap := [.raw ⟨[("inner", .ref 1)], true, true, true⟩, .raw ⟨[("v", .num 1)], true, true, true⟩]
    toProxy := []
    toRow := []
    targetMap := []
    activeEffectStacks := []
    effects := []
    vars := []
    console := []
    calls := [] }

/-- The program `o = Object.freeze(obj); p = reactive(o); effect(() => seen = p.a); p.a = 2`,
where `obj` is the object literal with the single property `a: 1`. -/
def writeFrozen : Stmt :=
  .seq (.assign "o" (.newObj [("a", .num 1)]))
    (.seq (.freeze (.var "o"))
      (.seq (.assign "p" (.reactive (.var "o")))
        (.seq (.effect (.assign "seen" (.get (.var "p") "a")))
          (.setProp (.var "p") "a" (.lit (.num 2))))))

/-- The state `writeFrozen` ends in. -/
def writeFrozenEnd : State :=
  { heap := [.raw ⟨[("a", .num 1)], false, false, false⟩, .proxy 0]
    toProxy := [(0, 1)]
    toRow := [(1, 0)]
    targetMap := [(0, [("a", [0])])]
    activeEffectStacks := []
    effects := [.assign "seen" (.get (.var "p") "a")]
    vars := [("o", .ref 0), ("p", .ref 1), ("seen", .num 1)]
    console := [.str "修改原有的属性"]
    calls := [0, 0] }

/-- The value refers to no address outside a heap of `n` cells. -/
def Val.valid (n : Nat) : Val → Bool
  | .ref r => decide (r < n)
  | _ => true

/-- Every reference written in the expression lies inside a heap of `n` cells. -/
def Expr.valid (n : Nat) : Expr → Bool
  | .lit v => v.valid n
  | .var _ => true
  | .newObj props => props.all (fun e => e.2.valid n)
  | .get o _ => o.valid n
  | .plus a b => a.valid n && b.valid n
  | .reactive e => e.valid n

/-- Every reference written in the statement lies inside a heap of `n` cells. -/
def Stmt.valid (n : Nat) : Stmt → Bool
  | .skip => true
  | .seq a b => a.valid n && b.valid n
  | .assign _ e => e.valid n
  | .setProp o _ e => o.valid n && e.valid n
  | .deleteProp o _ => o.valid n
  | .effect body => body.valid n
  | .throw e => e.valid n
  | .expr e => e.valid n
  | .log e => e.valid n
  | .ite c a b => c.valid n && a.valid n && b.valid n
  | .freeze o => o.valid n

/-- The property values of an ordinary object lie inside a heap of `n` cells. -/
def Obj.valid (n : Nat) : Obj → Bool
  | .raw o => o.props.all (fun e => e.2.valid n)
  | .proxy _ => true

/-- The cell at `w`, when it is a proxy, is registered in `toRow` with its target. -/
def registered (s : State) (w : Ref) : Bool :=
  match s.heap[w]? with
  | some (.proxy t) => Assoc.get s.toRow w == some t
  | _ => true

/-- Well-formed states: the identity-map invariant holds, every proxy of the heap is
registered, and no value stored in an object, in a variable or written in the body of an
effect refers outside the heap. -/
def WellFormed (s : State) : Prop :=
  IdentityInv s ∧
  (∀ w < s.heap.length, registered s w = true) ∧
  (∀ c ∈ s.heap, c.valid s.heap.length = true) ∧
  (∀ e ∈ s.vars, e.2.valid s.heap.length = true) ∧
  (∀ fn ∈ s.effects, fn.valid s.heap.length = true)

instance (s : State) : Decidable (WellFormed s) := by
  unfold WellFormed; infer_instance

/-- The later state is well formed and its heap is no shorter. -/
def Grows (s s' : State) : Prop := WellFormed s' ∧ s.heap.length ≤ s'.heap.length

/-- Edges only accumulate, in order: the set under every pair in the earlier state is an
initial segment of the set under that pair in the later state. -/
def DepsGrow (s s' : State) : Prop :=
  ∀ (target : Ref) (key : Key),
    (depsOf s target key).getD [] <+: (depsOf s' target key).getD []

/-- The two identity maps are inverse to each other, every wrapper is a proxy built on the
ordinary object it is registered for, and no two objects share a wrapper. -/
def MutualInverse (s : State) : Prop :=
  (∀ r w, Assoc.get s.toProxy r = some w ↔ Assoc.get s.toRow w = some r) ∧
  (∀ r w, Assoc.get s.toProxy r = some w →
    isRaw s r = true ∧ s.heap[w]? = some (.proxy r)) ∧
  (∀ r1 r2 w, Assoc.get s.toProxy r1 = some w → Assoc.get s.toProxy r2 = some w → r1 = r2)

/-- The state the program of the source ends in. -/
def demoEnd : State :=
  { heap := [.raw ⟨[("name", .str "111")], true, true, true⟩, .proxy 0]
    toProxy := [(0, 1)]
    toRow := [(1, 0)]
    targetMap := [(0, [("name", [0])])]
    activeEffectStacks := []
    effects := [.log (.get (.var "proxy") "name")]
    vars := [("proxy", .ref 1)]
    console := [.str "vue3.0", .str "111", .str "修改原有的属性"]
    calls := [0, 0] }

/-- A state whose heap holds a cycle: the object at `0` refers to itself under `self` and to
the object at `1` under `other`, which refers back to `0`; nothing is wrapped yet. -/
def cyclicState : State :=
  { heap := [.raw ⟨[("self", .ref 0), ("other", .ref 1)], true, true, true⟩,
             .raw ⟨[("back", .ref 0)], true, true, true⟩]
    toProxy := []
    toRow := []
    targetMap := []
    activeEffectStacks := []
    effects := []
    vars := []
    console := []
    calls := [] }

/-- The program `o = Object.freeze(obj); p = reactive(o); effect(() => seen = p.a);
effect(() => seen2 = p.b)`, where `obj` is the object literal with the single property
`a: 1`. -/
def frozenSetup : Stmt :=
  .seq (.assign "o" (.newObj [("a", .num 1)]))
    (.seq (.freeze (.var "o"))
      (.seq (.assign "p" (.reactive (.var "o")))
        (.seq (.effect (.assign "seen" (.get (.var "p") "a")))
          (.effect (.assign "seen2" (.get (.var "p") "b"))))))

/-- The state `frozenSetup` ends in: the frozen object at `0`, its proxy at `1`, the first
effect recorded under `a` and the second under the absent key `b`. -/
def frozenTracked : State :=
  { heap := [.raw ⟨[("a", .num 1)], false, false, false⟩, .proxy 0]
    toProxy := [(0, 1)]
    toRow := [(1, 0)]
    targetMap := [(0, [("a", [0]), ("b", [1])])]
    activeEffectStacks := []
    effects := [.assign "seen" (.get (.var "p") "a"), .assign "seen2" (.get (.var "p") "b")]
    vars := [("o", .ref 0), ("p", .ref 1), ("seen", .num 1), ("seen2", .undefined)]
    console := []
    calls := [0, 1] }

/-- The program `p = reactive(obj); effect(() => { effect(() => p.b); p.a })`, where `obj` is
the object literal with the properties `a: 1` and `b: 2`. -/
def nestedEffects : Stmt :=
  .seq (.assign "p" (.reactive (.newObj [("a", .num 1), ("b", .num 2)])))
    (.effect (.seq (.effect (.expr (.get (.var "p") "b"))) (.expr (.get (.var "p") "a"))))

/-- The state `nestedEffects` ends in: the outer effect `0` is recorded under `a` only, the
inner effect `1` under `b` only. -/
def nestedEffectsEnd : State :=
  { heap := [.raw ⟨[("a", .num 1), ("b", .num 2)], true, true, true⟩, .proxy 0]
    toProxy := [(0, 1)]
    toRow := [(1, 0)]
    targetMap := [(0, [("b", [1]), ("a", [0])])]
    activeEffectStacks := []
    effects := [.seq (.effect (.expr (.get (.var "p") "b"))) (.expr (.get (.var "p") "a")),
                .expr (.get (.var "p") "b")]
    vars := [("p", .ref 1)]
    console := []
    calls := [0, 1] }

/-- A state in which effect `1` is running inside effect `0`, and the outer effect `0` is
already recorded under `(0, a)`. -/
def runningState : State :=
  { wrappedState with
    targetMap := [(0, [("a", [0])])]
    activeEffectStacks := [0, 1]
    effects := [.skip, .skip] }

/-- Nothing is removed from the dependency graph between the earlier and the later state:
every edge `(target, key, effect)` of the earlier graph is an edge of the later one, every
target that has a table still has one, and every pair that has a set still has one. -/
def EdgesKept (s s' : State) : Prop :=
  (∀ (target : Ref) (key : Key) (e : EffectId),
    e ∈ (depsOf s target key).getD [] → e ∈ (depsOf s' target key).getD []) ∧
  (∀ target : Ref, Assoc.has s.targetMap target = true → Assoc.has s'.targetMap target = true) ∧
  (∀ (target : Ref) (key : Key),
    (depsOf s target key).isSome = true → (depsOf s' target key).isSome = true)

/-- The body `() => { if (p.flag) seen = p.a }`. -/
def guardedRead : Stmt :=
  .ite (.get (.var "p") "flag") (.assign "seen" (.get (.var "p") "a")) .skip

/-- The program `p = reactive(obj); effect(() => { if (p.flag) seen = p.a }); p.flag = false`,
where `obj` is the object literal with the properties `flag: true` and `a: 1`. -/
def staleEdge : Stmt :=
  .seq (.assign "p" (.reactive (.newObj [("flag", .bool true), ("a", .num 1)])))
    (.seq (.effect guardedRead) (.setProp (.var "p") "flag" (.lit (.bool false))))

/-- The state of `staleEdge` when the write `p.flag = false` has stored the value and is about
to trigger: the first run of the effect has read `flag` and `a`. -/
def staleEdgeMid : State :=
  { heap := [.raw ⟨[("flag", .bool false), ("a", .num 1)], true, true, true⟩, .proxy 0]
    toProxy := [(0, 1)]
    toRow := [(1, 0)]
    targetMap := [(0, [("flag", [0]), ("a", [0])])]
    activeEffectStacks := []
    effects := [guardedRead]
    vars := [("p", .ref 1), ("seen", .num 1)]
    console := []
    calls := [0] }

/-- The state `staleEdge` ends in, after the second run of the effect. -/
def staleEdgeEnd : State :=
  { staleEdgeMid with
    console := [.str "修改原有的属性"]
    calls := [0, 0] }

/-- The statement only reads: it is built from expression statements, assignments to host
variables, `console.log`, conditionals, sequencing and `throw`; it assigns or deletes no
property, freezes no object and registers no effect. -/
def Stmt.onlyReads : Stmt → Bool
  | .skip => true
  | .seq a b => a.onlyReads && b.onlyReads
  | .assign _ _ => true
  | .setProp _ _ _ => false
  | .deleteProp _ _ => false
  | .effect _ => false
  | .throw _ => true
  | .expr _ => true
  | .log _ => true
  | .ite _ a b => a.onlyReads && b.onlyReads
  | .freeze _ => false

/-- What a run that only reads leaves alone, seen from the pair `(target, key)`: the trace of
invocations, the closures and the stack are unchanged, and so is the set under
`(target, key)` when the effect on top of the stack is already a member of it. -/
def QuietRun (target : Ref) (key : Key) (s s' : State) : Prop :=
  s'.calls = s.calls ∧ s'.effects = s.effects ∧
  s'.activeEffectStacks = s.activeEffectStacks ∧
  (∀ e, s.activeEffectStacks.getLast? = some e → e ∈ (depsOf s target key).getD [] →
    (depsOf s' target key).getD [] = (depsOf s target key).getD [])

/-- The program `p = reactive(obj); effect(() => { if (p.c) p.z.w }); effect(() => p.c);
p.c = 1`, where `obj` is the object literal with the single property `c: 0`. -/
def raiseInTrigger : Stmt :=
  .seq (.assign "p" (.reactive (.newObj [("c", .num 0)])))
    (.seq (.effect (.ite (.get (.var "p") "c") (.expr (.get (.get (.var "p") "z") "w")) .skip))
      (.seq (.effect (.expr (.get (.var "p") "c")))
        (.setProp (.var "p") "c" (.lit (.num 1)))))

/-- The state of `raiseInTrigger` when the write `p.c = 1` has stored the value and calls
`trigger`: both effects are recorded under `(0, c)`. -/
def raiseInTriggerMid : State :=
  { heap := [.raw ⟨[("c", .num 1)], true, true, true⟩, .proxy 0]
    toProxy := [(0, 1)]
    toRow := [(1, 0)]
    targetMap := [(0, [("c", [0, 1])])]
    activeEffectStacks := []
    effects := [.ite (.get (.var "p") "c") (.expr (.get (.get (.var "p") "z") "w")) .skip,
                .expr (.get (.var "p") "c")]
    vars := [("p", .ref 1)]
    console := []
    calls := [0, 1] }

/-- The state in which `raiseInTrigger` raises. -/
def raiseInTriggerEnd : State :=
  { raiseInTriggerMid with
    targetMap := [(0, [("c", [0, 1]), ("z", [0])])]
    calls := [0, 1, 0] }

/-- Every set of the dependency graph lists its members without repetition. -/
def DepsNodup (s : State) : Prop :=
  ∀ (target : Ref) (key : Key), ((depsOf s target key).getD []).Nodup

/-- Absence of repetitions in the sets carries over from the earlier state to the later. -/
@[reducible] def KeepsNodup (s s' : State) : Prop := DepsNodup s → DepsNodup s'

/-- The body `() => { p.a = p.a + 1 }` for the wrapper at address `p`. -/
def selfIncrement (p : Ref) (a : Key) : Stmt :=
  .setProp (.lit (.ref p)) a (.plus (.get (.lit (.ref p)) a) (.lit (.num 1)))

/-- The situation of the self-incrementing effect `e`: `p` is a proxy of the ordinary object
`o`, whose properties are writable or not as `w` says and whose own property `a` holds `v`,
the closure `e` has the body `selfIncrement p a`, and no effect other than `e` is recorded
under `(o, a)`. -/
def SelfLoop (p o : Ref) (a : Key) (e : EffectId) (w : Bool) (v : Val) (s : State) : Prop :=
  s.heap[p]? = some (.proxy o) ∧
  (∃ obj, s.heap[o]? = some (.raw obj) ∧ obj.writable = w ∧ Assoc.get obj.props a = some v) ∧
  s.effects[e]? = some (selfIncrement p a) ∧
  ((depsOf s o a).getD [] = [] ∨ (depsOf s o a).getD [] = [e])

/-- The values from which the self-incrementing effect never comes to rest: `NaN` and
`undefined` (whose increment is `NaN`, and `NaN !== NaN`), and on a target that rejects the
write every value that differs from its increment. -/
def NeverSettles (w : Bool) (v : Val) : Prop :=
  v = .nan ∨ v = .undefined ∨
    (w = false ∧ ∃ v1, jsPlus v (.num 1) = some v1 ∧ strictNe v v1 = true)

/-- A state holding one ordinary object, with the single property `a: 2^53`, and its
registered proxy. -/
def limitState : State :=
  { wrappedState with heap := [.raw ⟨[("a", .num 9007199254740992)], true, true, true⟩, .proxy 0] }

/-- A state holding one ordinary object, with the single property `a: 0`, and its registered
proxy. -/
def zeroState : State :=
  { wrappedState with heap := [.raw ⟨[("a", .num 0)], true, true, true⟩, .proxy 0] }

namespace AnyKey

/-- The names of the own properties of `Object.prototype`, which every ordinary object
inherits: ten methods and the accessor `__proto__`. -/
def members : List Key :=
  ["constructor", "__defineGetter__", "__defineSetter__", "hasOwnProperty",
   "__lookupGetter__", "__lookupSetter__", "isPrototypeOf", "propertyIsEnumerable",
   "toString", "valueOf", "toLocaleString", "__proto__"]

/-- What `target[key]` evaluates to on an ordinary object: the value of an own property, or
for an inherited key the built-in method of that name or, through the getter `__proto__`,
`Object.prototype` itself; `undefined` for any other key. -/
inductive Fetched where
  | val (v : Val)
  | builtin (k : Key)
  | objectPrototype
  deriving DecidableEq

/-- `Reflect.get(target, key, receiver)` (also `target[key]`) at any key. -/
def Reflect.get (s : State) (target : Ref) (key : Key) : Fetched :=
  match Assoc.get (ownProps s target) key with
  | some v => .val v
  | none =>
    if key = "__proto__" then .objectPrototype
    else if key ∈ members then .builtin key
    else .val .undefined

/-- The comparison `oldValue !== value`.  The built-in methods and `Object.prototype` are not
among the values of the host program, so they differ from every `value`. -/
def differs : Fetched → Val → Bool
  | .val a, b => strictNe a b
  | _, _ => true

/-- Outcome of `Reflect.set` at any key: the flag and the state, a `TypeError` raised by the
setter, or a replaced prototype, which the state cannot record. -/
inductive Assigned where
  | done (flag : Bool) (s : State)
  | raised (s : State)
  | outside
  deriving DecidableEq

/-- `Reflect.set(target, key, value, receiver)` at any key.  An own property, or a key that
is not an own one (inherited data properties are writable), is assigned as in
`Reactive.Reflect.set`.  The inherited accessor `__proto__` runs its setter instead and
creates no property: the setter ignores a `value` that is neither an object nor `null`, and
otherwise replaces the prototype, raising `TypeError` when the target is not extensible; the
flag is `true` whenever the setter returns. -/
def Reflect.set (s : State) (target : Ref) (key : Key) (value : Val) : Assigned :=
  match s.heap[target]? with
  | some (.raw o) =>
    if key = "__proto__" ∧ Assoc.has o.props key = false then
      match value with
      | .null => if o.extensible then .outside else .raised s
      | .ref _ => if o.extensible then .outside else .raised s
      | .func _ => if o.extensible then .outside else .raised s
      | _ => .done true s
    else .done (Reactive.Reflect.set s target key value).1 (Reactive.Reflect.set s target key value).2
  | _ => .done (Reactive.Reflect.set s target key value).1 (Reactive.Reflect.set s target key value).2

/-- Outcome of `isOwnProperty` at any target: the answer, a `TypeError`, or a call of a
function of the program, which the model cannot run. -/
inductive Tested where
  | ok (b : Bool)
  | raised
  | outside
  deriving DecidableEq

/-- `isOwnProperty(target, key)`, lines 16-18: `target.hasOwnProperty` is looked up on the
target.  Without an own property of that name it is the built-in method; an own property
that holds a function is called; one that holds anything else is not callable. -/
def isOwnProperty (s : State) (target : Ref) (key : Key) : Tested :=
  match Assoc.get (ownProps s target) "hasOwnProperty" with
  | none => .ok (Assoc.has (ownProps s target) key)
  | some (.func _) => .outside
  | some _ => .raised

/-- The `set` trap, lines 58-78, at any key; `none` where the outcome lies outside the
model (a replaced prototype, a call of a function of the program). -/
def handles.set (trigger : Ref → String → Key → State → Res Unit)
    (target : Ref) (key : Key) (value : Val) (s : State) : Option (Res Bool) :=
  let oldValue := Reflect.get s target key
  match Reflect.set s target key value with
  | .outside => none
  | .raised s => some (.throw (.str "TypeError") s)
  | .done flag s =>
    match isOwnProperty s target key with
    | .outside => none
    | .raised => some (.throw (.str "TypeError") s)
    | .ok own =>
      if !own then
        match trigger target "add" key s with
        | .ok _ s => some (.ok flag (consoleLog (.str "设置新的属性") s))
        | .throw v s => some (.throw v s)
        | .timeout => some .timeout
      else if differs oldValue value then
        match trigger target "set" key s with
        | .ok _ s => some (.ok flag (consoleLog (.str "修改原有的属性") s))
        | .throw v s => some (.throw v s)
        | .timeout => some .timeout
      else some (.ok flag s)

end AnyKey

/-! ## Finite-map lemmas -/

namespace Assoc

variable {κ ν : Type} [DecidableEq κ]

theorem get_set_self (m : List (κ × ν)) (k : κ) (v : ν) : get (set m k v) k = some v := by
  induction m with
  | nil => simp [set, get]
  | cons a m ih =>
    obtain ⟨k', v'⟩ := a
    by_cases h : k' = k <;> simp [set, get, h, ih]

theorem get_set_ne (m : List (κ × ν)) {k k' : κ} (v : ν) (h : k ≠ k') :
    get (set m k v) k' = get m k' := by
  induction m with
  | nil => simp [set, get, h]
  | cons a m ih =>
    obtain ⟨k1, v1⟩ := a
    by_cases h1 : k1 = k
    · subst h1; simp [set, get, h]
    · by_cases h2 : k1 = k'
      · subst h2; simp [set, get, h1]
      · simp [set, get, h1, h2, ih]

theorem set_get_self (m : List (κ × ν)) {k : κ} {v : ν} (h : get m k = some v) :
    set m k v = m := by
  induction m with
  | nil => simp [get] at h
  | cons a m ih =>
    obtain ⟨k1, v1⟩ := a
    by_cases h1 : k1 = k
    · subst h1; simp [get] at h; simp [set, h]
    · simp [get, h1] at h; simp [set, h1, ih h]

theorem set_of_get_none (m : List (κ × ν)) {k : κ} (v : ν) (h : get m k = none) :
    set m k v = m ++ [(k, v)] := by
  induction m with
  | nil => simp [set]
  | cons a m ih =>
    obtain ⟨k1, v1⟩ := a
    by_cases h1 : k1 = k
    · subst h1; simp [get] at h
    · simp [get, h1] at h; simp [set, h1, ih h]

theorem mem_of_get {m : List (κ × ν)} {k : κ} {v : ν} (h : get m k = some v) : (k, v) ∈ m := by
  induction m with
  | nil => simp [get] at h
  | cons a m ih =>
    obtain ⟨k1, v1⟩ := a
    by_cases h1 : k1 = k
    · subst h1; simp [get] at h; simp [h]
    · simp [get, h1] at h; simp [ih h]

theorem get_none_of_forall {m : List (κ × ν)} {k : κ} (h : ∀ e ∈ m, e.1 ≠ k) :
    get m k = none := by
  induction m with
  | nil => simp [get]
  | cons a m ih =>
    obtain ⟨k1, v1⟩ := a
    have h1 : k1 ≠ k := h (k1, v1) (by simp)
    simp [get, h1]
    exact ih (fun e he => h e (by simp [he]))

end Assoc

/-! ## Basic facts -/

theorem isObject_ref (r : Ref) : isObject (.ref r) = true := by
  simp [isObject, typeof, looseNeNull]

theorem isObject_eq_true_iff (v : Val) : isObject v = true ↔ ∃ r, v = .ref r := by
  cases v <;> simp [isObject, typeof, looseNeNull]

theorem isObject_eq_false_iff (v : Val) :
    isObject v = false ↔ (typeof v ≠ "object" ∨ v = .null ∨ v = .undefined) := by
  cases v <;> simp [isObject, typeof, looseNeNull]

theorem lt_length_of_isRaw {s : State} {r : Ref} (h : isRaw s r = true) : r < s.heap.length := by
  unfold isRaw at h
  by_contra hlt
  have : s.heap[r]? = none := List.getElem?_eq_none (Nat.le_of_not_lt hlt)
  simp [this] at h

theorem lt_length_of_getElem? {s : State} {r : Ref} {o : Obj} (h : s.heap[r]? = some o) :
    r < s.heap.length := by
  by_contra hlt
  have : s.heap[r]? = none := List.getElem?_eq_none (Nat.le_of_not_lt hlt)
  simp [this] at h

/-! ## What the primitive steps leave alone -/
theorem strictNe_self {v : Val} (h : v ≠ .nan) : strictNe v v = false := by
  cases v <;> simp_all [strictNe]

section fields

variable (v : Val) (s : State)

@[simp] theorem createReactiveObject_targetMap :
    (createReactiveObject v s).2.targetMap = s.targetMap := by
  unfold createReactiveObject; split
  · rfl
  · split
    · split
      · rfl
      · split <;> rfl
    · rfl

@[simp] theorem createReactiveObject_stack :
    (createReactiveObject v s).2.activeEffectStacks = s.activeEffectStacks := by
  unfold createReactiveObject; split
  · rfl
  · split
    · split
      · rfl
      · split <;> rfl
    · rfl

@[simp] theorem createReactiveObject_effects :
    (createReactiveObject v s).2.effects = s.effects := by
  unfold createReactiveObject; split
  · rfl
  · split
    · split
      · rfl
      · split <;> rfl
    · rfl

@[simp] theorem createReactiveObject_calls :
    (createReactiveObject v s).2.calls = s.calls := by
  unfold createReactiveObject; split
  · rfl
  · split
    · split
      · rfl
      · split <;> rfl
    · rfl

@[simp] theorem createReactiveObject_vars :
    (createReactiveObject v s).2.vars = s.vars := by
  unfold createReactiveObject; split
  · rfl
  · split
    · split
      · rfl
      · split <;> rfl
    · rfl

@[simp] theorem createReactiveObject_console :
    (createReactiveObject v s).2.console = s.console := by
  unfold createReactiveObject; split
  · rfl
  · split
    · split
      · rfl
      · split <;> rfl
    · rfl

theorem createReactiveObject_heap {r : Ref} {o : Obj} (h : s.heap[r]? = some o) :
    (createReactiveObject v s).2.heap[r]? = some o := by
  unfold createReactiveObject; split
  · exact h
  · split
    · split
      · exact h
      · split
        · exact h
        · simp only []
          rw [List.getElem?_append_left (lt_length_of_getElem? h)]
          exact h
    · exact h

end fields

theorem track_of_empty {s : State} (h : s.activeEffectStacks = []) (target : Ref) (key : Key) :
    track target key s = s := by
  simp [track, h]

@[simp] theorem track_heap (target : Ref) (key : Key) (s : State) :
    (track target key s).heap = s.heap := by
  unfold track; split <;> rfl

@[simp] theorem track_stack (target : Ref) (key : Key) (s : State) :
    (track target key s).activeEffectStacks = s.activeEffectStacks := by
  unfold track; split <;> rfl

@[simp] theorem track_calls (target : Ref) (key : Key) (s : State) :
    (track target key s).calls = s.calls := by
  unfold track; split <;> rfl

@[simp] theorem track_effects (target : Ref) (key : Key) (s : State) :
    (track target key s).effects = s.effects := by
  unfold track; split <;> rfl

@[simp] theorem track_vars (target : Ref) (key : Key) (s : State) :
    (track target key s).vars = s.vars := by
  unfold track; split <;> rfl

@[simp] theorem track_toProxy (target : Ref) (key : Key) (s : State) :
    (track target key s).toProxy = s.toProxy := by
  unfold track; split <;> rfl

@[simp] theorem track_toRow (target : Ref) (key : Key) (s : State) :
    (track target key s).toRow = s.toRow := by
  unfold track; split <;> rfl

/-! ## Framing: relations kept by every run of host code -/

theorem Res.Holds.mono {α : Type} {P Q : State → Prop} {r : Res α} (h : r.Holds P)
    (hPQ : ∀ s, P s → Q s) : r.Holds Q := by
  cases r <;> simp_all [Res.Holds]

namespace ReadFrame

variable {R : State → State → Prop}

theorem handlesGet (hR : ReadFrame R) (target : Ref) (key : Key) (s : State) :
    R s (handles.get target key s).2 := by
  unfold handles.get
  simp only []
  split
  · exact hR.trans _ _ _ (hR.track s target key) (hR.create _ _)
  · exact hR.track s target key

theorem getProp (hR : ReadFrame R) (v : Val) (k : Key) (s : State) :
    (getProp v k s).Holds (R s) := by
  unfold Reactive.getProp
  split
  · split
    · exact hR.handlesGet _ _ _
    · exact hR.refl _
  all_goals exact hR.refl _

theorem evalExpr (hR : ReadFrame R) : ∀ (e : Expr) (s : State), (evalExpr e s).Holds (R s) := by
  intro e
  induction e with
  | lit v => intro s; exact hR.refl s
  | var x =>
    intro s; unfold Reactive.evalExpr
    split <;> exact hR.refl s
  | newObj props => intro s; exact hR.alloc s _
  | get o k ih =>
    intro s
    have h := ih s
    cases hq : Reactive.evalExpr o s with
    | ok v s1 =>
      rw [hq] at h
      simp only [Reactive.evalExpr, hq]
      exact (hR.getProp v k s1).mono (fun s2 h2 => hR.trans _ _ _ h h2)
    | throw v s1 => rw [hq] at h; simp only [Reactive.evalExpr, hq]; exact h
    | timeout => simp only [Reactive.evalExpr, hq]; trivial
  | plus a b iha ihb =>
    intro s
    have ha := iha s
    cases hq : Reactive.evalExpr a s with
    | ok x s1 =>
      rw [hq] at ha
      have hb := ihb s1
      cases hq2 : Reactive.evalExpr b s1 with
      | ok y s2 =>
        rw [hq2] at hb
        simp only [Reactive.evalExpr, hq, hq2]
        split <;> exact hR.trans _ _ _ ha hb
      | throw y s2 =>
        rw [hq2] at hb; simp only [Reactive.evalExpr, hq, hq2]; exact hR.trans _ _ _ ha hb
      | timeout => simp only [Reactive.evalExpr, hq, hq2]; trivial
    | throw v s1 => rw [hq] at ha; simp only [Reactive.evalExpr, hq]; exact ha
    | timeout => simp only [Reactive.evalExpr, hq]; trivial
  | reactive e ih =>
    intro s
    have h := ih s
    cases hq : Reactive.evalExpr e s with
    | ok v s1 =>
      rw [hq] at h
      simp only [Reactive.evalExpr, hq]
      exact hR.trans _ _ _ h (hR.create _ _)
    | throw v s1 => rw [hq] at h; simp only [Reactive.evalExpr, hq]; exact h
    | timeout => simp only [Reactive.evalExpr, hq]; trivial

end ReadFrame
namespace Frame
variable {R : State → State → Prop}

theorem reflectSet (hR : Frame R) (s : State) (r : Ref) (k : Key) (v : Val) :
    R s (Reflect.set s r k v).2 := by
  unfold Reflect.set
  split
  · rename_i o ho
    split
    · exact hR.store s r _ (by simp [isRaw, ho])
    · exact hR.refl s
  · exact hR.refl s

theorem trigger (hR : Frame R) {forEach : Ref → Key → State → Res Unit}
    (h : ∀ t k s, (forEach t k s).Holds (R s)) (target : Ref) (type : String) (key : Key)
    (s : State) : (trigger forEach target type key s).Holds (R s) := by
  unfold Reactive.trigger
  split
  · exact hR.refl s
  · split
    · exact hR.refl s
    · exact h _ _ _

theorem handlesSet (hR : Frame R) {trigger : Ref → String → Key → State → Res Unit}
    (h : ∀ t ty k s, (trigger t ty k s).Holds (R s)) (target : Ref) (key : Key) (value : Val)
    (s : State) : (handles.set trigger target key value s).Holds (R s) := by
  unfold handles.set
  have h1 := hR.reflectSet s target key value
  simp only []
  split
  · have h2 := h target "add" key (Reflect.set s target key value).2
    split
    · rename_i heq; rw [heq] at h2
      exact hR.trans _ _ _ h1 (hR.trans _ _ _ h2 (hR.log _ _))
    · rename_i heq; rw [heq] at h2; exact hR.trans _ _ _ h1 h2
    · trivial
  · split
    · have h2 := h target "set" key (Reflect.set s target key value).2
      split
      · rename_i heq; rw [heq] at h2
        exact hR.trans _ _ _ h1 (hR.trans _ _ _ h2 (hR.log _ _))
      · rename_i heq; rw [heq] at h2; exact hR.trans _ _ _ h1 h2
      · trivial
    · exact h1

theorem setProp (hR : Frame R) {trigger : Ref → String → Key → State → Res Unit}
    (h : ∀ t ty k s, (trigger t ty k s).Holds (R s)) (v : Val) (k : Key) (value : Val)
    (s : State) : (setProp trigger v k value s).Holds (R s) := by
  unfold Reactive.setProp
  split
  · split
    · rename_i target _
      have h2 := hR.handlesSet h target k value s
      split
      · rename_i heq; rw [heq] at h2; exact h2
      · rename_i heq; rw [heq] at h2; exact h2
      · trivial
    · exact hR.reflectSet _ _ _ _
  all_goals exact hR.refl _

theorem deleteProp (hR : Frame R) (v : Val) (k : Key) (s : State) :
    (deleteProp v k s).Holds (R s) := by
  unfold Reactive.deleteProp
  split
  · split
    · exact hR.refl _
    · rename_i r _ o ho
      split
      · exact hR.store s r _ (by simp [isRaw, ho])
      · exact hR.refl _
    · exact hR.refl _
  all_goals exact hR.refl _

theorem freeze (hR : Frame R) (v : Val) (s : State) : R s (freeze v s) := by
  unfold Reactive.freeze
  split
  · split
    · rename_i r _ o ho
      exact hR.store s r _ (by simp [isRaw, ho])
    · split
      · rename_i t _ _ o ho
        exact hR.store s t _ (by simp [isRaw, ho])
      · exact hR.refl _
    · exact hR.refl _
  · exact hR.refl _

theorem run (hR : Frame R) {fn : State → Res Unit} (h : ∀ s, (fn s).Holds (R s))
    (effect : EffectId) (s : State) : (run fn effect s).Holds (R s) := by
  unfold Reactive.run
  simp only []
  have h2 := h { s with activeEffectStacks := s.activeEffectStacks ++ [effect]
                        calls := s.calls ++ [effect] }
  split
  · rename_i heq; rw [heq] at h2; exact hR.bracket _ _ _ h2
  · rename_i heq; rw [heq] at h2; exact hR.bracket _ _ _ h2
  · trivial

theorem effect (hR : Frame R) {call : EffectId → State → Res Unit}
    (h : ∀ e s, (call e s).Holds (R s)) (fn : Stmt) (s : State) :
    (effect call fn s).Holds (R s) := by
  unfold Reactive.effect
  exact (h _ _).mono (fun s2 h2 => hR.trans _ _ _ (hR.closure s fn) h2)

end Frame
namespace Frame
variable {R : State → State → Prop}

theorem exec (hR : Frame R) : ∀ fuel : Nat,
    (∀ st s, (execStmt fuel st s).Holds (R s)) ∧
    (∀ e s, (callEffect fuel e s).Holds (R s)) ∧
    (∀ i t k s, (forEach fuel i t k s).Holds (R s)) := by
  intro fuel
  induction fuel with
  | zero =>
    refine ⟨?_, ?_, ?_⟩ <;> intros <;> simp [execStmt, callEffect, forEach, Res.Holds]
  | succ n ih =>
    obtain ⟨ihS, ihC, ihF⟩ := ih
    refine ⟨?_, ?_, ?_⟩
    · intro st s
      cases st with
      | skip => simp only [execStmt]; exact hR.refl s
      | seq a b =>
        have ha := ihS a s
        cases hq : execStmt n a s with
        | ok u s1 =>
          rw [hq] at ha; simp only [execStmt, hq]
          exact (ihS b s1).mono (fun s2 h2 => hR.trans _ _ _ ha h2)
        | throw v s1 => rw [hq] at ha; simp only [execStmt, hq]; exact ha
        | timeout => simp only [execStmt, hq]; trivial
      | assign x e =>
        have he := hR.evalExpr e s
        cases hq : Reactive.evalExpr e s with
        | ok v s1 =>
          rw [hq] at he; simp only [execStmt, hq]
          exact hR.trans _ _ _ he (hR.assign _ _ _)
        | throw v s1 => rw [hq] at he; simp only [execStmt, hq]; exact he
        | timeout => simp only [execStmt, hq]; trivial
      | setProp o k e =>
        have ho := hR.evalExpr o s
        cases hq : Reactive.evalExpr o s with
        | ok v s1 =>
          rw [hq] at ho
          have he := hR.evalExpr e s1
          cases hq2 : Reactive.evalExpr e s1 with
          | ok value s2 =>
            rw [hq2] at he; simp only [execStmt, hq, hq2]
            refine (hR.setProp ?_ v k value s2).mono
              (fun s3 h3 => hR.trans _ _ _ ho (hR.trans _ _ _ he h3))
            exact fun t ty k s => hR.trigger (fun t k s => ihF 0 t k s) t ty k s
          | throw w s2 =>
            rw [hq2] at he; simp only [execStmt, hq, hq2]; exact hR.trans _ _ _ ho he
          | timeout => simp only [execStmt, hq, hq2]; trivial
        | throw v s1 => rw [hq] at ho; simp only [execStmt, hq]; exact ho
        | timeout => simp only [execStmt, hq]; trivial
      | deleteProp o k =>
        have ho := hR.evalExpr o s
        cases hq : Reactive.evalExpr o s with
        | ok v s1 =>
          rw [hq] at ho
          have hd := hR.deleteProp v k s1
          cases hq2 : Reactive.deleteProp v k s1 with
          | ok b s2 => rw [hq2] at hd; simp only [execStmt, hq, hq2]; exact hR.trans _ _ _ ho hd
          | throw w s2 =>
            rw [hq2] at hd; simp only [execStmt, hq, hq2]; exact hR.trans _ _ _ ho hd
          | timeout => simp only [execStmt, hq, hq2]; trivial
        | throw v s1 => rw [hq] at ho; simp only [execStmt, hq]; exact ho
        | timeout => simp only [execStmt, hq]; trivial
      | effect body => simp only [execStmt]; exact hR.effect ihC body s
      | throw e =>
        have he := hR.evalExpr e s
        cases hq : Reactive.evalExpr e s with
        | ok v s1 => rw [hq] at he; simp only [execStmt, hq]; exact he
        | throw v s1 => rw [hq] at he; simp only [execStmt, hq]; exact he
        | timeout => simp only [execStmt, hq]; trivial
      | expr e =>
        have he := hR.evalExpr e s
        cases hq : Reactive.evalExpr e s with
        | ok v s1 => rw [hq] at he; simp only [execStmt, hq]; exact he
        | throw v s1 => rw [hq] at he; simp only [execStmt, hq]; exact he
        | timeout => simp only [execStmt, hq]; trivial
      | log e =>
        have he := hR.evalExpr e s
        cases hq : Reactive.evalExpr e s with
        | ok v s1 =>
          rw [hq] at he; simp only [execStmt, hq]; exact hR.trans _ _ _ he (hR.log _ _)
        | throw v s1 => rw [hq] at he; simp only [execStmt, hq]; exact he
        | timeout => simp only [execStmt, hq]; trivial
      | ite c a b =>
        have hc := hR.evalExpr c s
        cases hq : Reactive.evalExpr c s with
        | ok v s1 =>
          rw [hq] at hc; simp only [execStmt, hq]
          split
          · exact (ihS a s1).mono (fun s2 h2 => hR.trans _ _ _ hc h2)
          · exact (ihS b s1).mono (fun s2 h2 => hR.trans _ _ _ hc h2)
        | throw v s1 => rw [hq] at hc; simp only [execStmt, hq]; exact hc
        | timeout => simp only [execStmt, hq]; trivial
      | freeze o =>
        have ho := hR.evalExpr o s
        cases hq : Reactive.evalExpr o s with
        | ok v s1 =>
          rw [hq] at ho; simp only [execStmt, hq]; exact hR.trans _ _ _ ho (hR.freeze _ _)
        | throw v s1 => rw [hq] at ho; simp only [execStmt, hq]; exact ho
        | timeout => simp only [execStmt, hq]; trivial
    · intro e s
      simp only [callEffect]
      split
      · exact hR.run (fun s => ihS _ s) e s
      · exact hR.refl s
    · intro i t k s
      simp only [forEach]
      split
      · exact hR.refl s
      · rename_i effect _
        have hc := ihC effect s
        cases hq : callEffect n effect s with
        | ok u s1 =>
          rw [hq] at hc; simp only []
          exact (ihF (i + 1) t k s1).mono (fun s2 h2 => hR.trans _ _ _ hc h2)
        | throw v s1 => rw [hq] at hc; exact hc
        | timeout => trivial

end Frame
/-! ## The identity maps -/

/-- In a state satisfying the identity-map invariant no ordinary object is a key of `toRow`. -/
theorem IdentityInv.toRow_raw {s : State} (hinv : IdentityInv s) {o : Ref}
    (ho : isRaw s o = true) : Assoc.get s.toRow o = none := by
  apply Assoc.get_none_of_forall
  intro e he heq
  have h := (hinv.2 e he).1
  rw [heq] at h
  simp [isRaw, h] at ho

/-- In a state satisfying the identity-map invariant no proxy is a key of `toProxy`. -/
theorem IdentityInv.toProxy_proxy {s : State} (hinv : IdentityInv s) {w t : Ref}
    (hw : s.heap[w]? = some (.proxy t)) : Assoc.get s.toProxy w = none := by
  apply Assoc.get_none_of_forall
  intro e he heq
  have h := (hinv.1 e he).1
  rw [heq] at h
  simp [isRaw, hw] at h

/-- No key of `toProxy` lies beyond the heap. -/
theorem IdentityInv.toProxy_fresh {s : State} (hinv : IdentityInv s) :
    Assoc.get s.toProxy s.heap.length = none := by
  apply Assoc.get_none_of_forall
  intro e he heq
  have h := lt_length_of_isRaw (hinv.1 e he).1
  exact absurd heq (Nat.ne_of_lt h)

/-- No key of `toRow` lies beyond the heap. -/
theorem IdentityInv.toRow_fresh {s : State} (hinv : IdentityInv s) :
    Assoc.get s.toRow s.heap.length = none := by
  apply Assoc.get_none_of_forall
  intro e he heq
  have h := lt_length_of_getElem? (hinv.2 e he).1
  exact absurd heq (Nat.ne_of_lt h)

/-- What `reactive` does to an ordinary object `o`: it answers the registered proxy, or
builds one at the end of the heap and registers it. -/
theorem reactive_raw {s : State} (hinv : IdentityInv s) {o : Ref} (ho : isRaw s o = true) :
    (∃ w, Assoc.get s.toProxy o = some w ∧ s.heap[w]? = some (.proxy o) ∧
        reactive (.ref o) s = (.ref w, s)) ∨
    (Assoc.get s.toProxy o = none ∧
      reactive (.ref o) s = (.ref s.heap.length,
        { s with heap := s.heap ++ [.proxy o]
                 toProxy := s.toProxy ++ [(o, s.heap.length)]
                 toRow := s.toRow ++ [(s.heap.length, o)] })) := by
  cases hq : Assoc.get s.toProxy o with
  | some w =>
    left
    refine ⟨w, rfl, (hinv.1 _ (Assoc.mem_of_get hq)).2.1, ?_⟩
    simp [reactive, createReactiveObject, isObject_ref, hq]
  | none =>
    right
    refine ⟨rfl, ?_⟩
    have h1 := hinv.toRow_raw ho
    simp [reactive, createReactiveObject, isObject_ref, hq, Assoc.has, h1,
      Assoc.set_of_get_none _ _ hq, Assoc.set_of_get_none _ _ hinv.toRow_fresh]

/-! ## The active-effect stack -/
theorem sameStack_frame : Frame SameStack where
  refl := by intro s; simp [SameStack]
  trans := by intro a b c h1 h2; simp only [SameStack] at *; rw [h2, h1]
  alloc := by intro s o; simp [SameStack]
  store := by intro s r o _; simp [SameStack]
  track := by intro s target key; simp [SameStack]
  create := by intro s v; simp [SameStack]
  assign := by intro s x v; simp [SameStack]
  log := by intro s v; simp [SameStack, consoleLog]
  closure := by intro s fn; simp [SameStack, createReactiveEffect]
  bracket := by
    intro s effect s2 h
    simp only [SameStack] at h ⊢
    simp [h]

/-- Claim C7 (stack safety under failure): whatever the body `fn` does, `run(effect, fn)`
ends exactly as `fn()` ends (a normal return stays a normal return, a failure `v` is
re-raised as the same `v`, and only a body that does not finish within the fuel keeps
`run` from finishing), and on both exits the active-effect stack is the one `run` was
started with; the same holds for `effect(fn)`, which passes the failure on to its caller. -/
theorem run_restores_stack (fuel : Nat) (effect : EffectId) (fn : Stmt) (s : State) :
    (match execStmt fuel fn { s with activeEffectStacks := s.activeEffectStacks ++ [effect]
                                     calls := s.calls ++ [effect] } with
      | .ok _ _ => ∃ s', run (execStmt fuel fn) effect s = .ok () s' ∧
          s'.activeEffectStacks = s.activeEffectStacks
      | .throw v _ => ∃ s', run (execStmt fuel fn) effect s = .throw v s' ∧
          s'.activeEffectStacks = s.activeEffectStacks
      | .timeout => run (execStmt fuel fn) effect s = .timeout) ∧
    (match execStmt fuel fn { s with activeEffectStacks := s.activeEffectStacks ++ [s.effects.length]
                                     calls := s.calls ++ [s.effects.length]
                                     effects := s.effects ++ [fn] } with
      | .ok _ _ => ∃ s', Reactive.effect (callEffect (fuel + 1)) fn s = .ok () s' ∧
          s'.activeEffectStacks = s.activeEffectStacks
      | .throw v _ => ∃ s', Reactive.effect (callEffect (fuel + 1)) fn s = .throw v s' ∧
          s'.activeEffectStacks = s.activeEffectStacks
      | .timeout => Reactive.effect (callEffect (fuel + 1)) fn s = .timeout) := by
  constructor
  · have h := (sameStack_frame.exec fuel).1 fn
      { s with activeEffectStacks := s.activeEffectStacks ++ [effect]
               calls := s.calls ++ [effect] }
    cases hq : execStmt fuel fn { s with activeEffectStacks := s.activeEffectStacks ++ [effect]
                                         calls := s.calls ++ [effect] } with
    | ok u s2 =>
      rw [hq] at h
      simp only [Res.Holds, SameStack] at h
      simp [run, hq, h]
    | throw v s2 =>
      rw [hq] at h
      simp only [Res.Holds, SameStack] at h
      simp [run, hq, h]
    | timeout => simp [run, hq]
  · have h := (sameStack_frame.exec fuel).1 fn
      { s with activeEffectStacks := s.activeEffectStacks ++ [s.effects.length]
               calls := s.calls ++ [s.effects.length]
               effects := s.effects ++ [fn] }
    cases hq : execStmt fuel fn
        { s with activeEffectStacks := s.activeEffectStacks ++ [s.effects.length]
                 calls := s.calls ++ [s.effects.length]
                 effects := s.effects ++ [fn] } with
    | ok u s2 =>
      rw [hq] at h
      simp only [Res.Holds, SameStack] at h
      simp [Reactive.effect, createReactiveEffect, callEffect, run, hq, h]
    | throw v s2 =>
      rw [hq] at h
      simp only [Res.Holds, SameStack] at h
      simp [Reactive.effect, createReactiveEffect, callEffect, run, hq, h]
    | timeout => simp [Reactive.effect, createReactiveEffect, callEffect, run, hq]

/-! ## Wrapping -/
/-- Claim C10 (non-object pass-through): a value that is not object-like (its `typeof` is not
`'object'`, or it is `null` or `undefined`) is returned by `reactive` as it is, and the state,
so both identity maps, is left as it was. -/
theorem reactive_non_object (value : Val) (s : State)
    (h : typeof value ≠ "object" ∨ value = .null ∨ value = .undefined) :
    reactive value s = (value, s) := by
  have h1 : isObject value = false := (isObject_eq_false_iff value).2 h
  simp [reactive, createReactiveObject, h1]

/-- Witness for claim C10: a function value passes through `reactive` unchanged. -/
theorem reactive_non_object_witness :
    reactive (.func 7) wrappedState = (.func 7, wrappedState) :=
  reactive_non_object (.func 7) wrappedState (Or.inl (by decide))

/-- Claim C2 (idempotent wrapping): in a state satisfying the identity-map invariant, the
first call `reactive(o)` on an ordinary object `o` answers a proxy `w` built on `o`, and a
second call answers the same `w` and leaves the whole state, so `toProxy` and `toRow`,
unchanged. -/
theorem reactive_idempotent (s : State) (o : Ref) (hinv : IdentityInv s)
    (ho : isRaw s o = true) :
    ∃ w, (reactive (.ref o) s).1 = .ref w ∧
      (reactive (.ref o) s).2.heap[w]? = some (.proxy o) ∧
      reactive (.ref o) (reactive (.ref o) s).2 = (.ref w, (reactive (.ref o) s).2) := by
  rcases reactive_raw hinv ho with ⟨w, hw, hp, hr⟩ | ⟨hn, hr⟩
  · exact ⟨w, by rw [hr], by rw [hr]; exact hp, by rw [hr]; exact hr⟩
  · refine ⟨s.heap.length, by rw [hr], by rw [hr]; simp, ?_⟩
    rw [hr]
    have h1 : Assoc.get (s.toProxy ++ [(o, s.heap.length)]) o = some s.heap.length := by
      rw [← Assoc.set_of_get_none _ _ hn]; exact Assoc.get_set_self _ _ _
    simp [reactive, createReactiveObject, isObject_ref, h1]

/-- Witness for claim C2: the object of `wrappedState` and its registered proxy. -/
theorem reactive_idempotent_witness :
    ∃ w, (reactive (.ref 0) wrappedState).1 = .ref w ∧
      (reactive (.ref 0) wrappedState).2.heap[w]? = some (.proxy 0) ∧
      reactive (.ref 0) (reactive (.ref 0) wrappedState).2 =
        (.ref w, (reactive (.ref 0) wrappedState).2) :=
  reactive_idempotent wrappedState 0 (by decide) (by decide)

/-- Claim C3 (no double-wrap): in a state satisfying the identity-map invariant,
`reactive(reactive(o))` is `reactive(o)` for every object `o` of the heap, the second call
changing nothing; and `reactive(w)` on a registered wrapper `w` answers `w` itself and leaves
the state, so the heap and both identity maps, as it was. -/
theorem reactive_no_double_wrap (s : State) (hinv : IdentityInv s) :
    (∀ o, o < s.heap.length →
      reactive (reactive (.ref o) s).1 (reactive (.ref o) s).2 = reactive (.ref o) s) ∧
    (∀ w, Assoc.has s.toRow w = true → reactive (.ref w) s = (.ref w, s)) := by
  have hreg : ∀ w, Assoc.has s.toRow w = true → reactive (.ref w) s = (.ref w, s) := by
    intro w hw
    unfold Assoc.has at hw
    obtain ⟨r, hr⟩ := Option.isSome_iff_exists.1 hw
    have hp := (hinv.2 _ (Assoc.mem_of_get hr)).1
    have hn := hinv.toProxy_proxy hp
    simp [reactive, createReactiveObject, isObject_ref, hn, Assoc.has, hr]
  refine ⟨?_, hreg⟩
  intro o ho
  cases hq : Assoc.get s.toProxy o with
  | some w =>
    have hi := hinv.1 _ (Assoc.mem_of_get hq)
    have h1 : reactive (.ref o) s = (.ref w, s) := by
      simp [reactive, createReactiveObject, isObject_ref, hq]
    rw [h1]
    exact hreg w (by simp [Assoc.has, hi.2.2])
  | none =>
    by_cases hrow : Assoc.has s.toRow o = true
    · have h1 := hreg o hrow
      rw [h1]; exact h1
    · have h1 : reactive (.ref o) s = (.ref s.heap.length,
          { s with heap := s.heap ++ [.proxy o]
                   toProxy := Assoc.set s.toProxy o s.heap.length
                   toRow := Assoc.set s.toRow s.heap.length o }) := by
        simp [reactive, createReactiveObject, isObject_ref, hq, hrow]
      rw [h1]
      have hne : o ≠ s.heap.length := Nat.ne_of_lt ho
      have h2 : Assoc.get (Assoc.set s.toProxy o s.heap.length) s.heap.length = none := by
        rw [Assoc.get_set_ne _ _ hne]; exact hinv.toProxy_fresh
      simp [reactive, createReactiveObject, isObject_ref, h2, Assoc.has, Assoc.get_set_self]

/-- Witness for claim C3: `wrappedState` satisfies the identity-map invariant. -/
theorem reactive_no_double_wrap_witness :
    (∀ o, o < wrappedState.heap.length →
      reactive (reactive (.ref o) wrappedState).1 (reactive (.ref o) wrappedState).2 =
        reactive (.ref o) wrappedState) ∧
    (∀ w, Assoc.has wrappedState.toRow w = true →
      reactive (.ref w) wrappedState = (.ref w, wrappedState)) :=
  reactive_no_double_wrap wrappedState (by decide)

/-! ## The write trap -/
theorem ownProps_reflectSet (s : State) (target : Ref) (key : Key) (value : Val) :
    ownProps (Reflect.set s target key value).2 target =
      if (Reflect.set s target key value).1 then Assoc.set (ownProps s target) key value
      else ownProps s target := by
  cases hq : s.heap[target]? with
  | none => simp [Reflect.set, hq]
  | some c =>
    cases c with
    | proxy t => simp [Reflect.set, hq]
    | raw o =>
      have hlt := lt_length_of_getElem? hq
      by_cases ha : Reflect.accepts o key = true
      · simp [Reflect.set, hq, ha, ownProps, hlt]
      · simp [Reflect.set, hq, ha]

theorem isOwnProperty_reflectSet {s : State} {target : Ref} {key : Key} (value : Val)
    (h : isOwnProperty s target key = true) :
    isOwnProperty (Reflect.set s target key value).2 target key = true := by
  unfold isOwnProperty at h ⊢
  rw [ownProps_reflectSet]
  split
  · simp [Assoc.has, Assoc.get_set_self]
  · exact h

@[simp] theorem reflectSet_targetMap (s : State) (target : Ref) (key : Key) (value : Val) :
    (Reflect.set s target key value).2.targetMap = s.targetMap := by
  unfold Reflect.set; split
  · split <;> rfl
  · rfl

@[simp] theorem reflectSet_stack (s : State) (target : Ref) (key : Key) (value : Val) :
    (Reflect.set s target key value).2.activeEffectStacks = s.activeEffectStacks := by
  unfold Reflect.set; split
  · split <;> rfl
  · rfl

@[simp] theorem reflectSet_calls (s : State) (target : Ref) (key : Key) (value : Val) :
    (Reflect.set s target key value).2.calls = s.calls := by
  unfold Reflect.set; split
  · split <;> rfl
  · rfl

@[simp] theorem reflectSet_console (s : State) (target : Ref) (key : Key) (value : Val) :
    (Reflect.set s target key value).2.console = s.console := by
  unfold Reflect.set; split
  · split <;> rfl
  · rfl

@[simp] theorem reflectSet_effects (s : State) (target : Ref) (key : Key) (value : Val) :
    (Reflect.set s target key value).2.effects = s.effects := by
  unfold Reflect.set; split
  · split <;> rfl
  · rfl

@[simp] theorem reflectSet_vars (s : State) (target : Ref) (key : Key) (value : Val) :
    (Reflect.set s target key value).2.vars = s.vars := by
  unfold Reflect.set; split
  · split <;> rfl
  · rfl

/-- Claim C5, as the code has it: a write `p.k = v` through a wrapper, where `k` is an own
property of the target whose current value is `v` and `v` is not `NaN`, completes without
calling `trigger` at all (the outcome is the same for every `trigger`, so whatever effects
are recorded under the pair none is invoked), and leaves the dependency graph, the
active-effect stack, the trace of invocations and the console as they were. -/
theorem unchanged_write_no_trigger (trigger : Ref → String → Key → State → Res Unit)
    (s : State) (p target : Ref) (k : Key) (v : Val)
    (hp : s.heap[p]? = some (.proxy target))
    (hk : Assoc.get (ownProps s target) k = some v) (hv : v ≠ .nan) :
    ∃ s', setProp trigger (.ref p) k v s = .ok () s' ∧
      s'.targetMap = s.targetMap ∧ s'.activeEffectStacks = s.activeEffectStacks ∧
      s'.calls = s.calls ∧ s'.console = s.console ∧
      Assoc.get (ownProps s' target) k = some v := by
  have hown : isOwnProperty s target k = true := by simp [isOwnProperty, Assoc.has, hk]
  have hown2 := isOwnProperty_reflectSet v hown
  have hget : Reflect.get s target k = v := by simp [Reflect.get, hk]
  refine ⟨(Reflect.set s target k v).2, ?_, ?_⟩
  · simp [setProp, hp, handles.set, hown2, hget, strictNe_self hv]
  · refine ⟨by simp, by simp, by simp, by simp, ?_⟩
    rw [ownProps_reflectSet]
    split
    · exact Assoc.get_set_self _ _ _
    · exact hk

/-- Witness for claim C5: writing `1` over `a: 1` through the proxy of `wrappedState`. -/
theorem unchanged_write_no_trigger_witness :
    ∃ s', setProp (trigger (forEach 5 0)) (.ref 1) "a" (.num 1) wrappedState = .ok () s' ∧
      s'.targetMap = wrappedState.targetMap ∧
      s'.activeEffectStacks = wrappedState.activeEffectStacks ∧
      s'.calls = wrappedState.calls ∧ s'.console = wrappedState.console ∧
      Assoc.get (ownProps s' 0) "a" = some (.num 1) :=
  unchanged_write_no_trigger (trigger (forEach 5 0)) wrappedState 1 0 "a" (.num 1)
    (by decide) (by decide) (by decide)

/-- Counterexample to claim C5 as stated: after `p = reactive(a: NaN)` and an effect reading
`p.a`, the property `a` holds `NaN`, and the write `p.a = NaN` of that same value runs the
effect again, because `NaN !== NaN`. -/
theorem unchanged_write_nan_triggers :
    execStmt 10 nanSetup State.empty = .ok () nanTracked ∧
    Assoc.get (ownProps nanTracked 0) "a" = some .nan ∧
    setProp (trigger (forEach 5 0)) (.ref 1) "a" .nan nanTracked =
      .ok () { nanTracked with calls := [0, 0], console := [.str "修改原有的属性"] } := by
  decide!

/-- Claim C6 at its failing input: on `p = reactive(empty object)` with an effect reading
`p.a`, the write `p.a = undefined` of the new key `a` runs no effect and logs no
classification (the trace shows the single run at registration), and the write `p.a = 'x'`
re-runs the effect through the modification branch, as its console line shows: the
addition branch is not taken by either. -/
theorem added_key_not_classified :
    execStmt 10 (addKey .undefined) State.empty = .ok ()
      { heap := [.raw ⟨[("a", .undefined)], true, true, true⟩, .proxy 0]
        toProxy := [(0, 1)]
        toRow := [(1, 0)]
        targetMap := [(0, [("a", [0])])]
        activeEffectStacks := []
        effects := [.assign "seen" (.get (.var "p") "a")]
        vars := [("p", .ref 1), ("seen", .undefined)]
        console := []
        calls := [0] } ∧
    execStmt 10 (addKey (.str "x")) State.empty = .ok ()
      { heap := [.raw ⟨[("a", .str "x")], true, true, true⟩, .proxy 0]
        toProxy := [(0, 1)]
        toRow := [(1, 0)]
        targetMap := [(0, [("a", [0])])]
        activeEffectStacks := []
        effects := [.assign "seen" (.get (.var "p") "a")]
        vars := [("p", .ref 1), ("seen", .str "x")]
        console := [.str "修改原有的属性"]
        calls := [0, 0] } := by
  decide!

/-! ## Reads -/
theorem trigger_of_no_deps (fuel : Nat) {s : State} {target : Ref} {key : Key}
    (h : (depsOf s target key).getD [] = []) (type : String) :
    trigger (forEach (fuel + 1) 0) target type key s = .ok () s := by
  unfold trigger
  cases hq : Assoc.get s.targetMap target with
  | none => simp
  | some depsMap =>
    cases hq2 : Assoc.get depsMap key with
    | none => simp [hq2]
    | some deps => simp [forEach, h, hq2]

theorem handlesGet_of_empty {s : State} (h : s.activeEffectStacks = []) (target : Ref)
    (key : Key) :
    handles.get target key s =
      if isObject (Reflect.get s target key) then reactive (Reflect.get s target key) s
      else (Reflect.get s target key, s) := by
  simp [handles.get, track_of_empty h]

/-- Claim C8 (untracked read creates no dependency): a read `p.k` through a wrapper while the
active-effect stack is empty completes and leaves the dependency graph, the stack and the
trace of invocations as they were; the set under `(target, k)` that a later write consults is
therefore the one recorded by effects during their own runs, and when that set is absent or
empty the write `p.k = v` that follows the read invokes no effect. -/
theorem untracked_read_no_dependency (fuel : Nat) (s : State) (p target : Ref) (k : Key)
    (v : Val) (hp : s.heap[p]? = some (.proxy target)) (hst : s.activeEffectStacks = []) :
    ∃ w s1, getProp (.ref p) k s = .ok w s1 ∧
      s1.targetMap = s.targetMap ∧ s1.activeEffectStacks = [] ∧ s1.calls = s.calls ∧
      ((depsOf s target k).getD [] = [] →
        ∃ s2, setProp (trigger (forEach (fuel + 1) 0)) (.ref p) k v s1 = .ok () s2 ∧
          s2.calls = s.calls ∧ s2.targetMap = s.targetMap) := by
  refine ⟨(handles.get target k s).1, (handles.get target k s).2, by simp [getProp, hp], ?_⟩
  have hs1 : (handles.get target k s).2.targetMap = s.targetMap ∧
      (handles.get target k s).2.activeEffectStacks = [] ∧
      (handles.get target k s).2.calls = s.calls ∧
      (handles.get target k s).2.heap[p]? = some (.proxy target) := by
    rw [handlesGet_of_empty hst]
    split
    · simp [reactive, hst, createReactiveObject_heap _ _ hp]
    · simp [hst, hp]
  obtain ⟨h1, h2, h3, h4⟩ := hs1
  refine ⟨h1, h2, h3, ?_⟩
  intro hd
  generalize (handles.get target k s).2 = s1 at h1 h2 h3 h4
  have hd1 : ∀ s' : State, s'.targetMap = s1.targetMap →
      (depsOf s' target k).getD [] = [] := by
    intro s' hs'
    unfold depsOf at hd ⊢
    rw [hs', h1]; exact hd
  have htr : ∀ ty, trigger (forEach (fuel + 1) 0) target ty k (Reflect.set s1 target k v).2 =
      .ok () (Reflect.set s1 target k v).2 :=
    fun ty => trigger_of_no_deps fuel (hd1 _ (by simp)) ty
  by_cases hown : isOwnProperty (Reflect.set s1 target k v).2 target k = true
  · by_cases hne : strictNe (Reflect.get s1 target k) v = true
    · refine ⟨consoleLog (.str "修改原有的属性") (Reflect.set s1 target k v).2, ?_, ?_, ?_⟩
      · simp [setProp, h4, handles.set, htr, hown, hne]
      · simp [consoleLog, h3]
      · simp [consoleLog, h1]
    · refine ⟨(Reflect.set s1 target k v).2, ?_, ?_, ?_⟩
      · simp [setProp, h4, handles.set, hown, hne]
      · simp [h3]
      · simp [h1]
  · refine ⟨consoleLog (.str "设置新的属性") (Reflect.set s1 target k v).2, ?_, ?_, ?_⟩
    · simp [setProp, h4, handles.set, htr, hown]
    · simp [consoleLog, h3]
    · simp [consoleLog, h1]

/-- Witness for claim C8: reading `a` through the proxy of `wrappedState`, outside any
effect, then writing `3`. -/
theorem untracked_read_no_dependency_witness :
    ∃ w s1, getProp (.ref 1) "a" wrappedState = .ok w s1 ∧
      s1.targetMap = wrappedState.targetMap ∧ s1.activeEffectStacks = [] ∧
      s1.calls = wrappedState.calls ∧
      ((depsOf wrappedState 0 "a").getD [] = [] →
        ∃ s2, setProp (trigger (forEach (3 + 1) 0)) (.ref 1) "a" (.num 3) s1 = .ok () s2 ∧
          s2.calls = wrappedState.calls ∧ s2.targetMap = wrappedState.targetMap) :=
  untracked_read_no_dependency 3 wrappedState 1 0 "a" (.num 3) (by decide) (by decide)

/-! ## Expressions are read-only -/
@[simp] theorem track_console (target : Ref) (key : Key) (s : State) :
    (track target key s).console = s.console := by
  unfold track; split <;> rfl

theorem readOnly_frame : ReadFrame ReadOnly where
  refl := by intro s; simp [ReadOnly]
  trans := by
    intro a b c h1 h2
    simp only [ReadOnly] at *
    obtain ⟨a1, a2, a3, a4, a5⟩ := h1
    obtain ⟨b1, b2, b3, b4, b5⟩ := h2
    exact ⟨b1.trans a1, b2.trans a2, b3.trans a3, b4.trans a4, b5.trans a5⟩
  alloc := by intro s o; simp [ReadOnly]
  track := by intro s target key; simp [ReadOnly]
  create := by intro s v; simp [ReadOnly]

theorem callsGrow_frame : Frame CallsGrow where
  refl := by intro s; exact ⟨[], by simp⟩
  trans := by
    intro a b c h1 h2
    obtain ⟨l1, h1⟩ := h1
    obtain ⟨l2, h2⟩ := h2
    exact ⟨l1 ++ l2, by rw [h2, h1, List.append_assoc]⟩
  alloc := by intro s o; exact ⟨[], by simp⟩
  store := by intro s r o _; exact ⟨[], by simp⟩
  track := by intro s target key; exact ⟨[], by simp⟩
  create := by intro s v; exact ⟨[], by simp⟩
  assign := by intro s x v; exact ⟨[], by simp⟩
  log := by intro s v; exact ⟨[], by simp [consoleLog]⟩
  closure := by intro s fn; exact ⟨[], by simp [createReactiveEffect]⟩
  bracket := by
    intro s effect s2 h
    obtain ⟨l, h⟩ := h
    exact ⟨effect :: l, by simp [h]⟩

theorem deleteProp_readOnly (v : Val) (k : Key) (s : State) :
    deleteProp v k s ≠ .timeout ∧ (deleteProp v k s).Holds (ReadOnly s) := by
  unfold deleteProp
  split
  · split
    · simp [handles.deleteProperty, Res.Holds, ReadOnly]
    · split <;> simp [Res.Holds, ReadOnly]
    · simp [Res.Holds, ReadOnly]
  all_goals simp [Res.Holds, ReadOnly]

theorem freeze_readOnly (v : Val) (s : State) : ReadOnly s (freeze v s) := by
  unfold freeze
  split
  · split
    · simp [ReadOnly]
    · split <;> simp [ReadOnly]
    · simp [ReadOnly]
  · simp [ReadOnly]

theorem evalExpr_ne_timeout (e : Expr) : ∀ s, evalExpr e s ≠ .timeout := by
  induction e with
  | lit v => intro s; simp [evalExpr]
  | var x => intro s; unfold evalExpr; split <;> simp
  | newObj props => intro s; simp [evalExpr]
  | get o k ih =>
    intro s
    cases hq : evalExpr o s with
    | ok v s1 =>
      simp only [evalExpr, hq]
      unfold getProp
      split
      · split <;> simp
      all_goals simp
    | throw v s1 => simp [evalExpr, hq]
    | timeout => exact absurd hq (ih s)
  | plus a b iha ihb =>
    intro s
    cases hq : evalExpr a s with
    | ok x s1 =>
      cases hq2 : evalExpr b s1 with
      | ok y s2 => simp only [evalExpr, hq, hq2]; split <;> simp
      | throw y s2 => simp [evalExpr, hq, hq2]
      | timeout => exact absurd hq2 (ihb s1)
    | throw v s1 => simp [evalExpr, hq]
    | timeout => exact absurd hq (iha s)
  | reactive e ih =>
    intro s
    cases hq : evalExpr e s with
    | ok v s1 => simp [evalExpr, hq]
    | throw v s1 => simp [evalExpr, hq]
    | timeout => exact absurd hq (ih s)

/-! ## Bodies without writes -/
theorem FreshCalls.of_eq {s s' : State} (h1 : s'.calls = s.calls)
    (h2 : s'.effects = s.effects) : FreshCalls s s' :=
  ⟨[], by simp [h1], by simp, by simp [h2]⟩

theorem FreshCalls.of_readOnly {s s' : State} (h : ReadOnly s s') : FreshCalls s s' :=
  FreshCalls.of_eq h.1 h.2.1

theorem effect_succ (n : Nat) (fn : Stmt) (s : State) :
    effect (callEffect (n + 1)) fn s =
      run (execStmt n fn) s.effects.length { s with effects := s.effects ++ [fn] } := by
  simp [effect, createReactiveEffect, callEffect]

/-- If the call `fn()` completes and adds to the trace only invocations of closures younger
than `bound`, then `run(effect, fn)` completes and adds the invocation of `effect` followed
by those. -/
theorem run_freshCalls (fn : State → Res Unit) (effect : EffectId) (s : State)
    (h : ∀ s0, s0.calls = s.calls ++ [effect] → s0.effects = s.effects →
      fn s0 ≠ .timeout ∧ (fn s0).Holds (FreshCalls s0)) :
    run fn effect s ≠ .timeout ∧
      (run fn effect s).Holds (fun s' => ∃ l, s'.calls = s.calls ++ effect :: l ∧
        (∀ x ∈ l, s.effects.length ≤ x) ∧ s.effects.length ≤ s'.effects.length) := by
  have h0 := h { s with activeEffectStacks := s.activeEffectStacks ++ [effect]
                        calls := s.calls ++ [effect] } rfl rfl
  unfold run
  simp only []
  split
  · rename_i heq
    rw [heq] at h0
    obtain ⟨l, e1, f1, g1⟩ := h0.2
    exact ⟨by simp, l, by simp [e1], f1, g1⟩
  · rename_i heq
    rw [heq] at h0
    obtain ⟨l, e1, f1, g1⟩ := h0.2
    exact ⟨by simp, l, by simp [e1], f1, g1⟩
  · rename_i heq
    rw [heq] at h0
    exact absurd rfl h0.1

theorem FreshCalls.trans {a b c : State} (h1 : FreshCalls a b) (h2 : FreshCalls b c) :
    FreshCalls a c := by
  obtain ⟨l1, e1, f1, g1⟩ := h1
  obtain ⟨l2, e2, f2, g2⟩ := h2
  refine ⟨l1 ++ l2, by rw [e2, e1, List.append_assoc], ?_, Nat.le_trans g1 g2⟩
  intro x hx
  rcases List.mem_append.1 hx with h | h
  · exact f1 x h
  · exact Nat.le_trans g1 (f2 x h)

theorem evalExpr_freshCalls (e : Expr) (s : State) :
    (evalExpr e s).Holds (FreshCalls s) :=
  (readOnly_frame.evalExpr e s).mono (fun _ h => FreshCalls.of_readOnly h)

/-- A statement without property assignments, given fuel for its depth, completes, and all it
adds to the trace are invocations of closures it created itself. -/
theorem execStmt_quiet (st : Stmt) : ∀ (fuel : Nat) (s : State),
    st.noSetProp = true → st.depth ≤ fuel →
    execStmt fuel st s ≠ .timeout ∧ (execStmt fuel st s).Holds (FreshCalls s) := by
  induction st with
  | skip =>
    intro fuel s _ hf
    obtain ⟨n, rfl⟩ : ∃ n, fuel = n + 1 := ⟨fuel - 1, by simp [Stmt.depth] at hf; omega⟩
    simp only [execStmt]
    exact ⟨by simp, FreshCalls.of_readOnly (readOnly_frame.refl s)⟩
  | seq a b iha ihb =>
    intro fuel s hq hf
    simp only [Stmt.noSetProp, Bool.and_eq_true] at hq
    simp only [Stmt.depth] at hf
    obtain ⟨n, rfl⟩ : ∃ n, fuel = n + 1 := ⟨fuel - 1, by omega⟩
    have ha := iha n s hq.1 (by omega)
    cases hr : execStmt n a s with
    | ok u s1 =>
      rw [hr] at ha
      have hb := ihb n s1 hq.2 (by omega)
      simp only [execStmt, hr]
      exact ⟨hb.1, hb.2.mono (fun _ h => FreshCalls.trans ha.2 h)⟩
    | throw v s1 => rw [hr] at ha; simp only [execStmt, hr]; exact ⟨by simp, ha.2⟩
    | timeout => rw [hr] at ha; exact absurd rfl ha.1
  | assign x e =>
    intro fuel s _ hf
    obtain ⟨n, rfl⟩ : ∃ n, fuel = n + 1 := ⟨fuel - 1, by simp [Stmt.depth] at hf; omega⟩
    have he := evalExpr_freshCalls e s
    cases hr : evalExpr e s with
    | ok v s1 =>
      rw [hr] at he; simp only [execStmt, hr]
      exact ⟨by simp, FreshCalls.trans he (FreshCalls.of_eq rfl rfl)⟩
    | throw v s1 => rw [hr] at he; simp only [execStmt, hr]; exact ⟨by simp, he⟩
    | timeout => exact absurd hr (evalExpr_ne_timeout e s)
  | setProp o k e => intro fuel s hq; simp [Stmt.noSetProp] at hq
  | deleteProp o k =>
    intro fuel s _ hf
    obtain ⟨n, rfl⟩ : ∃ n, fuel = n + 1 := ⟨fuel - 1, by simp [Stmt.depth] at hf; omega⟩
    have he := evalExpr_freshCalls o s
    cases hr : evalExpr o s with
    | ok v s1 =>
      rw [hr] at he
      have hd := deleteProp_readOnly v k s1
      cases hr2 : deleteProp v k s1 with
      | ok b s2 =>
        rw [hr2] at hd; simp only [execStmt, hr, hr2]
        exact ⟨by simp, FreshCalls.trans he (FreshCalls.of_readOnly hd.2)⟩
      | throw w s2 =>
        rw [hr2] at hd; simp only [execStmt, hr, hr2]
        exact ⟨by simp, FreshCalls.trans he (FreshCalls.of_readOnly hd.2)⟩
      | timeout => rw [hr2] at hd; exact absurd rfl hd.1
    | throw v s1 => rw [hr] at he; simp only [execStmt, hr]; exact ⟨by simp, he⟩
    | timeout => exact absurd hr (evalExpr_ne_timeout o s)
  | effect body ih =>
    intro fuel s hq hf
    simp only [Stmt.noSetProp] at hq
    simp only [Stmt.depth] at hf
    obtain ⟨n, rfl⟩ : ∃ n, fuel = n + 2 := ⟨fuel - 2, by omega⟩
    simp only [execStmt, effect_succ]
    have hb := run_freshCalls (execStmt n body) s.effects.length
      { s with effects := s.effects ++ [body] }
      (fun s0 _ _ => ih n s0 hq (by omega))
    refine ⟨hb.1, hb.2.mono ?_⟩
    rintro s' ⟨l, e1, f1, g1⟩
    refine ⟨s.effects.length :: l, e1, ?_, ?_⟩
    · intro x hx
      rcases List.mem_cons.1 hx with h | h
      · simp [h]
      · have := f1 x h; simp at this; omega
    · simp at g1; omega
  | throw e =>
    intro fuel s _ hf
    obtain ⟨n, rfl⟩ : ∃ n, fuel = n + 1 := ⟨fuel - 1, by simp [Stmt.depth] at hf; omega⟩
    have he := evalExpr_freshCalls e s
    cases hr : evalExpr e s with
    | ok v s1 => rw [hr] at he; simp only [execStmt, hr]; exact ⟨by simp, he⟩
    | throw v s1 => rw [hr] at he; simp only [execStmt, hr]; exact ⟨by simp, he⟩
    | timeout => exact absurd hr (evalExpr_ne_timeout e s)
  | expr e =>
    intro fuel s _ hf
    obtain ⟨n, rfl⟩ : ∃ n, fuel = n + 1 := ⟨fuel - 1, by simp [Stmt.depth] at hf; omega⟩
    have he := evalExpr_freshCalls e s
    cases hr : evalExpr e s with
    | ok v s1 => rw [hr] at he; simp only [execStmt, hr]; exact ⟨by simp, he⟩
    | throw v s1 => rw [hr] at he; simp only [execStmt, hr]; exact ⟨by simp, he⟩
    | timeout => exact absurd hr (evalExpr_ne_timeout e s)
  | log e =>
    intro fuel s _ hf
    obtain ⟨n, rfl⟩ : ∃ n, fuel = n + 1 := ⟨fuel - 1, by simp [Stmt.depth] at hf; omega⟩
    have he := evalExpr_freshCalls e s
    cases hr : evalExpr e s with
    | ok v s1 =>
      rw [hr] at he; simp only [execStmt, hr]
      exact ⟨by simp, FreshCalls.trans he (FreshCalls.of_eq rfl rfl)⟩
    | throw v s1 => rw [hr] at he; simp only [execStmt, hr]; exact ⟨by simp, he⟩
    | timeout => exact absurd hr (evalExpr_ne_timeout e s)
  | ite c a b iha ihb =>
    intro fuel s hq hf
    simp only [Stmt.noSetProp, Bool.and_eq_true] at hq
    simp only [Stmt.depth] at hf
    obtain ⟨n, rfl⟩ : ∃ n, fuel = n + 1 := ⟨fuel - 1, by omega⟩
    have he := evalExpr_freshCalls c s
    cases hr : evalExpr c s with
    | ok v s1 =>
      rw [hr] at he; simp only [execStmt, hr]
      split
      · have ha := iha n s1 hq.1 (by omega)
        exact ⟨ha.1, ha.2.mono (fun _ h => FreshCalls.trans he h)⟩
      · have hb := ihb n s1 hq.2 (by omega)
        exact ⟨hb.1, hb.2.mono (fun _ h => FreshCalls.trans he h)⟩
    | throw v s1 => rw [hr] at he; simp only [execStmt, hr]; exact ⟨by simp, he⟩
    | timeout => exact absurd hr (evalExpr_ne_timeout c s)
  | freeze o =>
    intro fuel s _ hf
    obtain ⟨n, rfl⟩ : ∃ n, fuel = n + 1 := ⟨fuel - 1, by simp [Stmt.depth] at hf; omega⟩
    have he := evalExpr_freshCalls o s
    cases hr : evalExpr o s with
    | ok v s1 =>
      rw [hr] at he; simp only [execStmt, hr]
      exact ⟨by simp, FreshCalls.trans he (FreshCalls.of_readOnly (freeze_readOnly v s1))⟩
    | throw v s1 => rw [hr] at he; simp only [execStmt, hr]; exact ⟨by simp, he⟩
    | timeout => exact absurd hr (evalExpr_ne_timeout o s)

/-! ## The first run of an effect -/
/-- Counterexample to claim C4 as stated: on the wrapper of an object with `a: 1`, the single
call `effect(fn)` with `fn = () => (p.a, p.a = 5)` invokes `fn` twice before it returns: the
write inside the first run triggers the effect that is being registered. -/
theorem effect_invokes_twice :
    effect (callEffect 10) selfTrigger wrappedState = .ok ()
      { wrappedState with
        heap := [.raw ⟨[("a", .num 5)], true, true, true⟩, .proxy 0]
        targetMap := [(0, [("a", [0])])]
        effects := [selfTrigger]
        console := [.str "修改原有的属性"]
        calls := [0, 0] } := by
  decide!

/-- Claim C4, as the code has it: `effect(fn)` invokes `fn` synchronously before it returns,
and this invocation is the first one it adds to the trace; when the body of `fn` (nested
effect bodies included) contains no property assignment, `effect(fn)` completes, given fuel
for the depth of the body, and has invoked `fn` exactly once. -/
theorem effect_first_run (fn : Stmt) (s : State) :
    (∀ fuel, (effect (callEffect fuel) fn s).Holds
      (fun s' => ∃ l, s'.calls = s.calls ++ s.effects.length :: l)) ∧
    (fn.noSetProp = true → ∀ fuel, fn.depth < fuel →
      effect (callEffect fuel) fn s ≠ .timeout ∧
      (effect (callEffect fuel) fn s).Holds
        (fun s' => ∃ l, s'.calls = s.calls ++ s.effects.length :: l ∧ s.effects.length ∉ l)) := by
  constructor
  · intro fuel
    cases fuel with
    | zero => simp [effect, createReactiveEffect, callEffect, Res.Holds]
    | succ n =>
      rw [effect_succ]
      have h := (callsGrow_frame.exec n).1 fn
        { s with effects := s.effects ++ [fn]
                 activeEffectStacks := s.activeEffectStacks ++ [s.effects.length]
                 calls := s.calls ++ [s.effects.length] }
      unfold run
      simp only []
      split
      · rename_i heq
        rw [heq] at h
        obtain ⟨l, hl⟩ := h
        exact ⟨l, by simp [hl]⟩
      · rename_i heq
        rw [heq] at h
        obtain ⟨l, hl⟩ := h
        exact ⟨l, by simp [hl]⟩
      · trivial
  · intro hq fuel hf
    obtain ⟨n, rfl⟩ : ∃ n, fuel = n + 1 := ⟨fuel - 1, by omega⟩
    rw [effect_succ]
    have hb := run_freshCalls (execStmt n fn) s.effects.length
      { s with effects := s.effects ++ [fn] }
      (fun s0 _ _ => execStmt_quiet fn n s0 hq (by omega))
    refine ⟨hb.1, hb.2.mono ?_⟩
    rintro s' ⟨l, e1, f1, _⟩
    refine ⟨l, e1, ?_⟩
    intro hmem
    have := f1 _ hmem
    simp at this

/-- Witness for claim C4: the body `console.log(p.a)` contains no property assignment. -/
theorem effect_first_run_witness :
    logBody.noSetProp = true ∧ logBody.depth < 3 ∧
    effect (callEffect 3) logBody wrappedState ≠ .timeout ∧
    (effect (callEffect 3) logBody wrappedState).Holds
      (fun s' => ∃ l, s'.calls = wrappedState.calls ++ wrappedState.effects.length :: l ∧
        wrappedState.effects.length ∉ l) :=
  ⟨by decide, by decide, (effect_first_run logBody wrappedState).2 (by decide) 3 (by decide)⟩

/-! ## An effect that reads one property -/
theorem track_deps_eq (s : State) (target : Ref) (key : Key) :
    (Assoc.get ((Assoc.get s.targetMap target).getD []) key).getD [] =
      (depsOf s target key).getD [] := by
  unfold depsOf
  cases Assoc.get s.targetMap target <;> simp [Assoc.get]

/-- What `track` records when an effect is running: the top of the stack joins the set under
`(target, key)`. -/
theorem track_of_top {s : State} {effect : EffectId} (h : s.activeEffectStacks.getLast? = some effect)
    (target : Ref) (key : Key) :
    track target key s =
      { s with
        targetMap := Assoc.set s.targetMap target
          (Assoc.set ((Assoc.get s.targetMap target).getD []) key
            (if ((depsOf s target key).getD []).contains effect then (depsOf s target key).getD []
             else (depsOf s target key).getD [] ++ [effect])) } := by
  simp only [track, h, track_deps_eq]

theorem depsOf_set (tm : List (Ref × List (Key × List EffectId))) (s : State) (target : Ref)
    (dm : List (Key × List EffectId)) (key : Key) (deps : List EffectId)
    (h : s.targetMap = Assoc.set tm target (Assoc.set dm key deps)) :
    depsOf s target key = some deps := by
  simp [depsOf, h, Assoc.get_set_self]

/-- First run of the effect `seen = p.a` on a wrapper `p` of `o`, where `a` holds a value that
is not an object and no effect is recorded under `(o, a)` yet. -/
theorem effect_read_first_run (fuel : Nat) (s : State) (p o : Ref) (obj : RawObj) (a : Key)
    (x : String) (v0 : Val)
    (hp : s.heap[p]? = some (.proxy o)) (ho : s.heap[o]? = some (.raw obj))
    (ha : Assoc.get obj.props a = some v0) (hv0 : isObject v0 = false)
    (hdeps : (depsOf s o a).getD [] = []) :
    effect (callEffect (fuel + 2)) (.assign x (.get (.lit (.ref p)) a)) s = .ok ()
      { s with
        effects := s.effects ++ [.assign x (.get (.lit (.ref p)) a)]
        calls := s.calls ++ [s.effects.length]
        targetMap := Assoc.set s.targetMap o
          (Assoc.set ((Assoc.get s.targetMap o).getD []) a [s.effects.length])
        vars := Assoc.set s.vars x v0 } := by
  have hget : Reflect.get s o a = v0 := by simp [Reflect.get, ownProps, ho, ha]
  rw [effect_succ]
  have hd2 : (Assoc.get ((Assoc.get s.targetMap o).getD []) a).getD [] = [] := by
    rw [track_deps_eq]; exact hdeps
  simp [run, execStmt, evalExpr, getProp, hp, handles.get, Reflect.get, ownProps, ho, ha, hv0,
    track, hd2]


theorem handlesGet_eq (target : Ref) (key : Key) (s : State) :
    handles.get target key s = reactive (Reflect.get s target key) (track target key s) := by
  unfold handles.get
  simp only []
  split
  · rfl
  · rename_i h
    simp [reactive, createReactiveObject, h]

/-- A read that the running effect has already recorded changes nothing. -/
theorem track_of_recorded {s : State} {e : EffectId} {target : Ref} {key : Key}
    {dm : List (Key × List EffectId)} {deps : List EffectId}
    (h : s.activeEffectStacks.getLast? = some e)
    (hdm : Assoc.get s.targetMap target = some dm) (hde : Assoc.get dm key = some deps)
    (hmem : e ∈ deps) : track target key s = s := by
  have h1 : deps.contains e = true := by simpa using hmem
  have h2 : Assoc.set dm key deps = dm := Assoc.set_get_self _ hde
  have h3 : Assoc.set s.targetMap target dm = s.targetMap := Assoc.set_get_self _ hdm
  simp [track, h, hdm, hde, hmem, h2, h3]

/-- The answer of `createReactiveObject` depends on the identity maps and the size of the
heap only. -/
theorem createReactiveObject_fst_congr (v : Val) {s s' : State} (h1 : s'.toProxy = s.toProxy)
    (h2 : s'.toRow = s.toRow) (h3 : s'.heap.length = s.heap.length) :
    (createReactiveObject v s').1 = (createReactiveObject v s).1 := by
  unfold createReactiveObject
  rw [h1, h2, h3]
  split
  · rfl
  · split
    · split
      · rfl
      · split <;> rfl
    · rfl

/-- Asking again, in the state the first answer left, gives the first answer. -/
theorem createReactiveObject_again (v : Val) (s : State) :
    (createReactiveObject v (createReactiveObject v s).2).1 = (createReactiveObject v s).1 := by
  cases v with
  | ref r =>
    cases hq : Assoc.get s.toProxy r with
    | some w => simp [createReactiveObject, isObject_ref, hq]
    | none =>
      by_cases hrow : Assoc.has s.toRow r = true
      · simp [createReactiveObject, isObject_ref, hq, hrow]
      · simp [createReactiveObject, isObject_ref, hq, hrow, Assoc.get_set_self]
  | _ => simp [createReactiveObject, isObject, typeof, looseNeNull]
/-- A write `p.a = v1` of a changed value, when the set under `(o, a)` is the single effect
`seen = p.a`: the effect runs once more and `seen` receives what `p.a` now reads. -/
theorem write_reruns_reader (fuel : Nat) (s : State) (p o : Ref) (obj : RawObj) (a : Key)
    (x : String) (v0 v1 : Val) (effect : EffectId) (dm : List (Key × List EffectId))
    (hp : s.heap[p]? = some (.proxy o)) (ho : s.heap[o]? = some (.raw obj))
    (ha : Assoc.get obj.props a = some v0) (hw : obj.writable = true)
    (hne : strictNe v0 v1 = true)
    (hdm : Assoc.get s.targetMap o = some dm) (hde : Assoc.get dm a = some [effect])
    (he : s.effects[effect]? = some (.assign x (.get (.lit (.ref p)) a))) :
    ∃ s3, setProp (trigger (forEach (fuel + 3) 0)) (.ref p) a v1 s = .ok () s3 ∧
      s3.calls = s.calls ++ [effect] ∧
      Assoc.get s3.vars x = some (reactive v1 s3).1 ∧
      s3.activeEffectStacks = s.activeEffectStacks ∧
      s3.targetMap = s.targetMap := by
  have hpo : o ≠ p := by
    intro h; rw [h, hp] at ho; simp at ho
  have hlt := lt_length_of_getElem? ho
  have hacc : Reflect.accepts obj a = true := by simp [Reflect.accepts, Assoc.has, ha, hw]
  have hset : Reflect.set s o a v1 = (true,
      { s with heap := s.heap.set o (.raw { obj with props := Assoc.set obj.props a v1 }) }) := by
    simp [Reflect.set, ho, hacc]
  have hold : Reflect.get s o a = v0 := by simp [Reflect.get, ownProps, ho, ha]
  -- the state in which the body runs again
  obtain ⟨sP, hsP⟩ : ∃ sP : State, sP =
      { s with
        heap := s.heap.set o (.raw { obj with props := Assoc.set obj.props a v1 })
        activeEffectStacks := s.activeEffectStacks ++ [effect]
        calls := s.calls ++ [effect] } := ⟨_, rfl⟩
  have hPp : sP.heap[p]? = some (.proxy o) := by
    simp [hsP, List.getElem?_set_ne hpo, hp]
  have hPget : Reflect.get sP o a = v1 := by
    simp [hsP, Reflect.get, ownProps, hlt, Assoc.get_set_self]
  have hPtrack : track o a sP = sP :=
    track_of_recorded (e := effect) (by simp [hsP]) (by simpa [hsP] using hdm) hde
      (by simp)
  have hPeval : evalExpr (.get (.lit (.ref p)) a) sP =
      .ok (createReactiveObject v1 sP).1 (createReactiveObject v1 sP).2 := by
    simp [evalExpr, getProp, hPp, handlesGet_eq, hPget, hPtrack, reactive]
  -- the state the run ends in
  obtain ⟨sQ, hsQ⟩ : ∃ sQ : State, sQ =
      { (createReactiveObject v1 sP).2 with
        vars := Assoc.set (createReactiveObject v1 sP).2.vars x (createReactiveObject v1 sP).1
        activeEffectStacks := s.activeEffectStacks } := ⟨_, rfl⟩
  have hrun : callEffect (fuel + 2) effect (Reflect.set s o a v1).2 = .ok () sQ := by
    rw [hset]
    simp only [callEffect, he, run, execStmt]
    rw [← hsP, hPeval]
    simp [hsQ, hsP]
  have hQdeps : depsOf sQ o a = some [effect] := by
    simp [depsOf, hsQ, hsP, hdm, hde]
  have hloop : forEach (fuel + 3) 0 o a (Reflect.set s o a v1).2 = .ok () sQ := by
    have h0 : depsOf (Reflect.set s o a v1).2 o a = some [effect] := by
      simp [depsOf, hdm, hde]
    rw [forEach, h0]
    simp only [Option.getD_some, List.getElem?_cons_zero, hrun]
    rw [forEach, hQdeps]
    simp
  have hown : isOwnProperty (Reflect.set s o a v1).2 o a = true :=
    isOwnProperty_reflectSet v1 (by simp [isOwnProperty, ownProps, ho, Assoc.has, ha])
  refine ⟨consoleLog (.str "修改原有的属性") sQ, ?_, ?_, ?_, ?_, ?_⟩
  · have hflag : (Reflect.set s o a v1).1 = true := by rw [hset]
    simp [setProp, hp, handles.set, hown, hold, hne, trigger, hdm, hde, hloop, hflag]
  · simp [consoleLog, hsQ, hsP]
  · have h1 : (createReactiveObject v1 (consoleLog (.str "修改原有的属性") sQ)).1 =
        (createReactiveObject v1 (createReactiveObject v1 sP).2).1 :=
      createReactiveObject_fst_congr v1 (by simp [consoleLog, hsQ]) (by simp [consoleLog, hsQ])
        (by simp [consoleLog, hsQ])
    rw [reactive, h1, createReactiveObject_again]
    simp [consoleLog, hsQ, Assoc.get_set_self]
  · simp [consoleLog, hsQ]
  · simp [consoleLog, hsQ, hsP]

/-- Counterexample to claim C1 as stated, at two inputs.  With `v0 = 1` and `v1` a new (not
yet wrapped) object, after `p.a = v1` the property holds `v1` (the object at address `2`) but
`seen` is the wrapper of `v1` (the proxy at address `3`), not `v1`.  With `o` frozen, `v0 = 1`
and `v1 = 2`, the write `p.a = 2` is rejected but still triggers, and `seen` is `1`. -/
theorem rerun_seen_differs :
    execStmt 12 writeObject State.empty = .ok () writeObjectEnd ∧
    Reflect.get writeObjectEnd 0 "a" = .ref 2 ∧
    Assoc.get writeObjectEnd.vars "seen" = some (.ref 3) ∧
    writeObjectEnd.heap[3]? = some (.proxy 2) ∧
    execStmt 12 writeFrozen State.empty = .ok () writeFrozenEnd ∧
    Assoc.get writeFrozenEnd.vars "seen" = some (.num 1) := by
  decide!

/-- Claim C1, as the code has it: let `o` be an ordinary object whose own property `a` is
writable and holds a value `v0` that is not an object, in a state satisfying the identity-map
invariant where no effect is recorded under `(o, a)`, and let `v1 !== v0`.  Then
`p = reactive(o)` answers a wrapper, `effect(() => seen = p.a)` completes after one
invocation of the body with `seen = v0`, and the write `p.a = v1` completes after a second
invocation and no other, with `seen` equal to `reactive(v1)`: `v1` itself when `v1` is not an
object, and otherwise the wrapper that `reactive` answers for `v1`. -/
theorem dependency_triggered_rerun (fuel : Nat) (s : State) (o : Ref) (obj : RawObj)
    (a : Key) (x : String) (v0 v1 : Val)
    (hinv : IdentityInv s) (ho : s.heap[o]? = some (.raw obj))
    (ha : Assoc.get obj.props a = some v0) (hv0 : isObject v0 = false)
    (hw : obj.writable = true) (hdeps : (depsOf s o a).getD [] = [])
    (hne : strictNe v0 v1 = true) :
    ∃ p s1 s2 s3, reactive (.ref o) s = (.ref p, s1) ∧
      effect (callEffect (fuel + 2)) (.assign x (.get (.lit (.ref p)) a)) s1 = .ok () s2 ∧
      s2.calls = s.calls ++ [s.effects.length] ∧
      Assoc.get s2.vars x = some v0 ∧
      setProp (trigger (forEach (fuel + 3) 0)) (.ref p) a v1 s2 = .ok () s3 ∧
      s3.calls = s.calls ++ [s.effects.length, s.effects.length] ∧
      Assoc.get s3.vars x = some (reactive v1 s3).1 ∧
      (isObject v1 = false → Assoc.get s3.vars x = some v1) := by
  have hraw : isRaw s o = true := by simp [isRaw, ho]
  -- the wrapper and the state it is answered in
  obtain ⟨p, s1, hr, hp, ho1, htm, hcalls, heff⟩ : ∃ p s1, reactive (.ref o) s = (.ref p, s1) ∧
      s1.heap[p]? = some (.proxy o) ∧ s1.heap[o]? = some (.raw obj) ∧
      s1.targetMap = s.targetMap ∧ s1.calls = s.calls ∧ s1.effects = s.effects := by
    rcases reactive_raw hinv hraw with ⟨w, _, hw1, hr⟩ | ⟨_, hr⟩
    · exact ⟨w, s, hr, hw1, ho, rfl, rfl, rfl⟩
    · refine ⟨_, _, hr, by simp, ?_, rfl, rfl, rfl⟩
      simp only []
      rw [List.getElem?_append_left (lt_length_of_getElem? ho)]
      exact ho
  have hdeps1 : (depsOf s1 o a).getD [] = [] := by
    unfold depsOf at hdeps ⊢; rw [htm]; exact hdeps
  have hA := effect_read_first_run fuel s1 p o obj a x v0 hp ho1 ha hv0 hdeps1
  obtain ⟨s2, hs2⟩ : ∃ s2 : State, s2 =
      { s1 with
        effects := s1.effects ++ [.assign x (.get (.lit (.ref p)) a)]
        calls := s1.calls ++ [s1.effects.length]
        targetMap := Assoc.set s1.targetMap o
          (Assoc.set ((Assoc.get s1.targetMap o).getD []) a [s1.effects.length])
        vars := Assoc.set s1.vars x v0 } := ⟨_, rfl⟩
  rw [← hs2] at hA
  obtain ⟨s3, hB, hc3, hv3, _, _⟩ := write_reruns_reader fuel s2 p o obj a x v0 v1
    s1.effects.length (Assoc.set ((Assoc.get s1.targetMap o).getD []) a [s1.effects.length])
    (by simp [hs2, hp]) (by simp [hs2, ho1]) ha hw hne
    (by simp [hs2, Assoc.get_set_self]) (by simp [Assoc.get_set_self]) (by simp [hs2])
  refine ⟨p, s1, s2, s3, hr, hA, by simp [hs2, hcalls, heff], by simp [hs2, Assoc.get_set_self],
    hB, by simp [hc3, hs2, hcalls, heff], hv3, ?_⟩
  intro hv1
  rw [hv3]
  simp [reactive, createReactiveObject, hv1]


/-- Witness for claim C1: the object of `wrappedState`, with `v0 = 1` and `v1 = 2`. -/
theorem dependency_triggered_rerun_witness :
    ∃ p s1 s2 s3, reactive (.ref 0) wrappedState = (.ref p, s1) ∧
      effect (callEffect (0 + 2)) (.assign "seen" (.get (.lit (.ref p)) "a")) s1 = .ok () s2 ∧
      s2.calls = wrappedState.calls ++ [wrappedState.effects.length] ∧
      Assoc.get s2.vars "seen" = some (.num 1) ∧
      setProp (trigger (forEach (0 + 3) 0)) (.ref p) "a" (.num 2) s2 = .ok () s3 ∧
      s3.calls = wrappedState.calls ++
        [wrappedState.effects.length, wrappedState.effects.length] ∧
      Assoc.get s3.vars "seen" = some (reactive (.num 2) s3).1 ∧
      (isObject (.num 2) = false → Assoc.get s3.vars "seen" = some (.num 2)) :=
  dependency_triggered_rerun 0 wrappedState 0 ⟨[("a", .num 1)], true, true, true⟩ "a" "seen"
    (.num 1) (.num 2) (by decide) (by decide) (by decide) (by decide) (by decide) (by decide)
    (by decide)

theorem depsOf_congr {s s' : State} (h : s'.targetMap = s.targetMap) (target : Ref) (key : Key) :
    depsOf s' target key = depsOf s target key := by
  unfold depsOf; rw [h]

/-- After `track(target, key)` under a running effect, the effect is in the set. -/
theorem depsOf_track_self {s : State} {effect : EffectId}
    (h : s.activeEffectStacks.getLast? = some effect) (target : Ref) (key : Key) :
    depsOf (track target key s) target key =
      some (if ((depsOf s target key).getD []).contains effect then (depsOf s target key).getD []
            else (depsOf s target key).getD [] ++ [effect]) := by
  rw [track_of_top h]
  simp [depsOf, Assoc.get_set_self]

/-- The call `track(target, key)` leaves the set of every other pair alone. -/
theorem depsOf_track_ne (s : State) {target target' : Ref} {key key' : Key}
    (h : target ≠ target' ∨ key ≠ key') :
    depsOf (track target key s) target' key' = depsOf s target' key' := by
  cases hq : s.activeEffectStacks.getLast? with
  | none => simp [track, hq]
  | some effect =>
    rw [track_of_top hq]
    by_cases ht : target = target'
    · subst ht
      have hk : key ≠ key' := by
        rcases h with h | h
        · exact absurd rfl h
        · exact h
      simp only [depsOf, Assoc.get_set_self, Option.bind_some]
      cases Assoc.get s.targetMap target <;>
        simp [Assoc.get, Assoc.set, hk, Assoc.get_set_ne _ _ hk]
    · simp only [depsOf, Assoc.get_set_ne _ _ ht]

theorem getProp_proxy {s : State} {p t : Ref} (hp : s.heap[p]? = some (.proxy t))
    (key : Key) :
    getProp (.ref p) key s =
      .ok (reactive (Reflect.get s t key) (track t key s)).1
        (reactive (Reflect.get s t key) (track t key s)).2 := by
  simp [getProp, hp, handlesGet_eq]

theorem reflectGet_congr {s s' : State} (h : s'.heap = s.heap) (target : Ref) (key : Key) :
    Reflect.get s' target key = Reflect.get s target key := by
  unfold Reflect.get ownProps; rw [h]

theorem reactive_registered {s : State} {r w : Ref} (h : Assoc.get s.toProxy r = some w) :
    reactive (.ref r) s = (.ref w, s) := by
  simp [reactive, createReactiveObject, isObject_ref, h]

/-! ## An effect that reads through a nested wrapper -/
/-- One run of the effect `() => p.inner.v`, where `p` wraps `o`, `o.inner` is the object `i`
and `w` is the registered wrapper of `i`: the run completes, is recorded in the trace, and
puts the effect into the set under `(i, v)`. -/
theorem nested_read_run (fuel : Nat) (s : State) (p o i w : Ref) (effect : EffectId)
    (inner kv : Key)
    (hp : s.heap[p]? = some (.proxy o)) (hin : Reflect.get s o inner = .ref i)
    (hw : Assoc.get s.toProxy i = some w) (hwp : s.heap[w]? = some (.proxy i))
    (he : s.effects[effect]? = some (.expr (.get (.get (.lit (.ref p)) inner) kv)))
    (hpair : o ≠ i ∨ inner ≠ kv) :
    ∃ s', callEffect (fuel + 2) effect s = .ok () s' ∧
      s'.calls = s.calls ++ [effect] ∧
      s'.activeEffectStacks = s.activeEffectStacks ∧
      s'.effects = s.effects ∧
      depsOf s' i kv =
        some (if ((depsOf s i kv).getD []).contains effect then (depsOf s i kv).getD []
              else (depsOf s i kv).getD [] ++ [effect]) ∧
      (isObject (Reflect.get s i kv) = false → s'.heap = s.heap ∧ s'.toProxy = s.toProxy) := by
  obtain ⟨sP, hsP⟩ : ∃ sP : State, sP =
      { s with
        activeEffectStacks := s.activeEffectStacks ++ [effect]
        calls := s.calls ++ [effect] } := ⟨_, rfl⟩
  have hPheap : sP.heap = s.heap := by rw [hsP]
  have hPtop : sP.activeEffectStacks.getLast? = some effect := by simp [hsP]
  -- the two reads
  have h1 : evalExpr (.get (.lit (.ref p)) inner) sP = .ok (.ref w) (track o inner sP) := by
    have hg : Reflect.get sP o inner = .ref i := by rw [reflectGet_congr hPheap]; exact hin
    have hr : reactive (.ref i) (track o inner sP) = (.ref w, track o inner sP) :=
      reactive_registered (by simp [hsP, hw])
    simp only [evalExpr]
    rw [getProp_proxy (s := sP) (p := p) (t := o) (by rw [hPheap]; exact hp) inner, hg, hr]
  obtain ⟨sT, hsT⟩ : ∃ sT : State, sT = track i kv (track o inner sP) := ⟨_, rfl⟩
  have hTget : Reflect.get (track o inner sP) i kv = Reflect.get s i kv :=
    reflectGet_congr (by simp [hPheap]) i kv
  have h2 : evalExpr (.get (.get (.lit (.ref p)) inner) kv) sP =
      .ok (reactive (Reflect.get s i kv) sT).1 (reactive (Reflect.get s i kv) sT).2 := by
    rw [evalExpr, h1]
    simp only []
    rw [getProp_proxy (s := track o inner sP) (p := w) (t := i) (by simp [hPheap, hwp]) kv,
      hTget, hsT]
  have hTdeps : depsOf sT i kv =
      some (if ((depsOf s i kv).getD []).contains effect then (depsOf s i kv).getD []
            else (depsOf s i kv).getD [] ++ [effect]) := by
    rw [hsT, depsOf_track_self (by simpa using hPtop), depsOf_track_ne sP hpair,
      depsOf_congr (s := s) (by rw [hsP])]
  refine ⟨{ (reactive (Reflect.get s i kv) sT).2 with activeEffectStacks := s.activeEffectStacks },
    ?_, ?_, ?_, ?_, ?_, ?_⟩
  · simp only [callEffect, he, run, execStmt]
    rw [← hsP, h2]
    simp [reactive, hsT, hsP]
  · simp [reactive, hsT, hsP]
  · rfl
  · simp [reactive, hsT, hsP]
  · rw [← hTdeps]
    exact depsOf_congr (by simp [reactive]) i kv
  · intro hno
    simp [reactive, createReactiveObject, hno, hsT, hsP]

@[simp] theorem reflectSet_toProxy (s : State) (target : Ref) (key : Key) (value : Val) :
    (Reflect.set s target key value).2.toProxy = s.toProxy := by
  unfold Reflect.set; split
  · split <;> rfl
  · rfl

@[simp] theorem reflectSet_toRow (s : State) (target : Ref) (key : Key) (value : Val) :
    (Reflect.set s target key value).2.toRow = s.toRow := by
  unfold Reflect.set; split
  · split <;> rfl
  · rfl

/-- An assignment to an ordinary object leaves every proxy cell of the heap alone. -/
theorem reflectSet_heap_proxy {s : State} {r t : Ref} (h : s.heap[r]? = some (.proxy t))
    (target : Ref) (key : Key) (value : Val) :
    (Reflect.set s target key value).2.heap[r]? = some (.proxy t) := by
  unfold Reflect.set
  split
  · rename_i o ho
    have hne : target ≠ r := by
      intro heq; rw [heq, h] at ho; simp at ho
    split
    · simp [List.getElem?_set_ne hne, h]
    · exact h
  · exact h

/-- An assignment to `(target, key)` does not change what any other pair reads. -/
theorem reflectGet_reflectSet_ne (s : State) {target target' : Ref} {key key' : Key}
    (h : target ≠ target' ∨ key ≠ key') (value : Val) :
    Reflect.get (Reflect.set s target key value).2 target' key' = Reflect.get s target' key' := by
  by_cases ht : target = target'
  · subst ht
    have hk : key ≠ key' := by
      rcases h with h | h
      · exact absurd rfl h
      · exact h
    unfold Reflect.get
    rw [ownProps_reflectSet]
    split
    · rw [Assoc.get_set_ne _ _ hk]
    · rfl
  · unfold Reflect.set
    split
    · split
      · simp [Reflect.get, ownProps, List.getElem?_set_ne ht]
      · rfl
    · rfl

theorem IdentityInv.congr {s s' : State} (hinv : IdentityInv s) (h1 : s'.heap = s.heap)
    (h2 : s'.toProxy = s.toProxy) (h3 : s'.toRow = s.toRow) : IdentityInv s' := by
  unfold IdentityInv isRaw at *
  rw [h1, h2, h3]
  exact hinv

/-- Wrapping an ordinary object keeps the identity-map invariant. -/
theorem IdentityInv.wrap_raw {s : State} (hinv : IdentityInv s) {o : Ref}
    (ho : isRaw s o = true) : IdentityInv (reactive (.ref o) s).2 := by
  rcases Reactive.reactive_raw hinv ho with ⟨w, _, _, hr⟩ | ⟨hn, hr⟩
  · rw [hr]; exact hinv
  · rw [hr]
    have hlt := lt_length_of_isRaw ho
    have hrawP : ∀ r, isRaw s r = true →
        isRaw { s with heap := s.heap ++ [.proxy o]
                       toProxy := s.toProxy ++ [(o, s.heap.length)]
                       toRow := s.toRow ++ [(s.heap.length, o)] } r = true := by
      intro r hr
      have := lt_length_of_isRaw hr
      unfold isRaw at hr ⊢
      simp only []
      rw [List.getElem?_append_left this]
      exact hr
    have hrow : s.toRow ++ [(s.heap.length, o)] = Assoc.set s.toRow s.heap.length o :=
      (Assoc.set_of_get_none _ _ hinv.toRow_fresh).symm
    have hprox : s.toProxy ++ [(o, s.heap.length)] = Assoc.set s.toProxy o s.heap.length :=
      (Assoc.set_of_get_none _ _ hn).symm
    constructor
    · intro e he
      simp only [List.mem_append, List.mem_singleton] at he
      rcases he with he | he
      · obtain ⟨h1, h2, h3⟩ := hinv.1 e he
        have hlt2 := lt_length_of_getElem? h2
        refine ⟨hrawP _ h1, ?_, ?_⟩
        · simp only []
          rw [List.getElem?_append_left hlt2]; exact h2
        · simp only []
          rw [hrow, Assoc.get_set_ne _ _ (Nat.ne_of_gt hlt2)]; exact h3
      · subst he
        refine ⟨hrawP _ ho, by simp, ?_⟩
        simp only []
        rw [hrow]; exact Assoc.get_set_self _ _ _
    · intro e he
      simp only [List.mem_append, List.mem_singleton] at he
      rcases he with he | he
      · obtain ⟨h1, h2⟩ := hinv.2 e he
        have hlt1 := lt_length_of_getElem? h1
        refine ⟨?_, ?_⟩
        · simp only []
          rw [List.getElem?_append_left hlt1]; exact h1
        · simp only []
          have hne : o ≠ e.2 := by
            intro heq; rw [← heq, hn] at h2; simp at h2
          rw [hprox, Assoc.get_set_ne _ _ hne]; exact h2
      · subst he
        refine ⟨by simp, ?_⟩
        simp only []
        rw [hprox]; exact Assoc.get_set_self _ _ _

/-- What `reactive` answers for an ordinary object, whether or not it is registered yet. -/
theorem reactive_raw_spec {s : State} (hinv : IdentityInv s) {o : Ref} (ho : isRaw s o = true) :
    ∃ w, reactive (.ref o) s = (.ref w, (reactive (.ref o) s).2) ∧
      (reactive (.ref o) s).2.heap[w]? = some (.proxy o) ∧
      Assoc.get (reactive (.ref o) s).2.toProxy o = some w := by
  rcases reactive_raw hinv ho with ⟨w, hw, hp, hr⟩ | ⟨hn, hr⟩
  · exact ⟨w, by rw [hr], by rw [hr]; exact hp, by rw [hr]; exact hw⟩
  · refine ⟨s.heap.length, by rw [hr], by rw [hr]; simp, ?_⟩
    rw [hr]
    simp only []
    rw [← Assoc.set_of_get_none _ _ hn]
    exact Assoc.get_set_self _ _ _

theorem reactive_heap (v : Val) (s : State) {r : Ref} {c : Obj} (h : s.heap[r]? = some c) :
    (reactive v s).2.heap[r]? = some c :=
  createReactiveObject_heap v s h

theorem effect_eq_call (call : EffectId → State → Res Unit) (fn : Stmt) (s : State) :
    effect call fn s = call s.effects.length { s with effects := s.effects ++ [fn] } := rfl

/-- The write `p.inner.v = v1` of a changed value, when the set under `(i, v)` is the single
effect `() => p.inner.v`: the effect runs once more. -/
theorem nested_write_reruns (fuel : Nat) (s : State) (p o i w : Ref) (effect : EffectId)
    (inner kv : Key) (v0 v1 : Val) (objI : RawObj)
    (hp : s.heap[p]? = some (.proxy o)) (hin : Reflect.get s o inner = .ref i)
    (hw : Assoc.get s.toProxy i = some w) (hwp : s.heap[w]? = some (.proxy i))
    (hi : s.heap[i]? = some (.raw objI)) (hv : Assoc.get objI.props kv = some v0)
    (he : s.effects[effect]? = some (.expr (.get (.get (.lit (.ref p)) inner) kv)))
    (hpair : o ≠ i ∨ inner ≠ kv) (hdeps : depsOf s i kv = some [effect])
    (hne : strictNe v0 v1 = true) :
    ∃ s4, execStmt (fuel + 5) (.setProp (.get (.lit (.ref p)) inner) kv (.lit v1)) s = .ok () s4 ∧
      s4.calls = s.calls ++ [effect] := by
  -- the receiver `p.inner`
  obtain ⟨sT, hsT⟩ : ∃ sT : State, sT = track o inner s := ⟨_, rfl⟩
  have hTheap : sT.heap = s.heap := by simp [hsT]
  have h1 : evalExpr (.get (.lit (.ref p)) inner) s = .ok (.ref w) sT := by
    have hr : reactive (.ref i) (track o inner s) = (.ref w, track o inner s) :=
      reactive_registered (by simp [hw])
    simp only [evalExpr]
    rw [getProp_proxy (s := s) (p := p) (t := o) hp inner, hin, hr, hsT]
  -- the assignment
  obtain ⟨sW, hsW⟩ : ∃ sW : State, sW = (Reflect.set sT i kv v1).2 := ⟨_, rfl⟩
  have hold : Reflect.get sT i kv = v0 := by
    simp [Reflect.get, ownProps, hTheap, hi, hv]
  have hown : isOwnProperty sW i kv = true := by
    rw [hsW]
    exact isOwnProperty_reflectSet v1 (by simp [isOwnProperty, ownProps, hTheap, hi, Assoc.has, hv])
  have hWdeps : depsOf sW i kv = some [effect] := by
    rw [depsOf_congr (s := sT) (by simp [hsW]), hsT, depsOf_track_ne s hpair, hdeps]
  have hpairW : i ≠ o ∨ kv ≠ inner := by
    rcases hpair with h | h
    · exact Or.inl (Ne.symm h)
    · exact Or.inr (Ne.symm h)
  obtain ⟨s', hrun, hcalls, _, _, hdeps', _⟩ := nested_read_run (fuel + 1) sW p o i w effect inner kv
    (by rw [hsW]; exact reflectSet_heap_proxy (by rw [hTheap]; exact hp) _ _ _)
    (by rw [hsW, reflectGet_reflectSet_ne sT hpairW, reflectGet_congr hTheap]; exact hin)
    (by simp [hsW, hsT, hw])
    (by rw [hsW]; exact reflectSet_heap_proxy (by rw [hTheap]; exact hwp) _ _ _)
    (by simp [hsW, hsT, he]) hpair
  rw [hWdeps] at hdeps'
  simp only [Option.getD_some, List.contains_cons, beq_self_eq_true, Bool.true_or, if_true]
    at hdeps'
  have hloop : forEach (fuel + 4) 0 i kv sW = .ok () s' := by
    rw [forEach, hWdeps]
    simp only [Option.getD_some, List.getElem?_cons_zero, hrun]
    rw [forEach, hdeps']
    simp
  have htrig : trigger (forEach (fuel + 4) 0) i "set" kv sW = .ok () s' := by
    unfold depsOf at hWdeps
    unfold trigger
    cases hq : Assoc.get sW.targetMap i with
    | none => simp [hq] at hWdeps
    | some dm =>
      simp [hq] at hWdeps
      simp [hWdeps, hloop]
  refine ⟨consoleLog (.str "修改原有的属性") s', ?_, ?_⟩
  · have h1' : getProp (.ref p) inner s = .ok (.ref w) sT := by simpa [evalExpr] using h1
    simp only [execStmt, evalExpr, h1', setProp]
    rw [show sT.heap[w]? = some (.proxy i) by rw [hTheap]; exact hwp]
    simp only [handles.set, hold, hne, ← hsW, hown, htrig]
    simp
  · simp [consoleLog, hcalls, hsW, hsT]

/-! ## Well-formed states -/
theorem Val.valid_le {n m : Nat} (h : n ≤ m) {v : Val} (hv : v.valid n = true) :
    v.valid m = true := by
  cases v with
  | ref r =>
    simp only [Val.valid, decide_eq_true_eq] at hv ⊢
    exact Nat.lt_of_lt_of_le hv h
  | _ => rfl

theorem props_valid_mono {n m : Nat} (h : n ≤ m) {props : List (Key × Val)}
    (hv : props.all (fun e => e.2.valid n) = true) :
    props.all (fun e => e.2.valid m) = true := by
  simp only [List.all_eq_true] at hv ⊢
  exact fun e he => Val.valid_le h (hv e he)

theorem Obj.cell_valid_le {n m : Nat} (h : n ≤ m) {c : Obj} (hv : c.valid n = true) :
    c.valid m = true := by
  cases c with
  | raw o => exact props_valid_mono h hv
  | proxy t => rfl

theorem Expr.expr_valid_le {n m : Nat} (h : n ≤ m) {e : Expr} (hv : e.valid n = true) :
    e.valid m = true := by
  induction e with
  | lit v => exact Val.valid_le h hv
  | var x => rfl
  | newObj props => exact props_valid_mono h hv
  | get o k ih => exact ih hv
  | plus a b iha ihb =>
    simp only [Expr.valid, Bool.and_eq_true] at hv ⊢
    exact ⟨iha hv.1, ihb hv.2⟩
  | reactive e ih => exact ih hv

theorem Stmt.stmt_valid_le {n m : Nat} (h : n ≤ m) {st : Stmt} (hv : st.valid n = true) :
    st.valid m = true := by
  induction st with
  | skip => rfl
  | seq a b iha ihb =>
    simp only [Stmt.valid, Bool.and_eq_true] at hv ⊢
    exact ⟨iha hv.1, ihb hv.2⟩
  | assign x e => exact Expr.expr_valid_le h hv
  | setProp o k e =>
    simp only [Stmt.valid, Bool.and_eq_true] at hv ⊢
    exact ⟨Expr.expr_valid_le h hv.1, Expr.expr_valid_le h hv.2⟩
  | deleteProp o k => exact Expr.expr_valid_le h hv
  | effect body ih => exact ih hv
  | throw e => exact Expr.expr_valid_le h hv
  | expr e => exact Expr.expr_valid_le h hv
  | log e => exact Expr.expr_valid_le h hv
  | ite c a b iha ihb =>
    simp only [Stmt.valid, Bool.and_eq_true] at hv ⊢
    exact ⟨⟨Expr.expr_valid_le h hv.1.1, iha hv.1.2⟩, ihb hv.2⟩
  | freeze o => exact Expr.expr_valid_le h hv

theorem wellFormed_empty : WellFormed State.empty := by decide

theorem WellFormed.proxy_registered {s : State} (h : WellFormed s) {w t : Ref}
    (hw : s.heap[w]? = some (.proxy t)) : Assoc.get s.toRow w = some t := by
  have h1 := h.2.1 w (lt_length_of_getElem? hw)
  simpa [registered, hw] using h1

theorem WellFormed.reflectGet_valid {s : State} (h : WellFormed s) (target : Ref) (key : Key) :
    (Reflect.get s target key).valid s.heap.length = true := by
  unfold Reflect.get ownProps
  cases hq : s.heap[target]? with
  | none => simp [Assoc.get, Val.valid]
  | some c =>
    cases c with
    | proxy t => simp [Assoc.get, Val.valid]
    | raw o =>
      simp only []
      cases hg : Assoc.get o.props key with
      | none => simp [Val.valid]
      | some v =>
        have hc := h.2.2.1 _ (List.getElem?_mem hq)
        simp only [Obj.valid, List.all_eq_true] at hc
        exact hc _ (Assoc.mem_of_get hg)

/-- The identity-map invariant survives a change of the heap that keeps every proxy cell and
keeps ordinary objects ordinary. -/
theorem IdentityInv.heap_change {s s' : State} (hinv : IdentityInv s)
    (h1 : ∀ r, isRaw s r = true → isRaw s' r = true)
    (h2 : ∀ w t : Ref, s.heap[w]? = some (Obj.proxy t) → s'.heap[w]? = some (Obj.proxy t))
    (h3 : s'.toProxy = s.toProxy) (h4 : s'.toRow = s.toRow) : IdentityInv s' := by
  constructor
  · intro e he
    rw [h3] at he
    obtain ⟨a, b, c⟩ := hinv.1 e he
    exact ⟨h1 _ a, h2 _ _ b, by rw [h4]; exact c⟩
  · intro e he
    rw [h4] at he
    obtain ⟨a, b⟩ := hinv.2 e he
    exact ⟨h2 _ _ a, by rw [h3]; exact b⟩

theorem WellFormed.of_same {s s' : State} (h : WellFormed s) (h1 : s'.heap = s.heap)
    (h2 : s'.toProxy = s.toProxy) (h3 : s'.toRow = s.toRow) (h4 : s'.vars = s.vars)
    (h5 : s'.effects = s.effects) : WellFormed s' := by
  obtain ⟨a, b, c, d, e⟩ := h
  refine ⟨a.congr h1 h2 h3, ?_, ?_, ?_, ?_⟩
  · intro w hw
    rw [h1] at hw
    have := b w hw
    unfold registered at this ⊢
    rw [h1, h3]; exact this
  · rw [h1]; exact c
  · rw [h1, h4]; exact d
  · rw [h1, h5]; exact e

/-- Allocating an ordinary object whose property values lie in the heap. -/
theorem WellFormed.after_alloc {s : State} (h : WellFormed s) (o : RawObj)
    (ho : o.props.all (fun e => e.2.valid s.heap.length) = true) :
    WellFormed { s with heap := s.heap ++ [.raw o] } := by
  obtain ⟨a, b, c, d, e⟩ := h
  have hle : s.heap.length ≤ (s.heap ++ [Obj.raw o]).length := by simp
  refine ⟨?_, ?_, ?_, ?_, ?_⟩
  · refine a.heap_change ?_ ?_ rfl rfl
    · intro r hr
      have := lt_length_of_isRaw hr
      unfold isRaw at hr ⊢
      simp only []
      rw [List.getElem?_append_left this]; exact hr
    · intro w t hw
      simp only []
      rw [List.getElem?_append_left (lt_length_of_getElem? hw)]; exact hw
  · intro w hw
    simp only [List.length_append, List.length_singleton] at hw
    by_cases hlt : w < s.heap.length
    · have := b w hlt
      unfold registered at this ⊢
      simp only []
      rw [List.getElem?_append_left hlt]; exact this
    · have heq : w = s.heap.length := by omega
      subst heq
      simp [registered]
  · intro x hx
    simp only [List.mem_append, List.mem_singleton] at hx
    rcases hx with hx | hx
    · exact Obj.cell_valid_le hle (c x hx)
    · subst hx; exact props_valid_mono hle ho
  · intro x hx; exact Val.valid_le hle (d x hx)
  · intro x hx; exact Stmt.stmt_valid_le hle (e x hx)

/-- Replacing an ordinary object by an ordinary object whose property values lie in the
heap. -/
theorem WellFormed.after_store {s : State} (h : WellFormed s) {r : Ref} (hr : isRaw s r = true)
    (o : RawObj) (ho : o.props.all (fun e => e.2.valid s.heap.length) = true) :
    WellFormed { s with heap := s.heap.set r (.raw o) } := by
  obtain ⟨a, b, c, d, e⟩ := h
  have hlt := lt_length_of_isRaw hr
  have hcell : ∀ w, w ≠ r → (s.heap.set r (Obj.raw o))[w]? = s.heap[w]? :=
    fun w hw => List.getElem?_set_ne (Ne.symm hw)
  have hself : (s.heap.set r (Obj.raw o))[r]? = some (Obj.raw o) := by
    simp [hlt]
  refine ⟨?_, ?_, ?_, ?_, ?_⟩
  · refine a.heap_change ?_ ?_ rfl rfl
    · intro w hw
      by_cases hwr : w = r
      · subst hwr; simp [isRaw, hself]
      · unfold isRaw at hw ⊢
        simp only []
        rw [hcell w hwr]; exact hw
    · intro w t hw
      have hwr : w ≠ r := by
        intro heq; subst heq
        simp [isRaw, hw] at hr
      simp only []
      rw [hcell w hwr]; exact hw
  · intro w hw
    simp only [List.length_set] at hw
    by_cases hwr : w = r
    · subst hwr; simp [registered, hself]
    · have := b w hw
      unfold registered at this ⊢
      simp only []
      rw [hcell w hwr]; exact this
  · intro x hx
    simp only [List.length_set]
    rcases List.mem_or_eq_of_mem_set hx with hx | hx
    · exact c x hx
    · subst hx; exact ho
  · intro x hx; simp only [List.length_set]; exact d x hx
  · intro x hx; simp only [List.length_set]; exact e x hx

theorem createReactiveObject_length_le (v : Val) (s : State) :
    s.heap.length ≤ (createReactiveObject v s).2.heap.length := by
  unfold createReactiveObject; split
  · exact Nat.le_refl _
  · split
    · split
      · exact Nat.le_refl _
      · split
        · exact Nat.le_refl _
        · simp
    · exact Nat.le_refl _

/-- Wrapping a value that lies in the heap keeps the state well formed, and the answer lies
in the heap. -/
theorem WellFormed.after_create {s : State} (h : WellFormed s) {v : Val}
    (hv : v.valid s.heap.length = true) :
    WellFormed (createReactiveObject v s).2 ∧
      (createReactiveObject v s).1.valid (createReactiveObject v s).2.heap.length = true := by
  cases v with
  | ref r =>
    simp only [Val.valid, decide_eq_true_eq] at hv
    cases hq : Assoc.get s.toProxy r with
    | some w =>
      have hw := (h.1.1 _ (Assoc.mem_of_get hq)).2.1
      have hlt := lt_length_of_getElem? hw
      simp only [createReactiveObject, isObject_ref, hq]
      exact ⟨h, by simpa [Val.valid] using hlt⟩
    | none =>
      by_cases hrow : Assoc.has s.toRow r = true
      · simp only [createReactiveObject, isObject_ref, hq, hrow]
        exact ⟨h, by simpa [Val.valid] using hv⟩
      · -- the cell at `r` is an ordinary object
        have hraw : isRaw s r = true := by
          have hreg := h.2.1 r hv
          unfold registered at hreg
          unfold isRaw
          cases hc : s.heap[r]? with
          | none =>
            exact absurd hv (Nat.not_lt.2 (List.getElem?_eq_none_iff.1 hc))
          | some c =>
            cases c with
            | raw o => rfl
            | proxy t =>
              simp only [hc, beq_iff_eq] at hreg
              simp [Assoc.has, hreg] at hrow
        have hinv' := h.1.wrap_raw hraw
        have hform : (createReactiveObject (.ref r) s).2 =
            { s with heap := s.heap ++ [.proxy r]
                     toProxy := Assoc.set s.toProxy r s.heap.length
                     toRow := Assoc.set s.toRow s.heap.length r } := by
          simp [createReactiveObject, isObject_ref, hq, hrow]
        have hfst : (createReactiveObject (.ref r) s).1 = .ref s.heap.length := by
          simp [createReactiveObject, isObject_ref, hq, hrow]
        obtain ⟨a, b, c, d, e⟩ := h
        have hle : s.heap.length ≤ (s.heap ++ [Obj.proxy r]).length := by simp
        refine ⟨⟨hinv', ?_, ?_, ?_, ?_⟩, ?_⟩
        · rw [hform]
          intro w hw
          simp only [List.length_append, List.length_singleton] at hw
          by_cases hlt : w < s.heap.length
          · have := b w hlt
            unfold registered at this ⊢
            simp only []
            rw [List.getElem?_append_left hlt, Assoc.get_set_ne _ _ (Nat.ne_of_gt hlt)]
            exact this
          · have heq : w = s.heap.length := by omega
            subst heq
            simp [registered, Assoc.get_set_self]
        · rw [hform]
          intro x hx
          simp only [List.mem_append, List.mem_singleton] at hx
          rcases hx with hx | hx
          · exact Obj.cell_valid_le hle (c x hx)
          · subst hx; rfl
        · rw [hform]; intro x hx; exact Val.valid_le hle (d x hx)
        · rw [hform]; intro x hx; exact Stmt.stmt_valid_le hle (e x hx)
        · rw [hfst, hform]; simp [Val.valid]
  | _ => exact ⟨by simpa [createReactiveObject, isObject, typeof, looseNeNull] using h, rfl⟩

theorem WellFormed.after_assign {s : State} (h : WellFormed s) (x : String) {v : Val}
    (hv : v.valid s.heap.length = true) :
    WellFormed { s with vars := Assoc.set s.vars x v } := by
  obtain ⟨a, b, c, d, e⟩ := h
  refine ⟨a.congr rfl rfl rfl, b, c, ?_, e⟩
  intro y hy
  simp only [] at hy ⊢
  have hsub : ∀ (m : List (String × Val)), (∀ z ∈ m, z.2.valid s.heap.length = true) →
      ∀ z ∈ Assoc.set m x v, z.2.valid s.heap.length = true := by
    intro m
    induction m with
    | nil =>
      intro _ z hz
      simp only [Assoc.set, List.mem_singleton] at hz
      subst hz; exact hv
    | cons p m ih =>
      intro hm z hz
      obtain ⟨k1, v1⟩ := p
      by_cases hk : k1 = x
      · simp only [Assoc.set, hk, if_true, List.mem_cons] at hz
        rcases hz with hz | hz
        · subst hz; exact hv
        · exact hm z (by simp [hz])
      · simp only [Assoc.set, hk, if_false, List.mem_cons] at hz
        rcases hz with hz | hz
        · subst hz; exact hm _ (by simp)
        · exact ih (fun z hz => hm z (by simp [hz])) z hz
  exact hsub s.vars d y hy

theorem WellFormed.after_closure {s : State} (h : WellFormed s) {fn : Stmt}
    (hv : fn.valid s.heap.length = true) :
    WellFormed { s with effects := s.effects ++ [fn] } := by
  obtain ⟨a, b, c, d, e⟩ := h
  refine ⟨a.congr rfl rfl rfl, b, c, d, ?_⟩
  intro y hy
  simp only [List.mem_append, List.mem_singleton] at hy
  rcases hy with hy | hy
  · exact e y hy
  · subst hy; exact hv

theorem Assoc.forall_set {κ ν : Type} [DecidableEq κ] {P : ν → Prop} {m : List (κ × ν)}
    (hm : ∀ z ∈ m, P z.2) (k : κ) {v : ν} (hv : P v) : ∀ z ∈ Assoc.set m k v, P z.2 := by
  induction m with
  | nil =>
    intro z hz
    simp only [Assoc.set, List.mem_singleton] at hz
    subst hz; exact hv
  | cons p m ih =>
    intro z hz
    obtain ⟨k1, v1⟩ := p
    by_cases hk : k1 = k
    · simp only [Assoc.set, hk, if_true, List.mem_cons] at hz
      rcases hz with hz | hz
      · subst hz; exact hv
      · exact hm z (by simp [hz])
    · simp only [Assoc.set, hk, if_false, List.mem_cons] at hz
      rcases hz with hz | hz
      · subst hz; exact hm _ (by simp)
      · exact ih (fun z hz => hm z (by simp [hz])) z hz

theorem WellFormed.cell_valid {s : State} (h : WellFormed s) {r : Ref} {o : RawObj}
    (hr : s.heap[r]? = some (.raw o)) :
    o.props.all (fun e => e.2.valid s.heap.length) = true :=
  h.2.2.1 _ (List.getElem?_mem hr)

theorem WellFormed.after_reflectSet {s : State} (h : WellFormed s) (target : Ref) (key : Key)
    {v : Val} (hv : v.valid s.heap.length = true) :
    WellFormed (Reflect.set s target key v).2 ∧
      (Reflect.set s target key v).2.heap.length = s.heap.length := by
  unfold Reflect.set
  split
  · rename_i o ho
    split
    · refine ⟨h.after_store (by simp [isRaw, ho]) _ ?_, by simp⟩
      have hc := h.cell_valid ho
      simp only [List.all_eq_true] at hc ⊢
      exact Assoc.forall_set (P := fun v : Val => v.valid s.heap.length = true) hc key hv
    · exact ⟨h, rfl⟩
  · exact ⟨h, rfl⟩

theorem WellFormed.after_freeze {s : State} (h : WellFormed s) (v : Val) :
    WellFormed (freeze v s) ∧ (freeze v s).heap.length = s.heap.length := by
  unfold Reactive.freeze
  split
  · split
    · rename_i r _ o ho
      exact ⟨h.after_store (by simp [isRaw, ho]) _ (by simpa [RawObj.frozen] using h.cell_valid ho),
        by simp⟩
    · split
      · rename_i t _ _ o ho
        exact ⟨h.after_store (by simp [isRaw, ho]) _ (by simpa [RawObj.frozen] using h.cell_valid ho),
          by simp⟩
      · exact ⟨h, rfl⟩
    · exact ⟨h, rfl⟩
  · exact ⟨h, rfl⟩

theorem WellFormed.after_deleteProp {s : State} (h : WellFormed s) (v : Val) (k : Key) :
    (deleteProp v k s).Holds (fun s' => WellFormed s' ∧ s'.heap.length = s.heap.length) := by
  unfold Reactive.deleteProp
  split
  · split
    · exact ⟨h, rfl⟩
    · rename_i r _ o ho
      split
      · refine ⟨h.after_store (by simp [isRaw, ho]) _ ?_, by simp⟩
        have hc := h.cell_valid ho
        simp only [List.all_eq_true] at hc ⊢
        intro e he
        exact hc e (List.mem_filter.1 he).1
      · exact ⟨h, rfl⟩
    · exact ⟨h, rfl⟩
  all_goals exact ⟨h, rfl⟩

theorem WellFormed.after_track {s : State} (h : WellFormed s) (target : Ref) (key : Key) :
    WellFormed (track target key s) :=
  h.of_same (by simp) (by simp) (by simp) (by simp) (by simp)

/-- A property read in a well-formed state ends in a well-formed state whose heap is no
shorter, and what is read lies in that heap. -/
theorem WellFormed.getProp_ok {s : State} (h : WellFormed s) {v : Val} {k : Key} {w : Val}
    {s' : State} (hq : getProp v k s = .ok w s') :
    WellFormed s' ∧ s.heap.length ≤ s'.heap.length ∧ w.valid s'.heap.length = true := by
  cases v with
  | ref r =>
    cases hc : s.heap[r]? with
    | none =>
      simp only [Reactive.getProp, hc, Res.ok.injEq] at hq
      obtain ⟨h1, h2⟩ := hq
      subst h1; subst h2
      exact ⟨h, Nat.le_refl _, h.reflectGet_valid r k⟩
    | some c =>
      cases c with
      | raw o =>
        simp only [Reactive.getProp, hc, Res.ok.injEq] at hq
        obtain ⟨h1, h2⟩ := hq
        subst h1; subst h2
        exact ⟨h, Nat.le_refl _, h.reflectGet_valid r k⟩
      | proxy t =>
        simp only [Reactive.getProp, hc, handlesGet_eq, Res.ok.injEq] at hq
        obtain ⟨h1, h2⟩ := hq
        subst h1; subst h2
        have ht := h.after_track t k
        have hval : (Reflect.get s t k).valid (Reactive.track t k s).heap.length = true := by
          simpa using h.reflectGet_valid t k
        have hc := ht.after_create hval
        have hle := createReactiveObject_length_le (Reflect.get s t k) (Reactive.track t k s)
        exact ⟨hc.1, by simpa [reactive] using hle, hc.2⟩
  | undefined => simp [Reactive.getProp] at hq
  | null => simp [Reactive.getProp] at hq
  | _ =>
    simp only [Reactive.getProp, Res.ok.injEq] at hq
    obtain ⟨h1, h2⟩ := hq
    subst h1; subst h2
    exact ⟨h, Nat.le_refl _, rfl⟩

theorem getProp_throw {s : State} {v : Val} {k : Key} {e : Val} {s' : State}
    (hq : getProp v k s = .throw e s') : s' = s := by
  cases v with
  | ref r =>
    cases hc : s.heap[r]? with
    | none => simp [Reactive.getProp, hc] at hq
    | some c => cases c <;> simp [Reactive.getProp, hc] at hq
  | undefined => simp only [Reactive.getProp, Res.throw.injEq] at hq; exact hq.2.symm
  | null => simp only [Reactive.getProp, Res.throw.injEq] at hq; exact hq.2.symm
  | _ => simp [Reactive.getProp] at hq

theorem Grows.of_wellFormed {s : State} (h : WellFormed s) : Grows s s := ⟨h, Nat.le_refl _⟩

theorem Grows.step {a b c : State} (h1 : Grows a b) (h2 : Grows b c) : Grows a c :=
  ⟨h2.1, Nat.le_trans h1.2 h2.2⟩

theorem numAdd_valid (x y : Val) (n : Nat) : (numAdd x y).valid n = true := by
  unfold numAdd
  split
  · unfold toDouble; split <;> rfl
  · split <;> rfl
  all_goals rfl

theorem jsPlus_valid {a b v : Val} (h : jsPlus a b = some v) (n : Nat) : v.valid n = true := by
  unfold jsPlus at h
  split at h
  all_goals first
    | (simp only [Option.some.injEq] at h; subst h; rfl)
    | (simp only [Option.some.injEq] at h; subst h; exact numAdd_valid _ _ _)
    | (simp at h)

/-- Evaluating an expression whose references lie in the heap, in a well-formed state, ends in
a well-formed state, and the value lies in its heap. -/
theorem WellFormed.after_evalExpr (e : Expr) : ∀ s : State, WellFormed s →
    e.valid s.heap.length = true →
    (∀ v s', evalExpr e s = .ok v s' → Grows s s' ∧ v.valid s'.heap.length = true) ∧
    (∀ v s', evalExpr e s = .throw v s' → Grows s s') := by
  induction e with
  | lit v =>
    intro s h hv
    constructor
    · intro w s' hq
      simp only [Reactive.evalExpr, Res.ok.injEq] at hq
      obtain ⟨h1, h2⟩ := hq
      subst h1; subst h2
      exact ⟨Grows.of_wellFormed h, hv⟩
    · intro w s' hq; simp [Reactive.evalExpr] at hq
  | var x =>
    intro s h _
    constructor
    · intro w s' hq
      cases hg : Assoc.get s.vars x with
      | none => simp [Reactive.evalExpr, hg] at hq
      | some v =>
        simp only [Reactive.evalExpr, hg, Res.ok.injEq] at hq
        obtain ⟨h1, h2⟩ := hq
        subst h1; subst h2
        exact ⟨Grows.of_wellFormed h, h.2.2.2.1 _ (Assoc.mem_of_get hg)⟩
    · intro w s' hq
      cases hg : Assoc.get s.vars x with
      | none =>
        simp only [Reactive.evalExpr, hg, Res.throw.injEq] at hq
        rw [← hq.2]; exact Grows.of_wellFormed h
      | some v => simp [Reactive.evalExpr, hg] at hq
  | newObj props =>
    intro s h hv
    constructor
    · intro w s' hq
      simp only [Reactive.evalExpr, Res.ok.injEq] at hq
      obtain ⟨h1, h2⟩ := hq
      subst h1; subst h2
      exact ⟨⟨h.after_alloc ⟨props, true, true, true⟩ hv, by simp⟩, by simp [Val.valid]⟩
    · intro w s' hq; simp [Reactive.evalExpr] at hq
  | get o k ih =>
    intro s h hv
    have ih' := ih s h hv
    cases ho : Reactive.evalExpr o s with
    | ok v s1 =>
      obtain ⟨hg, _⟩ := ih'.1 v s1 ho
      constructor
      · intro w s' hq
        simp only [Reactive.evalExpr, ho] at hq
        obtain ⟨a, b, c⟩ := hg.1.getProp_ok hq
        exact ⟨hg.step ⟨a, b⟩, c⟩
      · intro w s' hq
        simp only [Reactive.evalExpr, ho] at hq
        rw [getProp_throw hq]; exact hg
    | throw v s1 =>
      constructor
      · intro w s' hq; simp [Reactive.evalExpr, ho] at hq
      · intro w s' hq
        simp only [Reactive.evalExpr, ho, Res.throw.injEq] at hq
        rw [← hq.2]; exact ih'.2 v s1 ho
    | timeout =>
      constructor <;> intro w s' hq <;> simp [Reactive.evalExpr, ho] at hq
  | plus a b iha ihb =>
    intro s h hv
    simp only [Expr.valid, Bool.and_eq_true] at hv
    have iha' := iha s h hv.1
    cases ha : Reactive.evalExpr a s with
    | ok x s1 =>
      obtain ⟨hg, _⟩ := iha'.1 x s1 ha
      have ihb' := ihb s1 hg.1 (Expr.expr_valid_le hg.2 hv.2)
      cases hb : Reactive.evalExpr b s1 with
      | ok y s2 =>
        obtain ⟨hg2, _⟩ := ihb'.1 y s2 hb
        cases hp : jsPlus x y with
        | some v =>
          constructor
          · intro w s' hq
            simp only [Reactive.evalExpr, ha, hb, hp, Res.ok.injEq] at hq
            obtain ⟨h1, h2⟩ := hq
            subst h1; subst h2
            exact ⟨hg.step hg2, jsPlus_valid hp _⟩
          · intro w s' hq; simp [Reactive.evalExpr, ha, hb, hp] at hq
        | none =>
          constructor
          · intro w s' hq; simp [Reactive.evalExpr, ha, hb, hp] at hq
          · intro w s' hq
            simp only [Reactive.evalExpr, ha, hb, hp, Res.throw.injEq] at hq
            rw [← hq.2]; exact hg.step hg2
      | throw y s2 =>
        constructor
        · intro w s' hq; simp [Reactive.evalExpr, ha, hb] at hq
        · intro w s' hq
          simp only [Reactive.evalExpr, ha, hb, Res.throw.injEq] at hq
          rw [← hq.2]; exact hg.step (ihb'.2 y s2 hb)
      | timeout =>
        constructor <;> intro w s' hq <;> simp [Reactive.evalExpr, ha, hb] at hq
    | throw v s1 =>
      constructor
      · intro w s' hq; simp [Reactive.evalExpr, ha] at hq
      · intro w s' hq
        simp only [Reactive.evalExpr, ha, Res.throw.injEq] at hq
        rw [← hq.2]; exact iha'.2 v s1 ha
    | timeout =>
      constructor <;> intro w s' hq <;> simp [Reactive.evalExpr, ha] at hq
  | reactive e ih =>
    intro s h hv
    have ih' := ih s h hv
    cases he : Reactive.evalExpr e s with
    | ok v s1 =>
      obtain ⟨hg, hval⟩ := ih'.1 v s1 he
      constructor
      · intro w s' hq
        simp only [Reactive.evalExpr, he, reactive, Res.ok.injEq] at hq
        obtain ⟨h1, h2⟩ := hq
        subst h1; subst h2
        have hc := hg.1.after_create hval
        exact ⟨hg.step ⟨hc.1, createReactiveObject_length_le _ _⟩, hc.2⟩
      · intro w s' hq; simp [Reactive.evalExpr, he] at hq
    | throw v s1 =>
      constructor
      · intro w s' hq; simp [Reactive.evalExpr, he] at hq
      · intro w s' hq
        simp only [Reactive.evalExpr, he, Res.throw.injEq] at hq
        rw [← hq.2]; exact ih'.2 v s1 he
    | timeout =>
      constructor <;> intro w s' hq <;> simp [Reactive.evalExpr, he] at hq

namespace WellFormed

theorem after_trigger {forEach : Ref → Key → State → Res Unit}
    (hf : ∀ t k s, WellFormed s → (forEach t k s).Holds (Grows s)) (target : Ref)
    (type : String) (key : Key) {s : State} (h : WellFormed s) :
    (Reactive.trigger forEach target type key s).Holds (Grows s) := by
  unfold Reactive.trigger
  split
  · exact Grows.of_wellFormed h
  · split
    · exact Grows.of_wellFormed h
    · exact hf _ _ _ h

theorem after_handlesSet {trigger : Ref → String → Key → State → Res Unit}
    (ht : ∀ t ty k s, WellFormed s → (trigger t ty k s).Holds (Grows s)) (target : Ref)
    (key : Key) {value : Val} {s : State} (h : WellFormed s)
    (hv : value.valid s.heap.length = true) :
    (handles.set trigger target key value s).Holds (Grows s) := by
  unfold handles.set
  obtain ⟨h1, hlen⟩ := h.after_reflectSet target key hv
  have hg : Grows s (Reflect.set s target key value).2 := ⟨h1, by rw [hlen]⟩
  simp only []
  split
  · have h2 := ht target "add" key _ h1
    split
    · rename_i heq; rw [heq] at h2
      exact hg.step ⟨h2.1.of_same rfl rfl rfl rfl rfl, h2.2⟩
    · rename_i heq; rw [heq] at h2; exact hg.step h2
    · trivial
  · split
    · have h2 := ht target "set" key _ h1
      split
      · rename_i heq; rw [heq] at h2
        exact hg.step ⟨h2.1.of_same rfl rfl rfl rfl rfl, h2.2⟩
      · rename_i heq; rw [heq] at h2; exact hg.step h2
      · trivial
    · exact hg

theorem after_setProp {trigger : Ref → String → Key → State → Res Unit}
    (ht : ∀ t ty k s, WellFormed s → (trigger t ty k s).Holds (Grows s)) (v : Val) (k : Key)
    {value : Val} {s : State} (h : WellFormed s) (hv : value.valid s.heap.length = true) :
    (Reactive.setProp trigger v k value s).Holds (Grows s) := by
  unfold Reactive.setProp
  split
  · split
    · rename_i target _
      have h2 := after_handlesSet ht target k h hv
      split
      · rename_i heq; rw [heq] at h2; exact h2
      · rename_i heq; rw [heq] at h2; exact h2
      · trivial
    · rename_i r _ _
      obtain ⟨h1, hlen⟩ := h.after_reflectSet r k hv
      exact ⟨h1, by rw [hlen]⟩
  all_goals exact Grows.of_wellFormed h

theorem after_run {fn : State → Res Unit} (effect : EffectId) {s : State}
    (hf : (fn { s with activeEffectStacks := s.activeEffectStacks ++ [effect]
                       calls := s.calls ++ [effect] }).Holds
      (Grows { s with activeEffectStacks := s.activeEffectStacks ++ [effect]
                      calls := s.calls ++ [effect] })) :
    (Reactive.run fn effect s).Holds (Grows s) := by
  unfold Reactive.run
  simp only []
  split
  · rename_i heq; rw [heq] at hf; exact ⟨hf.1.of_same rfl rfl rfl rfl rfl, hf.2⟩
  · rename_i heq; rw [heq] at hf; exact ⟨hf.1.of_same rfl rfl rfl rfl rfl, hf.2⟩
  · trivial

end WellFormed
/-- Every run of host code whose references lie in the heap takes a well-formed state to a
well-formed state. -/
theorem WellFormed.after_exec : ∀ fuel : Nat,
    (∀ st s, WellFormed s → st.valid s.heap.length = true →
      (execStmt fuel st s).Holds (Grows s)) ∧
    (∀ e s, WellFormed s → (callEffect fuel e s).Holds (Grows s)) ∧
    (∀ i t k s, WellFormed s → (forEach fuel i t k s).Holds (Grows s)) := by
  intro fuel
  induction fuel with
  | zero =>
    refine ⟨?_, ?_, ?_⟩ <;> intros <;> simp [execStmt, callEffect, forEach, Res.Holds]
  | succ n ih =>
    obtain ⟨ihS, ihC, ihF⟩ := ih
    refine ⟨?_, ?_, ?_⟩
    · intro st s h hv
      cases st with
      | skip => simp only [execStmt]; exact Grows.of_wellFormed h
      | seq a b =>
        simp only [Stmt.valid, Bool.and_eq_true] at hv
        have ha := ihS a s h hv.1
        cases hq : execStmt n a s with
        | ok u s1 =>
          rw [hq] at ha; simp only [execStmt, hq]
          exact (ihS b s1 ha.1 (Stmt.stmt_valid_le ha.2 hv.2)).mono (fun _ h2 => ha.step h2)
        | throw v s1 => rw [hq] at ha; simp only [execStmt, hq]; exact ha
        | timeout => simp only [execStmt, hq]; trivial
      | assign x e =>
        have he := WellFormed.after_evalExpr e s h hv
        cases hq : evalExpr e s with
        | ok v s1 =>
          obtain ⟨hg, hval⟩ := he.1 v s1 hq
          simp only [execStmt, hq]
          exact ⟨hg.1.after_assign x hval, hg.2⟩
        | throw v s1 => simp only [execStmt, hq]; exact he.2 v s1 hq
        | timeout => simp only [execStmt, hq]; trivial
      | setProp o k e =>
        simp only [Stmt.valid, Bool.and_eq_true] at hv
        have ho := WellFormed.after_evalExpr o s h hv.1
        cases hq : evalExpr o s with
        | ok v s1 =>
          obtain ⟨hg, _⟩ := ho.1 v s1 hq
          have he := WellFormed.after_evalExpr e s1 hg.1 (Expr.expr_valid_le hg.2 hv.2)
          cases hq2 : evalExpr e s1 with
          | ok value s2 =>
            obtain ⟨hg2, hval⟩ := he.1 value s2 hq2
            simp only [execStmt, hq, hq2]
            refine (WellFormed.after_setProp ?_ v k hg2.1 hval).mono
              (fun _ h3 => hg.step (hg2.step h3))
            exact fun t ty k s hs =>
              WellFormed.after_trigger (fun t k s hs => ihF 0 t k s hs) t ty k hs
          | throw w s2 => simp only [execStmt, hq, hq2]; exact hg.step (he.2 w s2 hq2)
          | timeout => simp only [execStmt, hq, hq2]; trivial
        | throw v s1 => simp only [execStmt, hq]; exact ho.2 v s1 hq
        | timeout => simp only [execStmt, hq]; trivial
      | deleteProp o k =>
        have ho := WellFormed.after_evalExpr o s h hv
        cases hq : evalExpr o s with
        | ok v s1 =>
          obtain ⟨hg, _⟩ := ho.1 v s1 hq
          have hd := hg.1.after_deleteProp v k
          cases hq2 : deleteProp v k s1 with
          | ok b s2 =>
            rw [hq2] at hd; simp only [execStmt, hq, hq2]
            exact hg.step ⟨hd.1, by rw [hd.2]⟩
          | throw w s2 =>
            rw [hq2] at hd; simp only [execStmt, hq, hq2]
            exact hg.step ⟨hd.1, by rw [hd.2]⟩
          | timeout => simp only [execStmt, hq, hq2]; trivial
        | throw v s1 => simp only [execStmt, hq]; exact ho.2 v s1 hq
        | timeout => simp only [execStmt, hq]; trivial
      | effect body =>
        simp only [execStmt, effect_eq_call]
        have hc := ihC s.effects.length { s with effects := s.effects ++ [body] }
          (h.after_closure hv)
        exact hc
      | throw e =>
        have he := WellFormed.after_evalExpr e s h hv
        cases hq : evalExpr e s with
        | ok v s1 => simp only [execStmt, hq]; exact (he.1 v s1 hq).1
        | throw v s1 => simp only [execStmt, hq]; exact he.2 v s1 hq
        | timeout => simp only [execStmt, hq]; trivial
      | expr e =>
        have he := WellFormed.after_evalExpr e s h hv
        cases hq : evalExpr e s with
        | ok v s1 => simp only [execStmt, hq]; exact (he.1 v s1 hq).1
        | throw v s1 => simp only [execStmt, hq]; exact he.2 v s1 hq
        | timeout => simp only [execStmt, hq]; trivial
      | log e =>
        have he := WellFormed.after_evalExpr e s h hv
        cases hq : evalExpr e s with
        | ok v s1 =>
          simp only [execStmt, hq]
          exact ⟨(he.1 v s1 hq).1.1.of_same rfl rfl rfl rfl rfl, (he.1 v s1 hq).1.2⟩
        | throw v s1 => simp only [execStmt, hq]; exact he.2 v s1 hq
        | timeout => simp only [execStmt, hq]; trivial
      | ite c a b =>
        simp only [Stmt.valid, Bool.and_eq_true] at hv
        have hc := WellFormed.after_evalExpr c s h hv.1.1
        cases hq : evalExpr c s with
        | ok v s1 =>
          obtain ⟨hg, _⟩ := hc.1 v s1 hq
          simp only [execStmt, hq]
          split
          · exact (ihS a s1 hg.1 (Stmt.stmt_valid_le hg.2 hv.1.2)).mono (fun _ h2 => hg.step h2)
          · exact (ihS b s1 hg.1 (Stmt.stmt_valid_le hg.2 hv.2)).mono (fun _ h2 => hg.step h2)
        | throw v s1 => simp only [execStmt, hq]; exact hc.2 v s1 hq
        | timeout => simp only [execStmt, hq]; trivial
      | freeze o =>
        have ho := WellFormed.after_evalExpr o s h hv
        cases hq : evalExpr o s with
        | ok v s1 =>
          obtain ⟨hg, _⟩ := ho.1 v s1 hq
          have hf := hg.1.after_freeze v
          simp only [execStmt, hq]
          exact hg.step ⟨hf.1, by rw [hf.2]⟩
        | throw v s1 => simp only [execStmt, hq]; exact ho.2 v s1 hq
        | timeout => simp only [execStmt, hq]; trivial
    · intro e s h
      simp only [callEffect]
      split
      · rename_i fn hfn
        have hval := h.2.2.2.2 fn (List.getElem?_mem hfn)
        exact WellFormed.after_run e
          (ihS fn _ (h.of_same rfl rfl rfl rfl rfl) hval)
      · exact Grows.of_wellFormed h
    · intro i t k s h
      simp only [forEach]
      split
      · exact Grows.of_wellFormed h
      · rename_i effect _
        have hc := ihC effect s h
        cases hq : callEffect n effect s with
        | ok u s1 =>
          rw [hq] at hc; simp only []
          exact (ihF (i + 1) t k s1 hc.1).mono (fun _ h2 => hc.step h2)
        | throw v s1 => rw [hq] at hc; exact hc
        | timeout => trivial

/-- Every state that a program without reference literals ends in, when started in the state
of a freshly loaded module, is well formed; in particular it satisfies the identity-map
invariant. -/
theorem wellFormed_of_run (fuel : Nat) (prog : Stmt) (hclosed : prog.valid 0 = true) :
    (execStmt fuel prog State.empty).Holds (fun s => WellFormed s ∧ IdentityInv s) :=
  ((WellFormed.after_exec fuel).1 prog State.empty wellFormed_empty hclosed).mono
    (fun _ h => ⟨h.1, h.1.1⟩)

/-! ## Every member of the set is invoked -/
theorem DepsGrow.of_targetMap_eq {s s' : State} (h : s'.targetMap = s.targetMap) :
    DepsGrow s s' := by
  intro t k
  rw [depsOf_congr h]

theorem depsGrow_frame : Frame DepsGrow where
  refl := fun s => DepsGrow.of_targetMap_eq rfl
  trans := fun _ _ _ h1 h2 t k => (h1 t k).trans (h2 t k)
  alloc := fun _ _ => DepsGrow.of_targetMap_eq rfl
  track := by
    intro s target key t k
    by_cases hpair : target = t ∧ key = k
    · obtain ⟨h1, h2⟩ := hpair
      subst h1; subst h2
      cases hq : s.activeEffectStacks.getLast? with
      | none => simp [track, hq]
      | some e =>
        rw [depsOf_track_self hq]
        simp only [Option.getD_some]
        split
        · exact List.prefix_refl _
        · exact List.prefix_append _ _
    · have hne : target ≠ t ∨ key ≠ k := by
        by_contra hcon
        simp only [not_or, not_not] at hcon
        exact hpair hcon
      rw [depsOf_track_ne s hne]
  create := fun _ _ => DepsGrow.of_targetMap_eq (by simp)
  store := fun _ _ _ _ => DepsGrow.of_targetMap_eq rfl
  assign := fun _ _ _ => DepsGrow.of_targetMap_eq rfl
  log := fun _ _ => DepsGrow.of_targetMap_eq rfl
  closure := fun _ _ => DepsGrow.of_targetMap_eq rfl
  bracket := by
    intro s effect s2 h t k
    have := h t k
    simpa [depsOf] using this

/-- A call of an effect closure that completes has added the invocation of that effect to the
trace. -/
theorem callEffect_calls {fuel : Nat} {effect : EffectId} {s s' : State}
    (h : callEffect fuel effect s = .ok () s') :
    ∃ l, s'.calls = s.calls ++ effect :: l := by
  cases fuel with
  | zero => simp [callEffect] at h
  | succ n =>
    cases hfn : s.effects[effect]? with
    | none => simp [callEffect, hfn] at h
    | some fn =>
      simp only [callEffect, hfn, run] at h
      have hg := (callsGrow_frame.exec n).1 fn
        { s with activeEffectStacks := s.activeEffectStacks ++ [effect]
                 calls := s.calls ++ [effect] }
      split at h
      · rename_i heq
        rw [heq] at hg
        obtain ⟨l, hl⟩ := hg
        simp only [Res.ok.injEq, true_and] at h
        subst h
        exact ⟨l, by simp [hl]⟩
      · simp at h
      · simp at h

/-- A `forEach` that completes has invoked every effect that was in the set, from position
`i` on, when it started. -/
theorem forEach_calls_all : ∀ (fuel i : Nat) (target : Ref) (key : Key) (s s' : State),
    forEach fuel i target key s = .ok () s' →
    ∃ l, s'.calls = s.calls ++ l ∧ ∀ e ∈ ((depsOf s target key).getD []).drop i, e ∈ l := by
  intro fuel
  induction fuel with
  | zero => intro i t k s s' h; simp [forEach] at h
  | succ n ih =>
    intro i t k s s' h
    cases hq : ((depsOf s t k).getD [])[i]? with
    | none =>
      simp only [forEach, hq, Res.ok.injEq, true_and] at h
      subst h
      refine ⟨[], by simp, ?_⟩
      have hlen := List.getElem?_eq_none_iff.1 hq
      rw [List.drop_eq_nil_of_le hlen]
      simp
    | some e0 =>
      simp only [forEach, hq] at h
      cases hc : callEffect n e0 s with
      | ok u s1 =>
        simp only [hc] at h
        obtain ⟨l1, hl1⟩ := callEffect_calls hc
        obtain ⟨l2, hl2, hall⟩ := ih (i + 1) t k s1 s' h
        have hgrow : DepsGrow s s1 := by
          have := (depsGrow_frame.exec n).2.1 e0 s
          rw [hc] at this
          exact this
        obtain ⟨extra, hextra⟩ := hgrow t k
        refine ⟨e0 :: l1 ++ l2, by rw [hl2, hl1]; simp, ?_⟩
        intro e he
        have hlt : i < ((depsOf s t k).getD []).length := by
          by_contra hcon
          rw [List.getElem?_eq_none (Nat.le_of_not_lt hcon)] at hq
          simp at hq
        rw [List.drop_eq_getElem_cons hlt] at he
        have he0 : ((depsOf s t k).getD [])[i] = e0 := by
          have := List.getElem?_eq_getElem hlt
          rw [this] at hq
          exact Option.some.inj hq
        rcases List.mem_cons.1 he with h1 | h1
        · rw [h1, he0]; simp
        · have hmem : e ∈ ((depsOf s1 t k).getD []).drop (i + 1) := by
            rw [← hextra, List.drop_append_of_le_length (by omega)]
            exact List.mem_append_left _ h1
          have := hall e hmem
          simp [this]
      | throw v s1 => simp [hc] at h
      | timeout => simp [hc] at h

/-- The write `p.inner.v = v1` of a changed value, whatever else is recorded in the graph:
when the write completes, every effect that was recorded under `(i, v)` has been invoked. -/
theorem nested_write_invokes (s : State) (p o i w : Ref) (effect : EffectId)
    (inner kv : Key) (v0 v1 : Val) (objI : RawObj)
    (hp : s.heap[p]? = some (.proxy o)) (hin : Reflect.get s o inner = .ref i)
    (hw : Assoc.get s.toProxy i = some w) (hwp : s.heap[w]? = some (.proxy i))
    (hi : s.heap[i]? = some (.raw objI)) (hv : Assoc.get objI.props kv = some v0)
    (hpair : o ≠ i ∨ inner ≠ kv) (hmem : effect ∈ (depsOf s i kv).getD [])
    (hne : strictNe v0 v1 = true) (fuel : Nat) (s4 : State)
    (hrun : execStmt fuel (.setProp (.get (.lit (.ref p)) inner) kv (.lit v1)) s = .ok () s4) :
    ∃ l, s4.calls = s.calls ++ l ∧ effect ∈ l := by
  cases fuel with
  | zero => simp [execStmt] at hrun
  | succ f =>
    obtain ⟨sT, hsT⟩ : ∃ sT : State, sT = track o inner s := ⟨_, rfl⟩
    have hTheap : sT.heap = s.heap := by simp [hsT]
    have h1 : getProp (.ref p) inner s = .ok (.ref w) sT := by
      have hr : reactive (.ref i) (track o inner s) = (.ref w, track o inner s) :=
        reactive_registered (by simp [hw])
      rw [getProp_proxy (s := s) (p := p) (t := o) hp inner, hin, hr, hsT]
    obtain ⟨sW, hsW⟩ : ∃ sW : State, sW = (Reflect.set sT i kv v1).2 := ⟨_, rfl⟩
    have hold : Reflect.get sT i kv = v0 := by
      simp [Reflect.get, ownProps, hTheap, hi, hv]
    have hown : isOwnProperty sW i kv = true := by
      rw [hsW]
      exact isOwnProperty_reflectSet v1
        (by simp [isOwnProperty, ownProps, hTheap, hi, Assoc.has, hv])
    have hWdeps : depsOf sW i kv = depsOf s i kv := by
      rw [depsOf_congr (s := sT) (by simp [hsW]), hsT, depsOf_track_ne s hpair]
    have hWcalls : sW.calls = s.calls := by simp [hsW, hsT]
    -- the set exists, so `trigger` runs the loop
    have htrig : trigger (forEach f 0) i "set" kv sW = forEach f 0 i kv sW := by
      have hsome : ∃ deps, depsOf sW i kv = some deps := by
        rw [hWdeps]
        cases hd : depsOf s i kv with
        | none => simp [hd] at hmem
        | some deps => exact ⟨deps, rfl⟩
      obtain ⟨deps, hdeps⟩ := hsome
      unfold depsOf at hdeps
      unfold trigger
      cases hq : Assoc.get sW.targetMap i with
      | none => simp [hq] at hdeps
      | some dm =>
        simp [hq] at hdeps
        simp [hdeps]
    simp only [execStmt, evalExpr, h1, setProp] at hrun
    rw [show sT.heap[w]? = some (.proxy i) by rw [hTheap]; exact hwp] at hrun
    simp only [handles.set, hold, hne, ← hsW, hown, htrig] at hrun
    cases hloop : forEach f 0 i kv sW with
    | ok u s' =>
      simp [hloop] at hrun
      obtain ⟨l, hl, hall⟩ := forEach_calls_all f 0 i kv sW s' hloop
      refine ⟨l, ?_, hall effect (by rw [hWdeps]; simpa using hmem)⟩
      rw [← hrun]
      simp [consoleLog, hl, hWcalls]
    | throw v s' => simp [hloop] at hrun
    | timeout => simp [hloop] at hrun

/-! ## Nested wrappers -/
/-- Claim C9 (nested object reactivity on demand): let `o` be an ordinary object whose
property `inner` holds an ordinary object `i` whose property `v` holds a value `v0` that is
not an object, in a state satisfying the identity-map invariant.  With `p = reactive(o)`, the
read `p.inner` answers a proxy `w` built on `i`, which is what `reactive(i)` answers from then
on, and every further read of `p.inner` answers the same `w`; the effect `() => p.inner.v`
completes after one invocation; and whenever the later write `p.inner.v = v1` of a value
`v1 !== v0` completes, it has invoked that effect again.  Where no other effect is recorded
under `(i, v)` the write does complete, after exactly one more invocation. -/
theorem nested_reactivity (fuel : Nat) (s : State) (o i : Ref) (objO objI : RawObj)
    (inner kv : Key) (v0 v1 : Val)
    (hinv : IdentityInv s) (ho : s.heap[o]? = some (.raw objO))
    (hin : Assoc.get objO.props inner = some (.ref i))
    (hi : s.heap[i]? = some (.raw objI)) (hv : Assoc.get objI.props kv = some v0)
    (hv0 : isObject v0 = false) (hne : strictNe v0 v1 = true) :
    ∃ p s1 w s2, reactive (.ref o) s = (.ref p, s1) ∧
      getProp (.ref p) inner s1 = .ok (.ref w) s2 ∧
      s2.heap[w]? = some (.proxy i) ∧
      reactive (.ref i) s2 = (.ref w, s2) ∧
      (∃ s2', getProp (.ref p) inner s2 = .ok (.ref w) s2') ∧
      ∃ s3,
        effect (callEffect (fuel + 2)) (.expr (.get (.get (.lit (.ref p)) inner) kv)) s2 =
          .ok () s3 ∧
        s3.calls = s.calls ++ [s.effects.length] ∧
        (∀ n s4,
          execStmt n (.setProp (.get (.lit (.ref p)) inner) kv (.lit v1)) s3 = .ok () s4 →
          ∃ l, s4.calls = s3.calls ++ l ∧ s.effects.length ∈ l) ∧
        ((depsOf s i kv).getD [] = [] →
          ∃ s4,
            execStmt (fuel + 5) (.setProp (.get (.lit (.ref p)) inner) kv (.lit v1)) s3 =
              .ok () s4 ∧
            s4.calls = s.calls ++ [s.effects.length, s.effects.length]) := by
  have hpair : o ≠ i ∨ inner ≠ kv := by
    by_contra hcon
    simp only [not_or, not_not] at hcon
    obtain ⟨h1, h2⟩ := hcon
    subst h1; subst h2
    rw [ho] at hi
    simp only [Option.some.injEq, Obj.raw.injEq] at hi
    subst hi
    rw [hin] at hv
    simp only [Option.some.injEq] at hv
    subst hv
    simp [isObject_ref] at hv0
  -- p = reactive(o)
  obtain ⟨p, hr, hp1, _⟩ := reactive_raw_spec hinv (o := o) (by simp [isRaw, ho])
  have hinv1 : IdentityInv (reactive (.ref o) s).2 :=
    hinv.wrap_raw (o := o) (by simp [isRaw, ho])
  obtain ⟨s1, hs1⟩ : ∃ s1 : State, s1 = (reactive (.ref o) s).2 := ⟨_, rfl⟩
  rw [← hs1] at hr hp1 hinv1
  have ho1 : s1.heap[o]? = some (.raw objO) := by rw [hs1]; exact reactive_heap _ _ ho
  have hi1 : s1.heap[i]? = some (.raw objI) := by rw [hs1]; exact reactive_heap _ _ hi
  -- the read p.inner
  obtain ⟨sT, hsT⟩ : ∃ sT : State, sT = track o inner s1 := ⟨_, rfl⟩
  have hinvT : IdentityInv sT := hinv1.congr (by simp [hsT]) (by simp [hsT]) (by simp [hsT])
  have hiT : sT.heap[i]? = some (.raw objI) := by simp [hsT, hi1]
  obtain ⟨w, hrw, hwp, hw⟩ := reactive_raw_spec hinvT (o := i) (by simp [isRaw, hiT])
  obtain ⟨s2, hs2⟩ : ∃ s2 : State, s2 = (reactive (.ref i) sT).2 := ⟨_, rfl⟩
  rw [← hs2] at hrw hwp hw
  have hget1 : Reflect.get s1 o inner = .ref i := by simp [Reflect.get, ownProps, ho1, hin]
  have hread : getProp (.ref p) inner s1 = .ok (.ref w) s2 := by
    rw [getProp_proxy (s := s1) (p := p) (t := o) hp1 inner, hget1, ← hsT, hrw]
  have hp2 : s2.heap[p]? = some (.proxy o) := by
    rw [hs2]; exact reactive_heap _ _ (by simp [hsT, hp1])
  have ho2 : s2.heap[o]? = some (.raw objO) := by
    rw [hs2]; exact reactive_heap _ _ (by simp [hsT, ho1])
  have hi2 : s2.heap[i]? = some (.raw objI) := by rw [hs2]; exact reactive_heap _ _ hiT
  have hget2 : Reflect.get s2 o inner = .ref i := by simp [Reflect.get, ownProps, ho2, hin]
  have hleaf2 : Reflect.get s2 i kv = v0 := by simp [Reflect.get, ownProps, hi2, hv]
  have hcalls2 : s2.calls = s.calls := by simp [hs2, hsT, hs1, reactive]
  have heff2 : s2.effects = s.effects := by simp [hs2, hsT, hs1, reactive]
  have hdeps2 : depsOf s2 i kv = depsOf s i kv := by
    rw [depsOf_congr (s := sT) (by simp [hs2, reactive]), hsT, depsOf_track_ne s1 hpair,
      depsOf_congr (s := s) (by simp [hs1, reactive])]
  have hagain : reactive (.ref i) s2 = (.ref w, s2) := reactive_registered hw
  have hread2 : getProp (.ref p) inner s2 = .ok (.ref w) (track o inner s2) := by
    rw [getProp_proxy (s := s2) (p := p) (t := o) hp2 inner, hget2,
      reactive_registered (s := track o inner s2) (r := i) (w := w) (by simp [hw])]
  -- the effect
  obtain ⟨sE, hsE⟩ : ∃ sE : State, sE =
      { s2 with effects := s2.effects ++ [.expr (.get (.get (.lit (.ref p)) inner) kv)] } :=
    ⟨_, rfl⟩
  obtain ⟨s3, hrun, hcalls3, _, heff3, hdeps3, hsame⟩ :=
    nested_read_run fuel sE p o i w s2.effects.length inner kv
      (by simp [hsE, hp2]) (by rw [reflectGet_congr (s := s2) (by rw [hsE])]; exact hget2)
      (by simp [hsE, hw]) (by simp [hsE, hwp]) (by simp [hsE]) hpair
  have hleafE : Reflect.get sE i kv = v0 := by
    rw [reflectGet_congr (s := s2) (by rw [hsE])]; exact hleaf2
  obtain ⟨hheap3, hprox3⟩ := hsame (by rw [hleafE]; exact hv0)
  have heffect : effect (callEffect (fuel + 2)) (.expr (.get (.get (.lit (.ref p)) inner) kv)) s2 =
      .ok () s3 := by
    rw [effect_eq_call, ← hsE]; exact hrun
  have hcalls3' : s3.calls = s.calls ++ [s.effects.length] := by
    rw [hcalls3]; simp [hsE, hcalls2, heff2]
  have hmem3 : s2.effects.length ∈ (depsOf s3 i kv).getD [] := by
    rw [hdeps3]
    simp only [Option.getD_some]
    split
    · rename_i hc; simpa using hc
    · simp
  refine ⟨p, s1, w, s2, hr, hread, hwp, hagain, ⟨_, hread2⟩, s3, heffect, hcalls3', ?_, ?_⟩
  · -- whenever the write completes
    intro n s4 hrun4
    have := nested_write_invokes s3 p o i w s2.effects.length inner kv v0 v1 objI
      (by rw [hheap3]; simp [hsE, hp2])
      (by rw [reflectGet_congr (s := s2) (by rw [hheap3, hsE])]; exact hget2)
      (by rw [hprox3]; simp [hsE, hw])
      (by rw [hheap3]; simp [hsE, hwp])
      (by rw [hheap3]; simp [hsE, hi2]) hv hpair hmem3 hne n s4 hrun4
    rw [heff2] at this
    exact this
  · -- with no other effect under the pair
    intro hdeps
    have hdepsE : (depsOf sE i kv).getD [] = [] := by
      rw [depsOf_congr (s := s2) (by rw [hsE]), hdeps2]; exact hdeps
    rw [hdepsE] at hdeps3
    simp only [List.contains_nil, Bool.false_eq_true, if_false, List.nil_append] at hdeps3
    obtain ⟨s4, hwrite, hcalls4⟩ := nested_write_reruns fuel s3 p o i w s2.effects.length
      inner kv v0 v1 objI
      (by rw [hheap3]; simp [hsE, hp2])
      (by rw [reflectGet_congr (s := s2) (by rw [hheap3, hsE])]; exact hget2)
      (by rw [hprox3]; simp [hsE, hw])
      (by rw [hheap3]; simp [hsE, hwp])
      (by rw [hheap3]; simp [hsE, hi2]) hv
      (by rw [heff3]; simp [hsE]) hpair hdeps3 hne
    exact ⟨s4, hwrite, by rw [hcalls4, hcalls3]; simp [hsE, hcalls2, heff2]⟩

/-- Witness for claim C9: the nested objects of `nestedState`, with `v0 = 1` and `v1 = 2`. -/
theorem nested_reactivity_witness :
    ∃ p s1 w s2, reactive (.ref 0) nestedState = (.ref p, s1) ∧
      getProp (.ref p) "inner" s1 = .ok (.ref w) s2 ∧
      s2.heap[w]? = some (.proxy 1) ∧
      reactive (.ref 1) s2 = (.ref w, s2) ∧
      (∃ s2', getProp (.ref p) "inner" s2 = .ok (.ref w) s2') ∧
      ∃ s3,
        effect (callEffect (0 + 2)) (.expr (.get (.get (.lit (.ref p)) "inner") "v")) s2 =
          .ok () s3 ∧
        s3.calls = nestedState.calls ++ [nestedState.effects.length] ∧
        (∀ n s4,
          execStmt n (.setProp (.get (.lit (.ref p)) "inner") "v" (.lit (.num 2))) s3 =
            .ok () s4 →
          ∃ l, s4.calls = s3.calls ++ l ∧ nestedState.effects.length ∈ l) ∧
        ((depsOf nestedState 1 "v").getD [] = [] →
          ∃ s4,
            execStmt (0 + 5) (.setProp (.get (.lit (.ref p)) "inner") "v" (.lit (.num 2))) s3 =
              .ok () s4 ∧
            s4.calls = nestedState.calls ++
              [nestedState.effects.length, nestedState.effects.length]) :=
  nested_reactivity 0 nestedState 0 1 ⟨[("inner", .ref 1)], true, true, true⟩
    ⟨[("v", .num 1)], true, true, true⟩ "inner" "v" (.num 1) (.num 2)
    (by decide) (by decide) (by decide) (by decide) (by decide) (by decide) (by decide)

/-! ## The program of the source -/

/-- The program at the end of the source runs the effect at registration and once more at the
write, and prints the two names and the line of the modification branch. -/
theorem demo_runs :
    execStmt 10 demo State.empty = .ok ()
      { heap := [.raw ⟨[("name", .str "111")], true, true, true⟩, .proxy 0]
        toProxy := [(0, 1)]
        toRow := [(1, 0)]
        targetMap := [(0, [("name", [0])])]
        activeEffectStacks := []
        effects := [.log (.get (.var "proxy") "name")]
        vars := [("proxy", .ref 1)]
        console := [.str "vue3.0", .str "111", .str "修改原有的属性"]
        calls := [0, 0] } := by
  decide!

/-! ## Reachable states and deletion -/
theorem MutualInverse.of_identityInv {s : State} (hinv : IdentityInv s) : MutualInverse s := by
  have hto : ∀ r w, Assoc.get s.toProxy r = some w → Assoc.get s.toRow w = some r :=
    fun r w h => (hinv.1 _ (Assoc.mem_of_get h)).2.2
  have hfrom : ∀ r w, Assoc.get s.toRow w = some r → Assoc.get s.toProxy r = some w :=
    fun r w h => (hinv.2 _ (Assoc.mem_of_get h)).2
  refine ⟨fun r w => ⟨hto r w, hfrom r w⟩, ?_, ?_⟩
  · intro r w h
    have := hinv.1 _ (Assoc.mem_of_get h)
    exact ⟨this.1, this.2.1⟩
  · intro r1 r2 w h1 h2
    have a := hto r1 w h1
    have b := hto r2 w h2
    rw [a] at b
    exact Option.some.inj b

theorem demo_ends : execStmt 10 demo State.empty = .ok () demoEnd := by decide!

/-- Claim C11 (identity-map invariant): in every state that a program without reference
literals ends in, normally or by a failure, when started in the state of a freshly loaded
module, `toProxy` and `toRow` are inverse to each other (`toProxy(r) = w` exactly when
`toRow(w) = r`), every such `w` is a proxy built on the ordinary object `r`, and no two
objects share a wrapper. -/
theorem identity_maps_inverse (fuel : Nat) (prog : Stmt) (hclosed : prog.valid 0 = true) :
    (∀ s, execStmt fuel prog State.empty = .ok () s → MutualInverse s) ∧
    (∀ v s, execStmt fuel prog State.empty = .throw v s → MutualInverse s) := by
  have h := (WellFormed.after_exec fuel).1 prog State.empty wellFormed_empty hclosed
  constructor
  · intro s hs
    rw [hs] at h
    exact MutualInverse.of_identityInv h.1.1
  · intro v s hs
    rw [hs] at h
    exact MutualInverse.of_identityInv h.1.1

/-- Witness for claim C11: the program of the source has no reference literal, and the state
it ends in has inverse identity maps. -/
theorem identity_maps_inverse_witness : demo.valid 0 = true ∧ MutualInverse demoEnd :=
  ⟨by decide!, (identity_maps_inverse 10 demo (by decide!)).1 demoEnd demo_ends⟩

/-- Claim C20 (delete is a no-op): a `delete p.k` through a wrapper `p` reports no success and
leaves the whole state as it was: the target and its property, the dependency graph, the
identity maps, the active-effect stack, and the trace of invocations (no effect is invoked);
as a statement of the host program it completes after one step. -/
theorem delete_is_noop (fuel : Nat) (s : State) (p target : Ref) (k : Key)
    (hp : s.heap[p]? = some (.proxy target)) :
    handles.deleteProperty target k s = (.undefined, s) ∧
    deleteProp (.ref p) k s = .ok false s ∧
    execStmt (fuel + 1) (.deleteProp (.lit (.ref p)) k) s = .ok () s := by
  refine ⟨rfl, ?_, ?_⟩
  · simp [deleteProp, hp, handles.deleteProperty, truthy]
  · simp [execStmt, evalExpr, deleteProp, hp, handles.deleteProperty]

/-- Witness for claim C20: deleting `a` through the proxy of `wrappedState`. -/
theorem delete_is_noop_witness :
    handles.deleteProperty 0 "a" wrappedState = (.undefined, wrappedState) ∧
    deleteProp (.ref 1) "a" wrappedState = .ok false wrappedState ∧
    execStmt (0 + 1) (.deleteProp (.lit (.ref 1)) "a") wrappedState = .ok () wrappedState :=
  delete_is_noop 0 wrappedState 1 0 "a" (by decide)

/-! ## Lazy wrapping -/
theorem Assoc.get_append_ne {κ ν : Type} [DecidableEq κ] (m : List (κ × ν)) {k k' : κ} (v : ν)
    (h : k ≠ k') : Assoc.get (m ++ [(k, v)]) k' = Assoc.get m k' := by
  induction m with
  | nil => simp [Assoc.get, h]
  | cons a m ih =>
    obtain ⟨k1, v1⟩ := a
    by_cases h1 : k1 = k' <;> simp [Assoc.get, h1, ih]

/-- Claim C17 (lazy wrapping terminates without traversal): in a state satisfying the
identity-map invariant, `reactive(o)` of an ordinary object `o` that is not registered yet,
whatever its properties hold (references back to `o` and cycles included), returns the proxy
allocated at the end of the heap and appends exactly the pair `(o, wrapper)` to `toProxy` and
`(wrapper, o)` to `toRow`, changing nothing else.  An unregistered ordinary object `i ≠ o`
stored under a property `k` of `o` is still unregistered after the call, and becomes registered
by the read of `k` through the wrapper, which returns its new proxy. -/
theorem lazy_wrapping (s : State) (o : Ref) (obj : RawObj) (hinv : IdentityInv s)
    (ho : s.heap[o]? = some (.raw obj)) (hun : Assoc.get s.toProxy o = none) :
    reactive (.ref o) s =
      (.ref s.heap.length,
        { s with heap := s.heap ++ [.proxy o]
                 toProxy := s.toProxy ++ [(o, s.heap.length)]
                 toRow := s.toRow ++ [(s.heap.length, o)] }) ∧
    ∀ (k : Key) (i : Ref), Assoc.get obj.props k = some (.ref i) → isRaw s i = true → i ≠ o →
      Assoc.get s.toProxy i = none →
      Assoc.get (reactive (.ref o) s).2.toProxy i = none ∧
      ∃ s2, getProp (.ref s.heap.length) k (reactive (.ref o) s).2 =
          .ok (.ref (s.heap.length + 1)) s2 ∧
        Assoc.get s2.toProxy i = some (s.heap.length + 1) ∧
        s2.heap[s.heap.length + 1]? = some (.proxy i) := by
  have hraw : isRaw s o = true := by simp [isRaw, ho]
  have hinv1 := hinv.wrap_raw hraw
  rcases reactive_raw hinv hraw with ⟨w, hw, _, _⟩ | ⟨_, hr⟩
  · rw [hun] at hw; cases hw
  refine ⟨hr, ?_⟩
  intro k i hk hi hne hni
  have hget : Assoc.get (s.toProxy ++ [(o, s.heap.length)]) i = none := by
    rw [Assoc.get_append_ne _ _ (Ne.symm hne)]; exact hni
  have hheap : (reactive (.ref o) s).2.heap = s.heap ++ [.proxy o] := by rw [hr]
  have hto : (reactive (.ref o) s).2.toProxy = s.toProxy ++ [(o, s.heap.length)] := by rw [hr]
  generalize (reactive (.ref o) s).2 = s1 at hinv1 hheap hto
  refine ⟨by rw [hto]; exact hget, ?_⟩
  have hp : s1.heap[s.heap.length]? = some (.proxy o) := by rw [hheap]; simp
  have ho1 : s1.heap[o]? = some (.raw obj) := by
    rw [hheap, List.getElem?_append_left (lt_length_of_getElem? ho)]; exact ho
  have hread : Reflect.get s1 o k = .ref i := by
    simp [Reflect.get, ownProps, ho1, hk]
  rw [getProp_proxy hp, hread]
  have hinv2 : IdentityInv (track o k s1) :=
    hinv1.congr (track_heap _ _ _) (track_toProxy _ _ _) (track_toRow _ _ _)
  have hi2 : isRaw (track o k s1) i = true := by
    have hlt := lt_length_of_isRaw hi
    unfold isRaw at hi ⊢
    rw [track_heap, hheap, List.getElem?_append_left hlt]
    exact hi
  have hlen : (track o k s1).heap.length = s.heap.length + 1 := by
    rw [track_heap, hheap]; simp
  rcases reactive_raw hinv2 hi2 with ⟨w, hw, _, _⟩ | ⟨_, hr2⟩
  · rw [track_toProxy, hto, hget] at hw; cases hw
  · rw [hr2, hlen]
    refine ⟨_, rfl, ?_, ?_⟩
    · simp only []
      rw [← Assoc.set_of_get_none _ _ (by rw [track_toProxy, hto]; exact hget)]
      exact Assoc.get_set_self _ _ _
    · simp only []
      rw [← hlen]; simp

/-- Witness for claim C17: wrapping the object at `0` of `cyclicState`, which refers to itself
and lies on a cycle through the object at `1`. -/
theorem lazy_wrapping_witness :
    reactive (.ref 0) cyclicState =
      (.ref cyclicState.heap.length,
        { cyclicState with heap := cyclicState.heap ++ [.proxy 0]
                           toProxy := cyclicState.toProxy ++ [(0, cyclicState.heap.length)]
                           toRow := cyclicState.toRow ++ [(cyclicState.heap.length, 0)] }) ∧
    ∀ (k : Key) (i : Ref),
      Assoc.get [("self", Val.ref 0), ("other", Val.ref 1)] k = some (.ref i) →
      isRaw cyclicState i = true → i ≠ 0 →
      Assoc.get cyclicState.toProxy i = none →
      Assoc.get (reactive (.ref 0) cyclicState).2.toProxy i = none ∧
      ∃ s2, getProp (.ref cyclicState.heap.length) k (reactive (.ref 0) cyclicState).2 =
          .ok (.ref (cyclicState.heap.length + 1)) s2 ∧
        Assoc.get s2.toProxy i = some (cyclicState.heap.length + 1) ∧
        s2.heap[cyclicState.heap.length + 1]? = some (.proxy i) :=
  lazy_wrapping cyclicState 0 ⟨[("self", .ref 0), ("other", .ref 1)], true, true, true⟩
    (by decide) (by decide) (by decide)

/-! ## The trigger condition of a write -/
/-- The `set` trap on a target that accepts the assignment. -/
theorem handlesSet_accepted (trigger : Ref → String → Key → State → Res Unit) (s : State)
    (target : Ref) (obj : RawObj) (k : Key) (v : Val)
    (ho : s.heap[target]? = some (.raw obj)) (hacc : Reflect.accepts obj k = true) :
    handles.set trigger target k v s =
      (if strictNe (Reflect.get s target k) v then
        match trigger target "set" k
            { s with heap := s.heap.set target (.raw { obj with props := Assoc.set obj.props k v }) } with
        | .ok _ s2 => .ok true (consoleLog (.str "修改原有的属性") s2)
        | .throw e s2 => .throw e s2
        | .timeout => .timeout
      else
        .ok true
          { s with heap := s.heap.set target (.raw { obj with props := Assoc.set obj.props k v }) }) := by
  have hlt := lt_length_of_getElem? ho
  have hset : Reflect.set s target k v =
      (true, { s with heap := s.heap.set target (.raw { obj with props := Assoc.set obj.props k v }) }) := by
    simp [Reflect.set, ho, hacc]
  have hown : isOwnProperty
      { s with heap := s.heap.set target (.raw { obj with props := Assoc.set obj.props k v }) }
      target k = true := by
    simp [isOwnProperty, ownProps, hlt, Assoc.has, Assoc.get_set_self]
  unfold handles.set
  simp only [hset, hown]
  by_cases hne : strictNe (Reflect.get s target k) v = true
  · simp only [hne]
    cases trigger target "set" k
      { s with heap := s.heap.set target (.raw { obj with props := Assoc.set obj.props k v }) } <;> rfl
  · simp [hne]

/-! ## Rejected writes -/
/-- Counterexample to claim C12 as stated.  After `frozenSetup` the target is frozen, so
`Reflect.set` rejects both `p.a = 2` and `p.b = 2` and the target keeps its properties.  The
trap returns `false` in both cases, but the trigger fires: the write to `a` invokes the effect
recorded under `(target, a)` through the modification branch, the write to the absent key `b`
invokes the effect recorded under `(target, b)` through the addition branch. -/
theorem rejected_write_triggers :
    execStmt 12 frozenSetup State.empty = .ok () frozenTracked ∧
    Reflect.set frozenTracked 0 "a" (.num 2) = (false, frozenTracked) ∧
    Reflect.set frozenTracked 0 "b" (.num 2) = (false, frozenTracked) ∧
    depsOf frozenTracked 0 "a" = some [0] ∧
    depsOf frozenTracked 0 "b" = some [1] ∧
    handles.set (trigger (forEach 5 0)) 0 "a" (.num 2) frozenTracked =
      .ok false { frozenTracked with console := [.str "修改原有的属性"], calls := [0, 1, 0] } ∧
    handles.set (trigger (forEach 5 0)) 0 "b" (.num 2) frozenTracked =
      .ok false { frozenTracked with console := [.str "设置新的属性"], calls := [0, 1, 1] } := by
  decide!

/-- Claim C12, as the code has it: when `Reflect.set` rejects the assignment the target and
the whole state are left as they were, and every normal return of the trap carries the failure
indicator `false`; but the trigger is not gated on it.  The trap calls
`trigger(target, 'add', k)` when `k` is not an own property of the target, calls
`trigger(target, 'set', k)` when `k` is an own property whose value is `!== v`, and calls no
trigger, returning `false` with the state unchanged, exactly when `k` is an own property whose
value is not `!== v`. -/
theorem rejected_write (trigger : Ref → String → Key → State → Res Unit) (s : State)
    (target : Ref) (k : Key) (v : Val) (hrej : (Reflect.set s target k v).1 = false) :
    (Reflect.set s target k v).2 = s ∧
    (∀ b s2, handles.set trigger target k v s = .ok b s2 → b = false) ∧
    handles.set trigger target k v s =
      (if isOwnProperty s target k then
        if strictNe (Reflect.get s target k) v then
          match trigger target "set" k s with
          | .ok _ s2 => .ok false (consoleLog (.str "修改原有的属性") s2)
          | .throw e s2 => .throw e s2
          | .timeout => .timeout
        else .ok false s
      else
        match trigger target "add" k s with
        | .ok _ s2 => .ok false (consoleLog (.str "设置新的属性") s2)
        | .throw e s2 => .throw e s2
        | .timeout => .timeout) := by
  have hstate : (Reflect.set s target k v).2 = s := by
    unfold Reflect.set at hrej ⊢
    split
    · rename_i o ho
      simp only [ho] at hrej
      by_cases ha : Reflect.accepts o k = true
      · simp [ha] at hrej
      · simp [ha]
    · rfl
  have hpair : Reflect.set s target k v = (false, s) := by
    exact Prod.ext hrej hstate
  have main : handles.set trigger target k v s =
      (if isOwnProperty s target k then
        if strictNe (Reflect.get s target k) v then
          match trigger target "set" k s with
          | .ok _ s2 => .ok false (consoleLog (.str "修改原有的属性") s2)
          | .throw e s2 => .throw e s2
          | .timeout => .timeout
        else .ok false s
      else
        match trigger target "add" k s with
        | .ok _ s2 => .ok false (consoleLog (.str "设置新的属性") s2)
        | .throw e s2 => .throw e s2
        | .timeout => .timeout) := by
    unfold handles.set
    simp only [hpair]
    by_cases hown : isOwnProperty s target k = true
    · by_cases hne : strictNe (Reflect.get s target k) v = true
      · simp only [hown, hne]
        cases trigger target "set" k s <;> rfl
      · simp [hown, hne]
    · simp only [hown]
      cases trigger target "add" k s <;> rfl
  refine ⟨hstate, ?_, main⟩
  intro b s2 h
  rw [main] at h
  split at h
  · split at h
    · split at h
      · cases h; rfl
      · cases h
      · cases h
    · cases h; rfl
  · split at h
    · cases h; rfl
    · cases h
    · cases h

/-- Witness for claim C12: the rejected write `p.a = 2` on the frozen target of
`frozenTracked`, with a `trigger` that records its `type` argument on the console. -/
theorem rejected_write_witness :
    (Reflect.set frozenTracked 0 "a" (.num 2)).1 = false ∧
    handles.set (fun _ type _ s => .ok () (consoleLog (.str type) s)) 0 "a" (.num 2)
        frozenTracked =
      .ok false { frozenTracked with console := [.str "set", .str "修改原有的属性"] } :=
  ⟨by decide,
    ((rejected_write (fun _ type _ s => .ok () (consoleLog (.str type) s)) frozenTracked 0 "a"
      (.num 2) (by decide)).2.2).trans (by decide)⟩

/-! ## Attribution of reads -/
/-- A second `track(target, key)` in the same state changes nothing. -/
theorem track_track (target : Ref) (key : Key) (s : State) :
    track target key (track target key s) = track target key s := by
  cases hq : s.activeEffectStacks.getLast? with
  | none => simp [track, hq]
  | some e =>
    have hq2 : (track target key s).activeEffectStacks.getLast? = some e := by
      rw [track_stack]; exact hq
    have hd := depsOf_track_self hq target key
    unfold depsOf at hd
    cases hdm : Assoc.get (track target key s).targetMap target with
    | none => rw [hdm] at hd; simp at hd
    | some dm =>
      rw [hdm] at hd
      simp only [Option.some_bind] at hd
      refine track_of_recorded hq2 hdm hd ?_
      split
      · rename_i h; simpa using h
      · simp

/-- Claim C14 (attribution to the top of the stack): when the active-effect stack is
`below ++ [e]`, `track(target, key)` leaves every field of the state but the graph alone and
yields a graph in which the set under `(target, key)` is the old one with `e` appended unless
it was a member already: so `e` belongs to it, every member other than `e` was there before
(no effect lower in the stack is added), and the set under every other pair is unchanged.  A
second `track(target, key)` changes nothing.  With nested effects, the program
`effect(() => { effect(() => p.b); p.a })` records the inner effect under `b` only and the outer
effect under `a` only. -/
theorem track_attributes_top (s : State) (below : List EffectId) (e : EffectId) (target : Ref)
    (key : Key) (hstack : s.activeEffectStacks = below ++ [e]) :
    depsOf (track target key s) target key =
      some (if ((depsOf s target key).getD []).contains e then (depsOf s target key).getD []
            else (depsOf s target key).getD [] ++ [e]) ∧
    e ∈ (depsOf (track target key s) target key).getD [] ∧
    (∀ x ∈ (depsOf (track target key s) target key).getD [],
      x = e ∨ x ∈ (depsOf s target key).getD []) ∧
    (∀ (t : Ref) (k : Key), target ≠ t ∨ key ≠ k →
      depsOf (track target key s) t k = depsOf s t k) ∧
    (track target key s).heap = s.heap ∧
    (track target key s).toProxy = s.toProxy ∧
    (track target key s).toRow = s.toRow ∧
    (track target key s).activeEffectStacks = s.activeEffectStacks ∧
    (track target key s).effects = s.effects ∧
    (track target key s).calls = s.calls ∧
    track target key (track target key s) = track target key s ∧
    execStmt 12 nestedEffects State.empty = .ok () nestedEffectsEnd ∧
    depsOf nestedEffectsEnd 0 "b" = some [1] ∧
    depsOf nestedEffectsEnd 0 "a" = some [0] := by
  have htop : s.activeEffectStacks.getLast? = some e := by simp [hstack]
  have hd := depsOf_track_self htop target key
  refine ⟨hd, ?_, ?_, fun t k h => depsOf_track_ne s h, track_heap _ _ _, track_toProxy _ _ _,
    track_toRow _ _ _, track_stack _ _ _, track_effects _ _ _, track_calls _ _ _,
    track_track _ _ _, by decide!, by decide!, by decide!⟩
  · rw [hd]
    simp only [Option.getD_some]
    split
    · rename_i h; simpa using h
    · simp
  · intro x hx
    rw [hd] at hx
    simp only [Option.getD_some] at hx
    split at hx
    · exact Or.inr hx
    · rcases List.mem_append.1 hx with h | h
      · exact Or.inr h
      · exact Or.inl (by simpa using h)

/-- Witness for claim C14: in `runningState` the stack is `[0] ++ [1]`; `track(0, a)` appends
the running effect `1` to the set under `(0, a)`, and a second call changes nothing. -/
theorem track_attributes_top_witness :
    runningState.activeEffectStacks = [0] ++ [1] ∧
    depsOf (track 0 "a" runningState) 0 "a" = some [0, 1] ∧
    track 0 "a" (track 0 "a" runningState) = track 0 "a" runningState :=
  ⟨rfl, (track_attributes_top runningState [0] 1 0 "a" rfl).1.trans (by decide),
    (track_attributes_top runningState [0] 1 0 "a" rfl).2.2.2.2.2.2.2.2.2.2.1⟩

/-! ## Edges only accumulate -/
theorem edgesKept_of_eq {s s' : State} (h : s'.targetMap = s.targetMap) :
    EdgesKept s s' := by
  refine ⟨?_, ?_, ?_⟩
  · intro t k e he; rw [depsOf_congr h]; exact he
  · intro t ht; rw [h]; exact ht
  · intro t k ht; rw [depsOf_congr h]; exact ht

theorem edgesKept_track (s : State) (target : Ref) (key : Key) :
    EdgesKept s (track target key s) := by
  refine ⟨?_, ?_, ?_⟩
  · intro t k e he
    exact (depsGrow_frame.track s target key t k).subset he
  · intro t ht
    cases hq : s.activeEffectStacks.getLast? with
    | none => simpa [track, hq] using ht
    | some e =>
      rw [track_of_top hq]
      by_cases h : target = t
      · subst h; simp [Assoc.has, Assoc.get_set_self]
      · simp only [Assoc.has]
        rw [Assoc.get_set_ne _ _ h]
        exact ht
  · intro t k ht
    by_cases hpair : target = t ∧ key = k
    · obtain ⟨h1, h2⟩ := hpair
      subst h1; subst h2
      cases hq : s.activeEffectStacks.getLast? with
      | none => simpa [track, hq] using ht
      | some e => rw [depsOf_track_self hq]; rfl
    · have hne : target ≠ t ∨ key ≠ k := by
        by_contra hcon
        simp only [not_or, not_not] at hcon
        exact hpair hcon
      rw [depsOf_track_ne s hne]
      exact ht

theorem edgesKept_frame : Frame EdgesKept where
  refl := fun s => edgesKept_of_eq rfl
  trans := fun _ _ _ h1 h2 =>
    ⟨fun t k e he => h2.1 t k e (h1.1 t k e he), fun t ht => h2.2.1 t (h1.2.1 t ht),
      fun t k ht => h2.2.2 t k (h1.2.2 t k ht)⟩
  alloc := fun _ _ => edgesKept_of_eq rfl
  track := edgesKept_track
  create := fun _ _ => edgesKept_of_eq (by simp)
  store := fun _ _ _ _ => edgesKept_of_eq rfl
  assign := fun _ _ _ => edgesKept_of_eq rfl
  log := fun _ _ => edgesKept_of_eq rfl
  closure := fun _ _ => edgesKept_of_eq rfl
  bracket := by
    intro s effect s2 h
    exact ⟨h.1, h.2.1, h.2.2⟩

/-- Claim C16 (edges only accumulate): from every state, each operation of the runtime that
completes, normally or by a failure, ends in a state whose dependency graph still has every
edge `(target, key, effect)`, every table and every set of the graph it started with.  This
holds for `reactive`, a read, a write and a delete through any value (wrappers included),
`effect`, `track`, `trigger`, `run`, a call of an effect and every statement of the host
program, at every amount of fuel. -/
theorem edges_accumulate (fuel : Nat) (s : State) :
    (∀ v, EdgesKept s (reactive v s).2) ∧
    (∀ v k, (getProp v k s).Holds (EdgesKept s)) ∧
    (∀ target k, EdgesKept s (handles.get target k s).2) ∧
    (∀ v k value, (setProp (trigger (forEach fuel 0)) v k value s).Holds (EdgesKept s)) ∧
    (∀ target k value,
      (handles.set (trigger (forEach fuel 0)) target k value s).Holds (EdgesKept s)) ∧
    (∀ v k, (deleteProp v k s).Holds (EdgesKept s)) ∧
    (∀ target k, EdgesKept s (handles.deleteProperty target k s).2) ∧
    (∀ fn, (effect (callEffect fuel) fn s).Holds (EdgesKept s)) ∧
    (∀ target k, EdgesKept s (track target k s)) ∧
    (∀ target type k, (trigger (forEach fuel 0) target type k s).Holds (EdgesKept s)) ∧
    (∀ fn e, (run (execStmt fuel fn) e s).Holds (EdgesKept s)) ∧
    (∀ e, (callEffect fuel e s).Holds (EdgesKept s)) ∧
    (∀ st, (execStmt fuel st s).Holds (EdgesKept s)) := by
  have hx := edgesKept_frame.exec fuel
  have htr : ∀ t ty k s, (trigger (forEach fuel 0) t ty k s).Holds (EdgesKept s) :=
    fun t ty k s => edgesKept_frame.trigger (fun t k s => hx.2.2 0 t k s) t ty k s
  exact ⟨fun v => edgesKept_frame.create s v,
    fun v k => edgesKept_frame.toReadFrame.getProp v k s,
    fun t k => edgesKept_frame.toReadFrame.handlesGet t k s,
    fun v k value => edgesKept_frame.setProp htr v k value s,
    fun t k value => edgesKept_frame.handlesSet htr t k value s,
    fun v k => edgesKept_frame.deleteProp v k s,
    fun _ _ => edgesKept_frame.refl s,
    fun fn => edgesKept_frame.effect hx.2.1 fn s,
    fun t k => edgesKept_frame.track s t k,
    fun t ty k => htr t ty k s,
    fun fn e => edgesKept_frame.run (hx.1 fn) e s,
    fun e => hx.2.1 e s,
    fun st => hx.1 st s⟩

/-! ## Stale edges -/
/-- Counterexample to claim C13 as stated.  The program `staleEdge` ends in `staleEdgeEnd`
after two runs of its effect.  The second, most recent run is the call of the effect in
`staleEdgeMid`; it reads `flag` only: started on an emptied graph it records the effect under
`(0, flag)` and nothing under `(0, a)`.  Yet in `staleEdgeEnd` the effect is still a member of
the set under `(0, a)`, and a later write `p.a = 2` invokes it a third time. -/
theorem stale_edge_remains :
    execStmt 12 staleEdge State.empty = .ok () staleEdgeEnd ∧
    trigger (forEach 6 0) 0 "set" "flag" staleEdgeMid =
      callEffect 5 0 staleEdgeMid ∧
    callEffect 5 0 staleEdgeMid = .ok () { staleEdgeMid with calls := [0, 0] } ∧
    callEffect 5 0 { staleEdgeMid with targetMap := [] } =
      .ok () { staleEdgeMid with targetMap := [(0, [("flag", [0])])], calls := [0, 0] } ∧
    depsOf staleEdgeEnd 0 "a" = some [0] ∧
    setProp (trigger (forEach 6 0)) (.ref 1) "a" (.num 2) staleEdgeEnd =
      .ok ()
        { staleEdgeEnd with
          heap := [.raw ⟨[("flag", .bool false), ("a", .num 2)], true, true, true⟩, .proxy 0]
          console := [.str "修改原有的属性", .str "修改原有的属性"]
          calls := [0, 0, 0] } := by
  decide!

/-- Claim C13, as the code has it: a read of `key` through a wrapper of `target` while the
effect `e` is on top of the active-effect stack completes and makes `e` a member of the set
under `(target, key)`; and `e` remains a member after every later statement and every later
call of an effect, the later runs of `e` itself included, whether or not they read `key`:
membership records that some run read the key, not that the most recent one did. -/
theorem read_edge_persists (s : State) (below : List EffectId) (e : EffectId) (p target : Ref)
    (key : Key) (hp : s.heap[p]? = some (.proxy target))
    (hstack : s.activeEffectStacks = below ++ [e]) :
    ∃ v s1, getProp (.ref p) key s = .ok v s1 ∧
      e ∈ (depsOf s1 target key).getD [] ∧
      (∀ fuel st, (execStmt fuel st s1).Holds (fun s2 => e ∈ (depsOf s2 target key).getD [])) ∧
      (∀ fuel e2, (callEffect fuel e2 s1).Holds (fun s2 => e ∈ (depsOf s2 target key).getD [])) := by
  have htop : s.activeEffectStacks.getLast? = some e := by simp [hstack]
  refine ⟨_, _, getProp_proxy hp key, ?_⟩
  have hmem : e ∈ (depsOf (reactive (Reflect.get s target key) (track target key s)).2
      target key).getD [] := by
    unfold reactive
    rw [depsOf_congr (createReactiveObject_targetMap _ _), depsOf_track_self htop]
    simp only [Option.getD_some]
    split
    · rename_i h; simpa using h
    · simp
  refine ⟨hmem, ?_, ?_⟩
  · intro fuel st
    exact ((edgesKept_frame.exec fuel).1 st _).mono (fun s2 h => h.1 _ _ _ hmem)
  · intro fuel e2
    exact ((edgesKept_frame.exec fuel).2.1 e2 _).mono (fun s2 h => h.1 _ _ _ hmem)

/-- Witness for claim C13: a read of `a` through the proxy of `runningState`, where effect `1`
is on top of the stack. -/
theorem read_edge_persists_witness :
    runningState.heap[1]? = some (.proxy 0) ∧ runningState.activeEffectStacks = [0] ++ [1] ∧
    ∃ v s1, getProp (.ref 1) "a" runningState = .ok v s1 ∧
      1 ∈ (depsOf s1 0 "a").getD [] ∧
      (∀ fuel st, (execStmt fuel st s1).Holds (fun s2 => 1 ∈ (depsOf s2 0 "a").getD [])) ∧
      (∀ fuel e2, (callEffect fuel e2 s1).Holds (fun s2 => 1 ∈ (depsOf s2 0 "a").getD [])) :=
  ⟨by decide, rfl, read_edge_persists runningState [0] 1 1 0 "a" (by decide) rfl⟩

/-! ## Trigger runs the dependents -/
/-- With a set under `(target, key)`, `trigger` is the loop over it. -/
theorem trigger_of_deps (forEach : Ref → Key → State → Res Unit) {s : State} {target : Ref}
    {key : Key} {deps : List EffectId} (h : depsOf s target key = some deps) (type : String) :
    trigger forEach target type key s = forEach target key s := by
  unfold depsOf at h
  unfold trigger
  cases hq : Assoc.get s.targetMap target with
  | none => rw [hq] at h; simp at h
  | some dm =>
    rw [hq] at h
    simp only [Option.some_bind] at h
    simp [h]

/-- Counterexample to claim C15 as stated.  Both effects of `raiseInTrigger` only read, and
both are in the set under `(0, c)` when the write `p.c = 1` calls `trigger`.  The first one
raises during its run (`p.z` is `undefined`), which ends the loop: the second effect is not
invoked, and the failure leaves the write. -/
theorem trigger_stops_at_failure :
    raiseInTriggerMid.effects.all Stmt.onlyReads = true ∧
    depsOf raiseInTriggerMid 0 "c" = some [0, 1] ∧
    trigger (forEach 6 0) 0 "set" "c" raiseInTriggerMid =
      .throw (.str "TypeError") raiseInTriggerEnd ∧
    raiseInTriggerEnd.calls = raiseInTriggerMid.calls ++ [0] ∧
    execStmt 12 raiseInTrigger State.empty = .throw (.str "TypeError") raiseInTriggerEnd := by
  decide!

theorem noSetProp_of_onlyReads (st : Stmt) (h : st.onlyReads = true) : st.noSetProp = true := by
  induction st with
  | seq a b iha ihb =>
    simp only [Stmt.onlyReads, Bool.and_eq_true] at h
    simp [Stmt.noSetProp, iha h.1, ihb h.2]
  | ite c a b iha ihb =>
    simp only [Stmt.onlyReads, Bool.and_eq_true] at h
    simp [Stmt.noSetProp, iha h.1, ihb h.2]
  | _ => first | rfl | simp [Stmt.onlyReads] at h

/-- A relation that holds across expression evaluation, assignments to host variables and
`console.log` holds across every statement that only reads. -/
theorem execStmt_onlyReads {R : State → State → Prop} (hR : ReadFrame R)
    (hassign : ∀ s x v, R s { s with vars := Assoc.set s.vars x v })
    (hlog : ∀ s v, R s (consoleLog v s)) (st : Stmt) :
    ∀ (fuel : Nat) (s : State), st.onlyReads = true → (execStmt fuel st s).Holds (R s) := by
  induction st with
  | skip =>
    intro fuel s _
    cases fuel with
    | zero => simp [execStmt, Res.Holds]
    | succ n => simp only [execStmt]; exact hR.refl s
  | seq a b iha ihb =>
    intro fuel s hq
    simp only [Stmt.onlyReads, Bool.and_eq_true] at hq
    cases fuel with
    | zero => simp [execStmt, Res.Holds]
    | succ n =>
      have ha := iha n s hq.1
      cases hr : execStmt n a s with
      | ok u s1 =>
        rw [hr] at ha
        simp only [execStmt, hr]
        exact (ihb n s1 hq.2).mono (fun _ h => hR.trans _ _ _ ha h)
      | throw v s1 => rw [hr] at ha; simp only [execStmt, hr]; exact ha
      | timeout => simp [execStmt, hr, Res.Holds]
  | assign x e =>
    intro fuel s _
    cases fuel with
    | zero => simp [execStmt, Res.Holds]
    | succ n =>
      have he := hR.evalExpr e s
      cases hr : evalExpr e s with
      | ok v s1 =>
        rw [hr] at he; simp only [execStmt, hr]
        exact hR.trans _ _ _ he (hassign s1 x v)
      | throw v s1 => rw [hr] at he; simp only [execStmt, hr]; exact he
      | timeout => simp [execStmt, hr, Res.Holds]
  | setProp o k e => intro fuel s hq; simp [Stmt.onlyReads] at hq
  | deleteProp o k => intro fuel s hq; simp [Stmt.onlyReads] at hq
  | effect body _ => intro fuel s hq; simp [Stmt.onlyReads] at hq
  | throw e =>
    intro fuel s _
    cases fuel with
    | zero => simp [execStmt, Res.Holds]
    | succ n =>
      have he := hR.evalExpr e s
      cases hr : evalExpr e s with
      | ok v s1 => rw [hr] at he; simp only [execStmt, hr]; exact he
      | throw v s1 => rw [hr] at he; simp only [execStmt, hr]; exact he
      | timeout => simp [execStmt, hr, Res.Holds]
  | expr e =>
    intro fuel s _
    cases fuel with
    | zero => simp [execStmt, Res.Holds]
    | succ n =>
      have he := hR.evalExpr e s
      cases hr : evalExpr e s with
      | ok v s1 => rw [hr] at he; simp only [execStmt, hr]; exact he
      | throw v s1 => rw [hr] at he; simp only [execStmt, hr]; exact he
      | timeout => simp [execStmt, hr, Res.Holds]
  | log e =>
    intro fuel s _
    cases fuel with
    | zero => simp [execStmt, Res.Holds]
    | succ n =>
      have he := hR.evalExpr e s
      cases hr : evalExpr e s with
      | ok v s1 =>
        rw [hr] at he; simp only [execStmt, hr]
        exact hR.trans _ _ _ he (hlog s1 v)
      | throw v s1 => rw [hr] at he; simp only [execStmt, hr]; exact he
      | timeout => simp [execStmt, hr, Res.Holds]
  | ite c a b iha ihb =>
    intro fuel s hq
    simp only [Stmt.onlyReads, Bool.and_eq_true] at hq
    cases fuel with
    | zero => simp [execStmt, Res.Holds]
    | succ n =>
      have he := hR.evalExpr c s
      cases hr : evalExpr c s with
      | ok v s1 =>
        rw [hr] at he; simp only [execStmt, hr]
        split
        · exact (iha n s1 hq.1).mono (fun _ h => hR.trans _ _ _ he h)
        · exact (ihb n s1 hq.2).mono (fun _ h => hR.trans _ _ _ he h)
      | throw v s1 => rw [hr] at he; simp only [execStmt, hr]; exact he
      | timeout => simp [execStmt, hr, Res.Holds]
  | freeze o => intro fuel s hq; simp [Stmt.onlyReads] at hq

theorem quietRun_of_eq {target : Ref} {key : Key} {s s' : State}
    (h1 : s'.calls = s.calls) (h2 : s'.effects = s.effects)
    (h3 : s'.activeEffectStacks = s.activeEffectStacks) (h4 : s'.targetMap = s.targetMap) :
    QuietRun target key s s' :=
  ⟨h1, h2, h3, fun _ _ _ => by rw [depsOf_congr h4]⟩

theorem quietRun_readFrame (target : Ref) (key : Key) : ReadFrame (QuietRun target key) where
  refl := fun s => quietRun_of_eq rfl rfl rfl rfl
  trans := by
    intro a b c h1 h2
    obtain ⟨a1, a2, a3, a4⟩ := h1
    obtain ⟨b1, b2, b3, b4⟩ := h2
    refine ⟨b1.trans a1, b2.trans a2, b3.trans a3, ?_⟩
    intro e he hmem
    have hab := a4 e he hmem
    rw [b4 e (by rw [a3]; exact he) (by rw [hab]; exact hmem), hab]
  alloc := fun s o => quietRun_of_eq rfl rfl rfl rfl
  track := by
    intro s t k
    refine ⟨track_calls _ _ _, track_effects _ _ _, track_stack _ _ _, ?_⟩
    intro e he hmem
    by_cases hpair : t = target ∧ k = key
    · obtain ⟨h1, h2⟩ := hpair
      subst h1; subst h2
      rw [depsOf_track_self he]
      simp [hmem]
    · have hne : t ≠ target ∨ k ≠ key := by
        by_contra hcon
        simp only [not_or, not_not] at hcon
        exact hpair hcon
      rw [depsOf_track_ne s hne]
  create := fun s v => quietRun_of_eq (by simp) (by simp) (by simp) (by simp)

/-- A call of an effect whose body only reads, with fuel for the depth of the body, while the
effect is a member of the set under `(target, key)`: the call completes, normally or by a
failure, adds exactly its own invocation to the trace, and leaves the closures, the stack and
the set under `(target, key)` as they were. -/
theorem callEffect_onlyReads (fuel : Nat) (target : Ref) (key : Key) (s : State) (e : EffectId)
    (body : Stmt) (he : s.effects[e]? = some body) (hro : body.onlyReads = true)
    (hfuel : body.depth ≤ fuel) (hmem : e ∈ (depsOf s target key).getD []) :
    callEffect (fuel + 1) e s ≠ .timeout ∧
    (callEffect (fuel + 1) e s).Holds (fun s' =>
      s'.calls = s.calls ++ [e] ∧ s'.effects = s.effects ∧
      s'.activeEffectStacks = s.activeEffectStacks ∧
      (depsOf s' target key).getD [] = (depsOf s target key).getD []) := by
  have h1 := (execStmt_quiet body fuel
    { s with activeEffectStacks := s.activeEffectStacks ++ [e]
             calls := s.calls ++ [e] } (noSetProp_of_onlyReads body hro) hfuel).1
  have h2 := execStmt_onlyReads (quietRun_readFrame target key)
    (fun s x v => quietRun_of_eq rfl rfl rfl rfl)
    (fun s v => quietRun_of_eq rfl rfl rfl rfl) body fuel
    { s with activeEffectStacks := s.activeEffectStacks ++ [e]
             calls := s.calls ++ [e] } hro
  have key1 : ∀ sq : State,
      QuietRun target key
        { s with activeEffectStacks := s.activeEffectStacks ++ [e]
                 calls := s.calls ++ [e] } sq →
      ({ sq with activeEffectStacks := sq.activeEffectStacks.dropLast } : State).calls =
          s.calls ++ [e] ∧
        ({ sq with activeEffectStacks := sq.activeEffectStacks.dropLast } : State).effects =
          s.effects ∧
        ({ sq with activeEffectStacks := sq.activeEffectStacks.dropLast } : State).activeEffectStacks =
          s.activeEffectStacks ∧
        (depsOf { sq with activeEffectStacks := sq.activeEffectStacks.dropLast } target key).getD [] =
          (depsOf s target key).getD [] := by
    intro sq hq
    obtain ⟨q1, q2, q3, q4⟩ := hq
    refine ⟨q1, q2, by simp [q3], ?_⟩
    exact q4 e (by simp) hmem
  simp only [callEffect, he, run]
  cases hr : execStmt fuel body
      { s with activeEffectStacks := s.activeEffectStacks ++ [e]
               calls := s.calls ++ [e] } with
  | ok u sq =>
    rw [hr] at h2
    exact ⟨by simp, key1 sq h2⟩
  | throw v sq =>
    rw [hr] at h2
    exact ⟨by simp, key1 sq h2⟩
  | timeout => exact absurd hr h1

theorem drop_of_getElem? {α : Type} (d : List α) (i : Nat) (e : α) (h : d[i]? = some e) :
    d.drop i = e :: d.drop (i + 1) := by
  induction d generalizing i with
  | nil => simp at h
  | cons a d ih =>
    cases i with
    | zero => simp at h; simp [h]
    | succ n => simp at h; simpa using ih n h

theorem getElem?_take_lt {α : Type} (d : List α) (i m : Nat) (h : i < m) :
    (d.take m)[i]? = d[i]? := by
  induction d generalizing i m with
  | nil => simp
  | cons a d ih =>
    cases m with
    | zero => omega
    | succ m =>
      cases i with
      | zero => simp
      | succ n => simpa using ih n m (by omega)

/-- The loop of `trigger` over a set `d` whose members all have bodies that only read, with
fuel for the deepest body and the length of the set: it completes; when it returns normally it
has invoked the members from position `i` on, each once, in order; when it ends by a failure
it has invoked them up to the member at some position `j`, whose run raised. -/
theorem forEach_onlyReads (target : Ref) (key : Key) (d : List EffectId) (D : Nat)
    (effects0 : List Stmt)
    (hbodies : ∀ e ∈ d, ∃ body, effects0[e]? = some body ∧ body.onlyReads = true ∧
      body.depth ≤ D) :
    ∀ (fuel i : Nat) (s : State), D + 2 + (d.length - i) ≤ fuel → s.effects = effects0 →
      (depsOf s target key).getD [] = d →
      (∃ s', forEach fuel i target key s = .ok () s' ∧ s'.calls = s.calls ++ d.drop i ∧
        s'.activeEffectStacks = s.activeEffectStacks ∧ s'.effects = s.effects ∧
        (depsOf s' target key).getD [] = d) ∨
      (∃ v s' j, i ≤ j ∧ j < d.length ∧ forEach fuel i target key s = .throw v s' ∧
        s'.calls = s.calls ++ (d.take (j + 1)).drop i ∧
        s'.activeEffectStacks = s.activeEffectStacks) := by
  intro fuel
  induction fuel with
  | zero => intro i s hf; omega
  | succ f ih =>
    intro i s hf heff hd
    cases hi : d[i]? with
    | none =>
      left
      have hfe : forEach (f + 1) i target key s = .ok () s := by
        simp only [forEach, hd, hi]
      rw [hfe]
      have hlen : d.length ≤ i := by
        by_contra hlt
        have := List.getElem?_eq_getElem (Nat.lt_of_not_le hlt)
        rw [this] at hi; cases hi
      exact ⟨s, rfl, by simp [List.drop_eq_nil_of_le hlen], rfl, rfl, hd⟩
    | some e =>
      have hlt : i < d.length := by
        by_contra hge
        rw [List.getElem?_eq_none (Nat.le_of_not_lt hge)] at hi; cases hi
      have hmem : e ∈ d := List.getElem?_mem hi
      obtain ⟨body, hb, hro, hdepth⟩ := hbodies e hmem
      obtain ⟨f1, rfl⟩ : ∃ f1, f = f1 + 1 := ⟨f - 1, by omega⟩
      have hc := callEffect_onlyReads f1 target key s e body (by rw [heff]; exact hb) hro
        (by omega) (by rw [hd]; exact hmem)
      cases hr : callEffect (f1 + 1) e s with
      | ok u s1 =>
        rw [hr] at hc
        obtain ⟨c1, c2, c3, c4⟩ := hc.2
        have hfe : forEach (f1 + 1 + 1) i target key s = forEach (f1 + 1) (i + 1) target key s1 := by
          simp only [forEach, hd, hi, hr]
        rw [hfe]
        rcases ih (i + 1) s1 (by omega) (by rw [c2, heff]) (by rw [c4, hd]) with
          ⟨s', e1, e2, e3, e4, e5⟩ | ⟨v, s', j, j1, j2, e1, e2, e3⟩
        · left
          refine ⟨s', e1, ?_, by rw [e3, c3], by rw [e4, c2], e5⟩
          rw [e2, c1, drop_of_getElem? d i e hi]
          simp
        · right
          refine ⟨v, s', j, by omega, j2, e1, ?_, by rw [e3, c3]⟩
          rw [e2, c1, drop_of_getElem? (d.take (j + 1)) i e
            (by rw [getElem?_take_lt d i (j + 1) (by omega)]; exact hi)]
          simp
      | throw v s1 =>
        rw [hr] at hc
        obtain ⟨c1, c2, c3, c4⟩ := hc.2
        have hfe : forEach (f1 + 1 + 1) i target key s = .throw v s1 := by
          simp only [forEach, hd, hi, hr]
        right
        refine ⟨v, s1, i, Nat.le_refl i, hlt, hfe, ?_, c3⟩
        rw [c1, drop_of_getElem? (d.take (i + 1)) i e
          (by rw [getElem?_take_lt d i (i + 1) (by omega)]; exact hi)]
        simp
      | timeout => exact absurd hr hc.1

/-- Claim C15, as the code has it: let the set under `(target, key)` be `d`, a list without
repetition of closures whose bodies only read, and let the fuel cover the deepest of them and
the length of `d`.  Then `trigger(target, type, key)` completes.  Either it returns normally,
having invoked the members of `d`, each exactly once and in insertion order, and nothing
else; or the run of the member at some position `j` raised, the members up to it have been
invoked once each, the later ones not at all, and the failure is handed to the caller.  The
active-effect stack is as before in both cases.  The `type` argument is never consulted, and
where the target has no table or the key no set `trigger` returns at once with the state
unchanged. -/
theorem trigger_runs_dependents (fuel D : Nat) (s : State) (target : Ref) (type : String)
    (key : Key) (d : List EffectId) (hd : depsOf s target key = some d) (hnodup : d.Nodup)
    (hbodies : ∀ e ∈ d, ∃ body, s.effects[e]? = some body ∧ body.onlyReads = true ∧
      body.depth ≤ D)
    (hfuel : D + 2 + d.length ≤ fuel) :
    ((∃ s', trigger (forEach fuel 0) target type key s = .ok () s' ∧
        s'.calls = s.calls ++ d ∧ s'.activeEffectStacks = s.activeEffectStacks) ∨
      (∃ v s' j, j < d.length ∧ trigger (forEach fuel 0) target type key s = .throw v s' ∧
        s'.calls = s.calls ++ d.take (j + 1) ∧
        s'.activeEffectStacks = s.activeEffectStacks)) ∧
    (∀ e ∈ d, d.count e = 1) ∧
    (∀ (loop : Ref → Key → State → Res Unit) (type2 : String) (s0 : State),
      trigger loop target type key s0 = trigger loop target type2 key s0) ∧
    (∀ (loop : Ref → Key → State → Res Unit) (s0 : State),
      depsOf s0 target key = none → trigger loop target type key s0 = .ok () s0) := by
  refine ⟨?_, fun e he => List.count_eq_one_of_mem hnodup he, fun _ _ _ => rfl, ?_⟩
  · rw [trigger_of_deps _ hd]
    rcases forEach_onlyReads target key d D s.effects hbodies fuel 0 s (by omega) rfl
        (by rw [hd]; rfl) with
      ⟨s', e1, e2, e3, _, _⟩ | ⟨v, s', j, _, j2, e1, e2, e3⟩
    · left
      exact ⟨s', e1, by simpa using e2, e3⟩
    · right
      exact ⟨v, s', j, j2, e1, by simpa using e2, e3⟩
  · intro loop s0 h0
    unfold depsOf at h0
    unfold trigger
    cases hq : Assoc.get s0.targetMap target with
    | none => rfl
    | some dm =>
      rw [hq] at h0
      simp only [Option.some_bind] at h0
      simp [h0]

/-- Witness for claim C15: `trigger(0, 'set', c)` in `raiseInTriggerMid`, where the set under
`(0, c)` is `[0, 1]` and both bodies only read. -/
theorem trigger_runs_dependents_witness :
    depsOf raiseInTriggerMid 0 "c" = some [0, 1] ∧
    ((∃ s', trigger (forEach 6 0) 0 "set" "c" raiseInTriggerMid = .ok () s' ∧
        s'.calls = raiseInTriggerMid.calls ++ [0, 1] ∧
        s'.activeEffectStacks = raiseInTriggerMid.activeEffectStacks) ∨
      (∃ v s' j, j < [0, 1].length ∧
        trigger (forEach 6 0) 0 "set" "c" raiseInTriggerMid = .throw v s' ∧
        s'.calls = raiseInTriggerMid.calls ++ [0, 1].take (j + 1) ∧
        s'.activeEffectStacks = raiseInTriggerMid.activeEffectStacks)) :=
  ⟨by decide,
    (trigger_runs_dependents 6 2 raiseInTriggerMid 0 "set" "c" [0, 1] (by decide) (by decide)
      (by
        intro e he
        simp only [List.mem_cons, List.mem_singleton, List.not_mem_nil, or_false] at he
        rcases he with rfl | rfl
        · exact ⟨_, rfl, rfl, by decide⟩
        · exact ⟨_, rfl, rfl, by decide⟩)
      (by decide)).1⟩

/-! ## Sets without repetition -/
theorem keepsNodup_of_eq {s s' : State} (h : s'.targetMap = s.targetMap) : KeepsNodup s s' := by
  intro hs t k
  rw [depsOf_congr h]
  exact hs t k

theorem keepsNodup_frame : Frame KeepsNodup where
  refl := fun s => keepsNodup_of_eq rfl
  trans := fun _ _ _ h1 h2 h => h2 (h1 h)
  alloc := fun _ _ => keepsNodup_of_eq rfl
  track := by
    intro s target key hs t k
    by_cases hpair : target = t ∧ key = k
    · obtain ⟨h1, h2⟩ := hpair
      subst h1; subst h2
      cases hq : s.activeEffectStacks.getLast? with
      | none => simpa [track, hq] using hs target key
      | some e =>
        rw [depsOf_track_self hq]
        simp only [Option.getD_some]
        split
        · exact hs target key
        · rename_i hnot
          have hmem : e ∉ (depsOf s target key).getD [] := by simpa using hnot
          exact List.Nodup.append (hs target key) (List.nodup_singleton e)
            (by
              intro x hx hx2
              rw [List.mem_singleton] at hx2
              subst hx2
              exact hmem hx)
    · have hne : target ≠ t ∨ key ≠ k := by
        by_contra hcon
        simp only [not_or, not_not] at hcon
        exact hpair hcon
      rw [depsOf_track_ne s hne]
      exact hs t k
  create := fun _ _ => keepsNodup_of_eq (by simp)
  store := fun _ _ _ _ => keepsNodup_of_eq rfl
  assign := fun _ _ _ => keepsNodup_of_eq rfl
  log := fun _ _ => keepsNodup_of_eq rfl
  closure := fun _ _ => keepsNodup_of_eq rfl
  bracket := by
    intro s effect s2 h hs
    exact h hs

/-- In every state a program reaches from the state of a freshly loaded module, the sets of the
dependency graph have no repeated member. -/
theorem depsNodup_of_run (fuel : Nat) (prog : Stmt) :
    (execStmt fuel prog State.empty).Holds DepsNodup :=
  ((keepsNodup_frame.exec fuel).1 prog State.empty).mono
    (fun _ h => h (fun _ _ => by simp [depsOf, State.empty, Assoc.get]))

/-! ## An effect that writes what it reads -/
theorem isObject_of_jsPlus {v x v1 : Val} (h : jsPlus v x = some v1) : isObject v = false := by
  cases v <;> first | rfl | (simp [jsPlus] at h)

/-- One run of the body `p.a = p.a + 1` while `e` is on top of the stack: it reads `a`,
records `e` and offers the incremented value `v1` to the target.  When `v1` is `!==` the
value read it then runs the loop over the set under `(o, a)`, which holds `e` alone;
otherwise it returns at once. -/
theorem selfIncrement_step (fuel : Nat) {p o : Ref} {a : Key} {e : EffectId} {w : Bool}
    {v v1 : Val} {s : State}
    (h : SelfLoop p o a e w v s) (htop : s.activeEffectStacks.getLast? = some e)
    (hplus : jsPlus v (.num 1) = some v1) :
    ∃ s3, SelfLoop p o a e w (if w then v1 else v) s3 ∧ depsOf s3 o a = some [e] ∧
      s3.activeEffectStacks = s.activeEffectStacks ∧ s3.calls = s.calls ∧
      s3.console = s.console ∧
      execStmt (fuel + 1) (selfIncrement p a) s =
        if strictNe v v1 then
          match forEach fuel 0 o a s3 with
          | .ok _ s5 => .ok () (consoleLog (.str "修改原有的属性") s5)
          | .throw x s5 => .throw x s5
          | .timeout => .timeout
        else .ok () s3 := by
  obtain ⟨hp, ⟨obj, ho, hw, ha⟩, he, hdeps⟩ := h
  have hread : Reflect.get s o a = v := by simp [Reflect.get, ownProps, ho, ha]
  have hown : isOwnProperty s o a = true := by simp [isOwnProperty, ownProps, ho, Assoc.has, ha]
  have hd : depsOf (track o a s) o a = some [e] := by
    rw [depsOf_track_self htop]
    rcases hdeps with h0 | h1
    · rw [h0]; simp
    · rw [h1]; simp
  have hd3 : depsOf (Reflect.set (track o a s) o a v1).2 o a = some [e] := by
    rw [depsOf_congr (reflectSet_targetMap _ _ _ _), hd]
  have hacc : Reflect.accepts obj a = w := by
    simp [Reflect.accepts, Assoc.has, ha, hw]
  refine ⟨(Reflect.set (track o a s) o a v1).2, ⟨?_, ?_, ?_, ?_⟩, hd3, by simp, by simp,
    by simp, ?_⟩
  · exact reflectSet_heap_proxy (by rw [track_heap]; exact hp) _ _ _
  · have hlt := lt_length_of_getElem? ho
    cases w with
    | true =>
      refine ⟨{ obj with props := Assoc.set obj.props a v1 }, ?_, hw, Assoc.get_set_self _ _ _⟩
      simp [Reflect.set, ho, hacc, hlt]
    | false =>
      refine ⟨obj, ?_, hw, ha⟩
      simp [Reflect.set, ho, hacc]
  · rw [reflectSet_effects, track_effects]; exact he
  · right; rw [hd3]; rfl
  · have hget : getProp (.ref p) a s = .ok v (track o a s) := by
      rw [getProp_proxy hp, hread]
      simp [reactive, createReactiveObject, isObject_of_jsPlus hplus]
    have hp2 : (track o a s).heap[p]? = some (.proxy o) := by rw [track_heap]; exact hp
    have hread2 : Reflect.get (track o a s) o a = v := by
      rw [reflectGet_congr (track_heap _ _ _)]; exact hread
    have hown2 : isOwnProperty (Reflect.set (track o a s) o a v1).2 o a = true :=
      isOwnProperty_reflectSet v1 (by
        unfold isOwnProperty ownProps at hown ⊢
        rw [track_heap]; exact hown)
    have htrig : trigger (forEach fuel 0) o "set" a (Reflect.set (track o a s) o a v1).2 =
        forEach fuel 0 o a (Reflect.set (track o a s) o a v1).2 :=
      trigger_of_deps _ hd3 _
    simp only [selfIncrement, execStmt, evalExpr, hget, hplus, setProp, hp2, handles.set, hread2,
      hown2, htrig]
    by_cases hne : strictNe v v1 = true
    · simp only [hne]
      cases forEach fuel 0 o a (Reflect.set (track o a s) o a v1).2 <;> simp
    · simp [hne]

theorem SelfLoop.entered {p o : Ref} {a : Key} {e : EffectId} {w : Bool} {v : Val} {s : State}
    (h : SelfLoop p o a e w v s) :
    SelfLoop p o a e w v
      { s with activeEffectStacks := s.activeEffectStacks ++ [e]
               calls := s.calls ++ [e] } := h

theorem SelfLoop.transfer {p o : Ref} {a : Key} {e : EffectId} {w : Bool} {v : Val}
    {s s' : State} (h : SelfLoop p o a e w v s) (h1 : s'.heap = s.heap)
    (h2 : s'.effects = s.effects) (h3 : s'.targetMap = s.targetMap) :
    SelfLoop p o a e w v s' := by
  unfold SelfLoop at *
  rw [h1, h2, depsOf_congr h3]
  exact h

theorem roundNat_of_le {m : Nat} (h : m ≤ 2 ^ 53) : roundNat m = m := by
  rcases Nat.lt_or_eq_of_le h with h1 | h1
  · unfold roundNat; rw [if_pos h1]
  · subst h1; decide!

theorem toDouble_of_le {z : Int} (h : z.natAbs ≤ 2 ^ 53) : toDouble z = .num z := by
  have hlt : ¬ (2 ^ 1024 ≤ z.natAbs) := by
    intro h2
    have h3 : 2 ^ 1024 ≤ 2 ^ 53 := Nat.le_trans h2 h
    exact absurd ((Nat.pow_le_pow_iff_right (Nat.le_refl 2)).1 h3) (by decide)
  unfold toDouble
  rw [roundNat_of_le h, if_neg hlt]
  congr 1
  split <;> omega

theorem jsPlus_num_one {n : Int} (h : (n + 1).natAbs ≤ 2 ^ 53) :
    jsPlus (.num n) (.num 1) = some (.num (n + 1)) := by
  simp only [jsPlus, toNumber, numAdd, toDouble_of_le h]

/-- At `2^53` the increment is lost in the rounding. -/
theorem jsPlus_limit : jsPlus (.num (2 ^ 53)) (.num 1) = some (.num (2 ^ 53)) := by decide!

/-- A call of the self-incrementing effect whose increment `v1` is `!==` the value read calls
the same effect again, from inside its run, in a state whose stack is one entry longer, and
hands on what that call and the rest of the loop answer. -/
theorem selfLoop_call (fuel : Nat) {p o : Ref} {a : Key} {e : EffectId} {w : Bool}
    {v v1 : Val} {s : State} (h : SelfLoop p o a e w v s)
    (hplus : jsPlus v (.num 1) = some v1) (hne : strictNe v v1 = true) :
    ∃ s3, SelfLoop p o a e w (if w then v1 else v) s3 ∧
      s3.activeEffectStacks = s.activeEffectStacks ++ [e] ∧
      s3.calls = s.calls ++ [e] ∧ depsOf s3 o a = some [e] ∧
      callEffect (fuel + 3) e s =
        run (fun _ =>
          match (match callEffect fuel e s3 with
                 | .ok _ s4 => forEach fuel 1 o a s4
                 | .throw x s4 => .throw x s4
                 | .timeout => .timeout) with
          | .ok _ s5 => .ok () (consoleLog (.str "修改原有的属性") s5)
          | .throw x s5 => .throw x s5
          | .timeout => .timeout) e s := by
  obtain ⟨s3, h3, hd, hstk, hcalls, _, hexec⟩ :=
    selfIncrement_step (fuel + 1) h.entered (by simp) hplus
  refine ⟨s3, h3, hstk, hcalls, hd, ?_⟩
  have hfe : forEach (fuel + 1) 0 o a s3 =
      match callEffect fuel e s3 with
      | .ok _ s4 => forEach fuel 1 o a s4
      | .throw x s4 => .throw x s4
      | .timeout => .timeout := by
    simp only [forEach, hd, Option.getD_some, List.getElem?_cons_zero]
    cases callEffect fuel e s3 <;> rfl
  rw [hne, if_pos rfl, hfe] at hexec
  simp only [callEffect, h.2.2.1, run, hexec]

/-- A call of the self-incrementing effect whose increment is not `!==` the value read
returns after that one run: the write triggers nothing. -/
theorem selfLoop_rest (fuel : Nat) {p o : Ref} {a : Key} {e : EffectId} {w : Bool}
    {v v1 : Val} {s : State} (h : SelfLoop p o a e w v s)
    (hplus : jsPlus v (.num 1) = some v1) (hne : strictNe v v1 = false) :
    ∃ s', callEffect (fuel + 2) e s = .ok () s' ∧ s'.calls = s.calls ++ [e] ∧
      s'.activeEffectStacks = s.activeEffectStacks ∧ s'.console = s.console ∧
      SelfLoop p o a e w (if w then v1 else v) s' ∧ depsOf s' o a = some [e] := by
  obtain ⟨s3, h3, hd, hstk, hcalls, hcon, hexec⟩ :=
    selfIncrement_step fuel h.entered (by simp) hplus
  rw [hne] at hexec
  simp only [Bool.false_eq_true, if_false] at hexec
  refine ⟨{ s3 with activeEffectStacks := s3.activeEffectStacks.dropLast },
    by simp only [callEffect, h.2.2.1, run, hexec], hcalls, by simp [hstk], hcon,
    h3.transfer rfl rfl rfl, ?_⟩
  rw [← hd]
  exact depsOf_congr rfl _ _

theorem NeverSettles.next {w : Bool} {v : Val} (h : NeverSettles w v) :
    ∃ v1, jsPlus v (.num 1) = some v1 ∧ strictNe v v1 = true ∧
      NeverSettles w (if w then v1 else v) := by
  rcases h with rfl | rfl | ⟨rfl, v1, h1, h2⟩
  · exact ⟨.nan, rfl, rfl, by cases w <;> exact Or.inl rfl⟩
  · refine ⟨.nan, rfl, rfl, ?_⟩
    cases w
    · exact Or.inr (Or.inl rfl)
    · exact Or.inl rfl
  · exact ⟨v1, h1, h2, Or.inr (Or.inr ⟨rfl, v1, h1, h2⟩)⟩

/-- From a value that never settles, a call of the self-incrementing effect exhausts every
amount of fuel. -/
theorem selfLoop_timeout {p o : Ref} {a : Key} {e : EffectId} {w : Bool} :
    ∀ (fuel : Nat) (v : Val) (s : State), NeverSettles w v → SelfLoop p o a e w v s →
      callEffect fuel e s = .timeout := by
  intro fuel
  induction fuel using Nat.strong_induction_on with
  | _ fuel ih =>
    intro v s hv h
    obtain ⟨v1, hplus, hne, hnext⟩ := hv.next
    match fuel, ih with
    | 0, _ => simp [callEffect]
    | 1, _ => simp [callEffect, h.2.2.1, run, execStmt]
    | 2, _ =>
      obtain ⟨s3, _, _, _, _, _, hexec⟩ := selfIncrement_step 0 h.entered (by simp) hplus
      rw [hne] at hexec
      simp only [forEach, if_true] at hexec
      simp only [callEffect, h.2.2.1, run, hexec]
    | n + 3, ih =>
      obtain ⟨s3, h3, _, _, _, hcall⟩ := selfLoop_call n h hplus hne
      rw [hcall, ih n (by omega) _ s3 hnext h3]
      rfl

/-- From an integer `2^53 - k` on a writable target, a call of the self-incrementing effect
with fuel for `k` nested calls returns normally: the runs nest `k` deep, the innermost reads
`2^53`, whose increment is lost in the rounding, and every run returns in turn. -/
theorem selfLoop_returns {p o : Ref} {a : Key} {e : EffectId} :
    ∀ (k fuel : Nat) (s : State), k ≤ 2 ^ 54 → 3 * k + 2 ≤ fuel →
      SelfLoop p o a e true (.num (2 ^ 53 - (k : Int))) s →
      ∃ s', callEffect fuel e s = .ok () s' ∧ s'.calls = s.calls ++ List.replicate (k + 1) e ∧
        s'.activeEffectStacks = s.activeEffectStacks ∧
        SelfLoop p o a e true (.num (2 ^ 53)) s' ∧ depsOf s' o a = some [e] := by
  intro k
  induction k with
  | zero =>
    intro fuel s _ hf h
    obtain ⟨f, rfl⟩ : ∃ f, fuel = f + 2 := ⟨fuel - 2, by omega⟩
    have hv : ((2 : Int) ^ 53 - ((0 : Nat) : Int)) = 2 ^ 53 := by simp
    rw [hv] at h
    obtain ⟨s', h1, h2, h3, _, h5, h6⟩ :=
      selfLoop_rest f h jsPlus_limit (strictNe_self (by simp))
    exact ⟨s', h1, by simpa using h2, h3, by simpa using h5, h6⟩
  | succ k ih =>
    intro fuel s hk hf h
    obtain ⟨f, rfl⟩ : ∃ f, fuel = f + 3 := ⟨fuel - 3, by omega⟩
    have hplus : jsPlus (.num (2 ^ 53 - ((k + 1 : Nat) : Int))) (.num 1) =
        some (.num (2 ^ 53 - (k : Int))) := by
      have hle : (((2 : Int) ^ 53 - ((k + 1 : Nat) : Int)) + 1).natAbs ≤ 2 ^ 53 := by omega
      have heq : ((2 : Int) ^ 53 - ((k + 1 : Nat) : Int)) + 1 = 2 ^ 53 - (k : Int) := by
        push_cast; ring
      rw [jsPlus_num_one hle, heq]
    have hne : strictNe (.num (2 ^ 53 - ((k + 1 : Nat) : Int))) (.num (2 ^ 53 - (k : Int))) =
        true := by
      simp only [strictNe, decide_eq_true_eq, ne_eq, Val.num.injEq]
      push_cast
      omega
    obtain ⟨s3, h3, hstk, hcalls, hd, hcall⟩ := selfLoop_call f h hplus hne
    simp only [if_true] at h3
    obtain ⟨s4, e1, e2, e3, e4, e5⟩ := ih f s3 (by omega) (by omega) h3
    obtain ⟨f1, rfl⟩ : ∃ f1, f = f1 + 1 := ⟨f - 1, by omega⟩
    have hfe : forEach (f1 + 1) 1 o a s4 = .ok () s4 := by
      simp [forEach, e5]
    rw [e1] at hcall
    simp only [hfe, run] at hcall
    refine ⟨_, hcall, ?_, ?_, e4.transfer rfl rfl rfl, ?_⟩
    · simp only [consoleLog]
      rw [e2, hcalls, List.append_assoc]
      rfl
    · simp only [consoleLog]
      rw [e3, hstk]
      simp
    · rw [← e5]
      exact depsOf_congr rfl _ _

theorem SelfLoop.reads {p o : Ref} {a : Key} {e : EffectId} {w : Bool} {v : Val} {s : State}
    (h : SelfLoop p o a e w v s) : Reflect.get s o a = v := by
  obtain ⟨_, ⟨obj, ho, _, ha⟩, _, _⟩ := h
  simp [Reflect.get, ownProps, ho, ha]

/-- Counterexample to claim C19 as stated.  On `p = reactive(obj)` with `obj.a` equal to
`2^53`, `effect(() => { p.a = p.a + 1 })` returns after a single run: `2^53 + 1` is `2^53`, so
the write changes nothing and triggers nothing.  On `p = reactive(obj)` with `obj.a` equal to
`0`, the claim's own example, the call returns as well, after `2^53 + 1` runs, the last of
which reads `2^53`: the nesting depth does not exceed every bound. -/
theorem self_write_returns :
    effect (callEffect 10) (selfIncrement 1 "a") limitState =
      .ok ()
        { limitState with
          targetMap := [(0, [("a", [0])])]
          effects := [selfIncrement 1 "a"]
          calls := [0] } ∧
    ∃ s', effect (callEffect (3 * 2 ^ 53 + 2)) (selfIncrement 1 "a") zeroState = .ok () s' ∧
      s'.calls = List.replicate (2 ^ 53 + 1) 0 ∧ Reflect.get s' 0 "a" = .num (2 ^ 53) := by
  refine ⟨by decide!, ?_⟩
  have h0 : SelfLoop 1 0 "a" 0 true (.num (2 ^ 53 - ((2 ^ 53 : Nat) : Int)))
      { zeroState with effects := zeroState.effects ++ [selfIncrement 1 "a"] } := by
    have hz : ((2 : Int) ^ 53 - ((2 ^ 53 : Nat) : Int)) = 0 := by norm_num
    rw [hz]
    exact ⟨rfl, ⟨_, rfl, rfl, rfl⟩, rfl, Or.inl rfl⟩
  obtain ⟨s', h1, h2, _, h4, _⟩ :=
    selfLoop_returns (2 ^ 53) (3 * 2 ^ 53 + 2) _ (Nat.pow_le_pow_right (by decide) (by decide))
      (Nat.le_refl _) h0
  exact ⟨s', h1, h2, h4.reads⟩

/-- Claim C19, as the code has it: let `p` be a wrapper of an ordinary object `o` whose own
property `a` holds `v`, in a state where no effect is recorded under `(o, a)`, and register
`effect(() => { p.a = p.a + 1 })`.  There is no recursion guard: every call of the effect
that reads a value whose increment is `!==` it calls the same effect again from inside its
run, before anything is popped, with the active-effect stack one entry longer.  Only the
values end the nesting.  When `v` is `NaN` or `undefined`, or the target rejects the write and
the increment of `v` is `!== v`, the call exhausts every amount of fuel: `effect` does not
terminate.  When `v` is an integer `2^53 - k` on a writable target, the runs nest `k` deep,
the innermost reads `2^53`, whose increment is `2^53` again, and `effect` returns after
`k + 1` runs with `a` equal to `2^53`. -/
theorem self_write_nests (s : State) (p o : Ref) (obj : RawObj) (a : Key) (v : Val)
    (hp : s.heap[p]? = some (.proxy o)) (ho : s.heap[o]? = some (.raw obj))
    (ha : Assoc.get obj.props a = some v) (hdeps : (depsOf s o a).getD [] = []) :
    (∀ (fuel : Nat) (w : Bool) (u u1 : Val) (s1 : State),
      SelfLoop p o a s.effects.length w u s1 → jsPlus u (.num 1) = some u1 →
      strictNe u u1 = true →
      ∃ s3, SelfLoop p o a s.effects.length w (if w then u1 else u) s3 ∧
        s3.activeEffectStacks = s1.activeEffectStacks ++ [s.effects.length] ∧
        callEffect (fuel + 3) s.effects.length s1 =
          run (fun _ =>
            match (match callEffect fuel s.effects.length s3 with
                   | .ok _ s4 => forEach fuel 1 o a s4
                   | .throw x s4 => .throw x s4
                   | .timeout => .timeout) with
            | .ok _ s5 => .ok () (consoleLog (.str "修改原有的属性") s5)
            | .throw x s5 => .throw x s5
            | .timeout => .timeout) s.effects.length s1) ∧
    SelfLoop p o a s.effects.length obj.writable v
      { s with effects := s.effects ++ [selfIncrement p a] } ∧
    (NeverSettles obj.writable v →
      ∀ fuel, effect (callEffect fuel) (selfIncrement p a) s = .timeout) ∧
    (∀ k : Nat, k ≤ 2 ^ 54 → v = .num (2 ^ 53 - (k : Int)) → obj.writable = true →
      ∀ fuel, 3 * k + 2 ≤ fuel →
      ∃ s', effect (callEffect fuel) (selfIncrement p a) s = .ok () s' ∧
        s'.calls = s.calls ++ List.replicate (k + 1) s.effects.length ∧
        s'.activeEffectStacks = s.activeEffectStacks ∧
        Reflect.get s' o a = .num (2 ^ 53)) := by
  have h0 : SelfLoop p o a s.effects.length obj.writable v
      { s with effects := s.effects ++ [selfIncrement p a] } :=
    ⟨hp, ⟨obj, ho, rfl, ha⟩, by simp, Or.inl hdeps⟩
  refine ⟨?_, h0, ?_, ?_⟩
  · intro fuel w u u1 s1 h1 hplus hne
    obtain ⟨s3, h3, hstk, _, _, hcall⟩ := selfLoop_call fuel h1 hplus hne
    exact ⟨s3, h3, hstk, hcall⟩
  · intro hv fuel
    rw [effect_eq_call]
    exact selfLoop_timeout fuel v _ hv h0
  · intro k hk hvk hw fuel hf
    rw [effect_eq_call]
    rw [hvk, hw] at h0
    obtain ⟨s', h1, h2, h3, h4, _⟩ := selfLoop_returns k fuel _ hk hf h0
    exact ⟨s', h1, h2, h3, h4.reads⟩

/-- Witness for claim C19: the effect `() => { p.a = p.a + 1 }` on the wrapper of
`wrappedState`, where `a` holds `1`: the call returns after `2^53` runs. -/
theorem self_write_nests_witness :
    wrappedState.heap[1]? = some (.proxy 0) ∧
    (depsOf wrappedState 0 "a").getD [] = [] ∧
    ∀ fuel, 3 * (2 ^ 53 - 1) + 2 ≤ fuel →
      ∃ s', effect (callEffect fuel) (selfIncrement 1 "a") wrappedState = .ok () s' ∧
        s'.calls = wrappedState.calls ++ List.replicate (2 ^ 53 - 1 + 1) wrappedState.effects.length ∧
        s'.activeEffectStacks = wrappedState.activeEffectStacks ∧
        Reflect.get s' 0 "a" = .num (2 ^ 53) :=
  ⟨by decide, by decide,
    (self_write_nests wrappedState 1 0 ⟨[("a", .num 1)], true, true, true⟩ "a" (.num 1)
      (by decide) (by decide) (by decide) (by decide)).2.2.2 (2 ^ 53 - 1)
      (Nat.le_trans (Nat.sub_le _ _) (Nat.pow_le_pow_right (by decide) (by decide)))
      (by
        have hz : ((2 : Int) ^ 53 - ((2 ^ 53 - 1 : Nat) : Int)) = 1 := by norm_num
        rw [hz])
      rfl⟩

/-! ## Writes at any key -/
/-- Counterexample to claim C18 as stated, on the extensible, writable object of
`wrappedState` (its only own property is `a`), with a `trigger` that records its `type`
argument on the console.  The write `p.__proto__ = 5` succeeds (the inherited setter returns,
the flag is `true`) but creates no own property, so the trap takes the `'add'` branch.  The
write `p.hasOwnProperty = 1` stores the value, and the own-property test then calls the number
`1`: `TypeError`, and no trigger.  The write `p.toString = undefined` adds a new key with the
value `undefined` and triggers, because the value read before the assignment is the inherited
method. -/
theorem write_at_inherited_key :
    AnyKey.handles.set (fun _ type _ s => .ok () (consoleLog (.str type) s)) 0 "__proto__"
        (.num 5) wrappedState =
      some (.ok true { wrappedState with console := [.str "add", .str "设置新的属性"] }) ∧
    AnyKey.handles.set (fun _ type _ s => .ok () (consoleLog (.str type) s)) 0 "hasOwnProperty"
        (.num 1) wrappedState =
      some (.throw (.str "TypeError")
        { wrappedState with
          heap := [.raw ⟨[("a", .num 1), ("hasOwnProperty", .num 1)], true, true, true⟩,
                   .proxy 0] }) ∧
    AnyKey.handles.set (fun _ type _ s => .ok () (consoleLog (.str type) s)) 0 "toString"
        .undefined wrappedState =
      some (.ok true
        { wrappedState with
          heap := [.raw ⟨[("a", .num 1), ("toString", .undefined)], true, true, true⟩, .proxy 0]
          console := [.str "set", .str "修改原有的属性"] }) := by
  decide!

/-- On an ordinary target that does not shadow `hasOwnProperty`, at a key that is an own
property or is not the name of a member of `Object.prototype`, the `set` trap at any key is
the `set` trap of the plain model. -/
theorem anyKey_handlesSet_eq (trigger : Ref → String → Key → State → Res Unit) (s : State)
    (target : Ref) (obj : RawObj) (k : Key) (v : Val)
    (ho : s.heap[target]? = some (.raw obj))
    (hshadow : Assoc.get obj.props "hasOwnProperty" = none)
    (hk : Assoc.has obj.props k = true ∨ k ∉ AnyKey.members) :
    AnyKey.handles.set trigger target k v s = some (handles.set trigger target k v s) := by
  have hne : k ≠ "hasOwnProperty" := by
    rintro rfl
    rcases hk with h | h
    · simp [Assoc.has, hshadow] at h
    · exact h (by decide)
  have hprops : ownProps s target = obj.props := by simp [ownProps, ho]
  have hset : AnyKey.Reflect.set s target k v =
      .done (Reflect.set s target k v).1 (Reflect.set s target k v).2 := by
    unfold AnyKey.Reflect.set
    simp only [ho]
    rw [if_neg]
    rintro ⟨rfl, h2⟩
    rcases hk with h | h
    · rw [h] at h2; cases h2
    · exact h (by decide)
  have htest : AnyKey.isOwnProperty (Reflect.set s target k v).2 target k =
      .ok (isOwnProperty (Reflect.set s target k v).2 target k) := by
    have hnone : Assoc.get (ownProps (Reflect.set s target k v).2 target) "hasOwnProperty" =
        none := by
      rw [ownProps_reflectSet, hprops]
      split
      · rw [Assoc.get_set_ne _ _ hne]; exact hshadow
      · exact hshadow
    simp only [AnyKey.isOwnProperty, hnone, isOwnProperty]
  have hget : AnyKey.Reflect.get s target k = .val (Reflect.get s target k) := by
    unfold AnyKey.Reflect.get Reflect.get
    rw [hprops]
    cases hq : Assoc.get obj.props k with
    | some x => rfl
    | none =>
      have hmem : k ∉ AnyKey.members := by
        rcases hk with h | h
        · simp [Assoc.has, hq] at h
        · exact h
      have hproto : k ≠ "__proto__" := by
        rintro rfl; exact hmem (by decide)
      simp [hproto, hmem]
  unfold AnyKey.handles.set handles.set
  simp only [hset, htest, hget, AnyKey.differs]
  cases isOwnProperty (Reflect.set s target k v).2 target k with
  | false =>
    simp only [Bool.not_false, if_true]
    cases trigger target "add" k (Reflect.set s target k v).2 <;> rfl
  | true =>
    simp only [Bool.not_true, Bool.false_eq_true, if_false]
    cases strictNe (Reflect.get s target k) v with
    | false => rfl
    | true =>
      simp only [if_true]
      cases trigger target "set" k (Reflect.set s target k v).2 <;> rfl

/-- Claim C18, as the code has it: take an ordinary target that is extensible, whose
properties are writable and which has no own property named `hasOwnProperty`, and a key `k`
that is an own property of the target or is not the name of a member of `Object.prototype`.
Then the `set` trap, for every `trigger` it is given, stores `v` under `k`, and then: when the
value read as `target[k]` before the assignment (`undefined` for an absent key) is `!== v` it
calls `trigger(target, 'set', k)` on the updated state and logs the modification line;
otherwise it calls nothing and returns `true` at once.  The `'add'` branch is not taken in
either case, whether or not `k` was an own property before; in particular adding such a key
with the value `undefined` calls no `trigger`. -/
theorem write_trigger_condition (trigger : Ref → String → Key → State → Res Unit) (s : State)
    (target : Ref) (obj : RawObj) (k : Key) (v : Val)
    (ho : s.heap[target]? = some (.raw obj))
    (hext : obj.extensible = true) (hwr : obj.writable = true)
    (hshadow : Assoc.get obj.props "hasOwnProperty" = none)
    (hk : Assoc.has obj.props k = true ∨ k ∉ AnyKey.members) :
    AnyKey.handles.set trigger target k v s =
      some (if strictNe (Reflect.get s target k) v then
        match trigger target "set" k
            { s with heap := s.heap.set target (.raw { obj with props := Assoc.set obj.props k v }) } with
        | .ok _ s2 => .ok true (consoleLog (.str "修改原有的属性") s2)
        | .throw e s2 => .throw e s2
        | .timeout => .timeout
      else
        .ok true
          { s with heap := s.heap.set target (.raw { obj with props := Assoc.set obj.props k v }) }) ∧
    (Assoc.get obj.props k = none →
      Reflect.get s target k = .undefined ∧
      AnyKey.handles.set trigger target k .undefined s =
        some (.ok true
          { s with
            heap := s.heap.set target (.raw { obj with props := obj.props ++ [(k, .undefined)] }) })) := by
  have hacc : Reflect.accepts obj k = true := by
    unfold Reflect.accepts; split <;> assumption
  refine ⟨?_, ?_⟩
  · rw [anyKey_handlesSet_eq trigger s target obj k v ho hshadow hk,
      handlesSet_accepted trigger s target obj k v ho hacc]
  · intro hnone
    have hold : Reflect.get s target k = .undefined := by
      simp [Reflect.get, ownProps, ho, hnone]
    refine ⟨hold, ?_⟩
    rw [anyKey_handlesSet_eq trigger s target obj k .undefined ho hshadow hk,
      handlesSet_accepted trigger s target obj k .undefined ho hacc, hold,
      Assoc.set_of_get_none _ _ hnone]
    rfl

/-- Witness for claim C18: the write `p.b = 2` of a new key on the extensible, writable object
of `wrappedState`, with a `trigger` that records its `type` argument on the console: the
modification branch is taken, not the addition branch. -/
theorem write_trigger_condition_witness :
    Assoc.get [("a", Val.num 1)] "hasOwnProperty" = none ∧
    "b" ∉ AnyKey.members ∧
    AnyKey.handles.set (fun _ type _ s => .ok () (consoleLog (.str type) s)) 0 "b" (.num 2)
        wrappedState =
      some (.ok true
        { wrappedState with
          heap := [.raw ⟨[("a", .num 1), ("b", .num 2)], true, true, true⟩, .proxy 0]
          console := [.str "set", .str "修改原有的属性"] }) :=
  ⟨by decide, by decide,
    ((write_trigger_condition (fun _ type _ s => .ok () (consoleLog (.str type) s)) wrappedState
      0 ⟨[("a", .num 1)], true, true, true⟩ "b" (.num 2) (by decide) rfl rfl (by decide)
      (Or.inr (by decide))).1).trans (by decide)⟩

end Reactive
